import Mathlib

/-!
# webapi input plugin: the flattener of `plugins/inputs/webapi/webapi.go`

A shallow embedding of `MapInterfaceParser` (the recursive walk `parse`, the
tag collector `gatherTag`, the matcher `findIndex`, the finalize pass of
`parseMapInterface`, the extractor `trimString`) together with the pieces of
the Go standard library the walk calls (`strconv.ParseBool`, `ParseInt`,
`ParseFloat`, `FormatFloat`, `Itoa`, and the one regular expression).

Conventions.
* A Go `map[string]T` is an association list holding at most one entry per
  key; `GoMap.set` is the assignment `m[k] = v`, `GoMap.get?` the lookup
  `v, ok := m[k]`.  The order of the entries is an artefact of the model, the
  meaning of a map is its lookups and its length.
* A mapping node of the decoded document lists its entries in the order in
  which the runtime's `range` visits them.
* A Go panic is the outcome `Outcome.panicked`; an `error` result is
  `some e`, `nil` is `none`.
* `printDebug` writes to a diagnostic file and touches nothing the walk reads;
  it is left out.
-/

namespace WebApi

/-! ## Go maps -/

/-- Association list standing for a Go map with string keys. -/
abbrev GoMap (β : Type) := List (String × β)

namespace GoMap

/-- The lookup `v, ok := m[k]`. -/
def get? {β : Type} (m : GoMap β) (k : String) : Option β :=
  match m with
  | [] => none
  | (k', v) :: rest => if k' = k then some v else get? rest k

/-- The assignment `m[k] = v`: replaces the entry of `k`, or adds one. -/
def set {β : Type} (m : GoMap β) (k : String) (v : β) : GoMap β :=
  match m with
  | [] => [(k, v)]
  | (k', v') :: rest => if k' = k then (k, v) :: rest else (k', v') :: set rest k v

/-- The loop `for k, v := range src { dst[k] = v }`. -/
def assignAll {β : Type} (dst src : GoMap β) : GoMap β :=
  src.foldl (fun acc kv => set acc kv.1 kv.2) dst

/-- The keys of a map. -/
def keys {β : Type} (m : GoMap β) : List String := m.map Prod.fst

/-- A list is a map when no key occurs twice. -/
def WF {β : Type} (m : GoMap β) : Prop := (keys m).Nodup

instance decidableWF {β : Type} (m : GoMap β) : Decidable (WF m) :=
  inferInstanceAs (Decidable ((keys m).Nodup))

end GoMap

/-! ## float64 values -/

/-- A finite float64: sign and magnitude `man * 2 ^ exp`.  The sign is kept
apart so that negative zero is a value. -/
structure Float64 where
  neg : Bool
  man : Nat
  exp : Int
deriving DecidableEq, Repr

namespace Float64

/-- Strip `fuel` trailing zero bits of the mantissa at most. -/
def stripZeros : Nat → Nat → Int → Nat × Int
  | 0, m, e => (m, e)
  | fuel + 1, m, e => if m % 2 = 0 ∧ m ≠ 0 then stripZeros fuel (m / 2) (e + 1) else (m, e)

/-- Canonical form: odd mantissa, or mantissa and exponent zero. -/
def normalize (x : Float64) : Float64 :=
  if x.man = 0 then ⟨x.neg, 0, 0⟩
  else
    let r := stripZeros x.man x.man x.exp
    ⟨x.neg, r.1, r.2⟩

/-- The float64 of a natural number that a float64 holds exactly. -/
def ofNat (n : Nat) : Float64 := normalize ⟨false, n, 0⟩

end Float64

/-- Quotient rounded to the nearest integer, ties to even. -/
def roundHalfEven (num den : Nat) : Nat :=
  let q := num / den
  let r := num % den
  if 2 * r > den ∨ (2 * r = den ∧ q % 2 = 1) then q + 1 else q

/-! ## strconv -/

/-- Decimal digit value of a character. -/
def digitVal (c : Char) : Nat := c.toNat - '0'.toNat

/-- The Go `lower` of strconv: ASCII lower-casing by setting bit 0x20. -/
def lowerByte (c : Char) : Nat := c.toNat ||| 0x20

/-- Decimal text of a natural number with at least two digits. -/
def twoDigits (n : Nat) : String :=
  if n < 10 then "0" ++ toString n else toString n

/-- The call `strconv.FormatFloat(v, (the byte f), 2, 64)`: fixed notation, two
decimals, the exact value rounded half to even. -/
def formatFloat (v : Float64) : String :=
  let hundredths : Nat :=
    if 0 ≤ v.exp then v.man * 2 ^ v.exp.toNat * 100
    else roundHalfEven (v.man * 100) (2 ^ (-v.exp).toNat)
  (if v.neg then "-" else "") ++ toString (hundredths / 100) ++ "." ++ twoDigits (hundredths % 100)

/-- The call `strconv.Itoa(i)`. -/
def itoa (i : Int) : String :=
  match i with
  | Int.ofNat n => toString n
  | Int.negSucc n => "-" ++ toString (n + 1)

/-- Number of binary digits of `n`, by at most `fuel` halvings. -/
def bitLen : Nat → Nat → Nat
  | 0, _ => 0
  | fuel + 1, n => if n = 0 then 0 else bitLen fuel (n / 2) + 1

/-- The finite float32 nearest to `num / den` (ties to even, subnormals
included) as a float64; `none` when the rounded magnitude leaves the float32
range, which strconv reports as a range error. -/
def roundFloat32 (neg : Bool) (num den : Nat) : Option Float64 :=
  if num = 0 then some ⟨neg, 0, 0⟩
  else
    let k0 : Int := (bitLen num num : Int) - (bitLen den den : Int)
    let reaches : Bool :=
      if 0 ≤ k0 then decide (den * 2 ^ k0.toNat ≤ num) else decide (den ≤ num * 2 ^ (-k0).toNat)
    let k : Int := if reaches then k0 else k0 - 1
    let e2 : Int := max (k - 23) (-149)
    let m : Nat :=
      if 0 ≤ e2 then roundHalfEven num (den * 2 ^ e2.toNat)
      else roundHalfEven (num * 2 ^ (-e2).toNat) den
    if 0 ≤ e2 ∧ m * 2 ^ e2.toNat ≥ 2 ^ 128 then none
    else some (Float64.normalize ⟨neg, m, e2⟩)

/-- The mantissa loop of `readFloat` for a decimal literal: the digits read so
far as a number, how many of them follow the point, whether a point and a digit
were seen; returns these with the unread rest. -/
def readMantissa : List Char → Nat → Nat → Bool → Bool → Nat × Nat × Bool × List Char
  | [], mant, nfrac, _, sawdigits => (mant, nfrac, sawdigits, [])
  | c :: cs, mant, nfrac, sawdot, sawdigits =>
    if c = '.' then
      if sawdot then (mant, nfrac, sawdigits, c :: cs)
      else readMantissa cs mant nfrac true sawdigits
    else if '0' ≤ c ∧ c ≤ '9' then
      readMantissa cs (mant * 10 + digitVal c) (if sawdot then nfrac + 1 else nfrac) sawdot true
    else (mant, nfrac, sawdigits, c :: cs)

/-- The exponent loop of `readFloat`: the value stops growing at 10000. -/
def readExponent : List Char → Nat → Nat × List Char
  | [], e => (e, [])
  | c :: cs, e =>
    if '0' ≤ c ∧ c ≤ '9' then readExponent cs (if e < 10000 then e * 10 + digitVal c else e)
    else (e, c :: cs)

/-- The call `strconv.ParseFloat(s, 32)`; `none` is its error (syntax or
range).  Modelled for optionally signed decimal literals with an optional
decimal exponent.  The other forms strconv accepts need a character (an
underscore, p, i, n or y) that `trimString` never captures, so on every string
the walk passes, this is the library's answer: text with the 0x prefix has no
p exponent and is a syntax error in the library as well. -/
def parseFloat32 (s : String) : Option Float64 :=
  let cs := s.toList
  let neg := cs.head? = some '-'
  let body := match cs with
    | '+' :: r => r
    | '-' :: r => r
    | _ => cs
  match readMantissa body 0 0 false false with
  | (_, _, false, _) => none
  | (mant, nfrac, true, rest) =>
    let finish (e : Int) : Option Float64 :=
      let p : Int := e - (nfrac : Int)
      if 0 ≤ p then roundFloat32 neg (mant * 10 ^ p.toNat) 1
      else roundFloat32 neg mant (10 ^ (-p).toNat)
    match rest with
    | [] => finish 0
    | x :: r =>
      if lowerByte x = 101 then
        let esign : Int := if r.head? = some '-' then -1 else 1
        let digits := match r with
          | '+' :: t => t
          | '-' :: t => t
          | _ => r
        match digits with
        | [] => none
        | d :: _ =>
          if '0' ≤ d ∧ d ≤ '9' then
            match readExponent digits 0 with
            | (e, []) => finish (esign * (e : Int))
            | (_, _ :: _) => none
          else none
      else none

/-- The call `strconv.ParseBool(s)`; `none` is the syntax error. -/
def parseBool (s : String) : Option Bool :=
  if s = "1" ∨ s = "t" ∨ s = "T" ∨ s = "TRUE" ∨ s = "true" ∨ s = "True" then some true
  else if s = "0" ∨ s = "f" ∨ s = "F" ∨ s = "FALSE" ∨ s = "false" ∨ s = "False" then some false
  else none

/-- The check `underscoreOK` of strconv, after the optional sign and base
prefix: `saw` is the kind of the previous character (the characters 0, _, !
and ^ of the Go source). -/
def underscoreScan (hex : Bool) : Char → List Char → Bool
  | saw, [] => saw ≠ '_'
  | saw, c :: cs =>
    if ('0' ≤ c ∧ c ≤ '9') ∨ (hex = true ∧ 97 ≤ lowerByte c ∧ lowerByte c ≤ 102) then
      underscoreScan hex '0' cs
    else if c = '_' then
      if saw ≠ '0' then false else underscoreScan hex '_' cs
    else if saw = '_' then false
    else underscoreScan hex '!' cs

/-- The function `underscoreOK` of strconv. -/
def underscoreOK (s : List Char) : Bool :=
  let s1 := match s with
    | '-' :: r => r
    | '+' :: r => r
    | _ => s
  match s1 with
  | '0' :: p :: r =>
    if lowerByte p = 98 ∨ lowerByte p = 111 ∨ lowerByte p = 120 then
      underscoreScan (lowerByte p = 120) '0' r
    else underscoreScan false '^' s1
  | _ => underscoreScan false '^' s1

/-- The digit loop of `strconv.ParseUint` for a 64-bit result: `none` is a
syntax or range error. -/
def parseUintDigits (base : Nat) (base0 : Bool) : List Char → Nat → Option Nat
  | [], n => some n
  | c :: cs, n =>
    if c = '_' ∧ base0 = true then parseUintDigits base base0 cs n
    else
      let d : Option Nat :=
        if '0' ≤ c ∧ c ≤ '9' then some (digitVal c)
        else if 97 ≤ lowerByte c ∧ lowerByte c ≤ 122 then some (lowerByte c - 97 + 10)
        else none
      match d with
      | none => none
      | some d =>
        if d ≥ base then none
        else if n * base + d ≥ 2 ^ 64 then none
        else parseUintDigits base base0 cs (n * base + d)

/-- The call `strconv.ParseUint(s, base, 0)` on a 64-bit platform. -/
def parseUint (s : List Char) (base : Int) : Option Nat :=
  if s = [] then none
  else
    let run (b : Nat) (digits : List Char) (base0 : Bool) : Option Nat :=
      match parseUintDigits b base0 digits 0 with
      | none => none
      | some n => if base0 = true ∧ digits.contains '_' ∧ underscoreOK s = false then none else some n
    if 2 ≤ base ∧ base ≤ 36 then run base.toNat s false
    else if base = 0 then
      match s with
      | '0' :: p :: d :: r =>
        if lowerByte p = 98 then run 2 (d :: r) true
        else if lowerByte p = 111 then run 8 (d :: r) true
        else if lowerByte p = 120 then run 16 (d :: r) true
        else run 8 (p :: d :: r) true
      | '0' :: r => run 8 r true
      | _ => run 10 s true
    else none

/-- The call `strconv.ParseInt(s, base, 0)` on a 64-bit platform; `none` is
any of its errors (syntax, base, range). -/
def parseInt (s : String) (base : Int) : Option Int :=
  match s.toList with
  | [] => none
  | c :: cs =>
    let neg := c = '-'
    let body := if c = '+' ∨ c = '-' then cs else c :: cs
    match parseUint body base with
    | none => none
    | some un =>
      if ¬ neg ∧ un ≥ 2 ^ 63 then none
      else if neg ∧ un > 2 ^ 63 then none
      else some (if neg then -(un : Int) else (un : Int))

/-! ## The regular expression of `trimString`

The pattern is `\D*(0x[\dA-Fa-f]+|[\d.,A-Fa-f]+)\D*`, searched unanchored with
Go's leftmost-first (backtracking priority) semantics. -/

/-- The class `\d`. -/
def isDigit (c : Char) : Bool := decide ('0' ≤ c ∧ c ≤ '9')

/-- The class `[\dA-Fa-f]`. -/
def isHexChar (c : Char) : Bool :=
  isDigit c || decide ('A' ≤ c ∧ c ≤ 'F') || decide ('a' ≤ c ∧ c ≤ 'f')

/-- The class `[\d.,A-Fa-f]`. -/
def isValueChar (c : Char) : Bool := isHexChar c || decide (c = '.') || decide (c = ',')

/-- The capture group at the head of the input: the first alternative
`0x[\dA-Fa-f]+` is preferred, then `[\d.,A-Fa-f]+`; each repetition is greedy
and, the trailing `\D*` matching anything left, never gives characters back. -/
def matchGroup (cs : List Char) : Option (List Char) :=
  let second : Option (List Char) :=
    match cs.takeWhile isValueChar with
    | [] => none
    | r => some r
  match cs with
  | '0' :: 'x' :: rest =>
    match rest.takeWhile isHexChar with
    | [] => second
    | r => some ('0' :: 'x' :: r)
  | _ => second

/-- The pattern anchored at the head of the input: the greedy `\D*` first
takes a non-digit and tries the rest, and gives it back when that fails. -/
def matchHere : List Char → Option (List Char)
  | [] => matchGroup []
  | c :: cs =>
    if isDigit c then matchGroup (c :: cs)
    else
      match matchHere cs with
      | some r => some r
      | none => matchGroup (c :: cs)

/-- The call `FindStringSubmatch`: the match at the leftmost start position;
the result is the text of the capture group. -/
def findSubmatch : List Char → Option (List Char)
  | [] => matchHere []
  | c :: cs =>
    match matchHere (c :: cs) with
    | some r => some r
    | none => findSubmatch cs

/-! ## Data model -/

deriving instance DecidableEq for Except

/-- The type `VariableType`. -/
inductive VariableType where
  | Unknown
  | Bool
  | Int
  | Float
  | Duration
deriving DecidableEq, Repr

/-- The table `VariableNames`, read with the zero value `Unknown` for a missing key. -/
def VariableNames (t : String) : VariableType :=
  if t = "bool" then VariableType.Bool
  else if t = "int" then VariableType.Int
  else if t = "float" then VariableType.Float
  else if t = "duration" then VariableType.Duration
  else VariableType.Unknown

/-- The struct `Variable` (its field `Type` is `Typ` here). -/
structure Variable where
  Name : String
  Typ : String
  Parameter : String
deriving DecidableEq, Repr

/-- The method `Variable.getType`. -/
def Variable.getType (v : Variable) : VariableType := VariableNames v.Typ

/-- A decoded document: the dynamic types an `interface{}` node can hold.
`json.Unmarshal` yields `null`, `bool`, `float`, `str`, `seq` and `map`; `int`
is the Go `int` that `parse` has an arm for. -/
inductive Value where
  | null
  | bool (b : Bool)
  | float (x : Float64)
  | int (n : Int)
  | str (s : String)
  | seq (elems : List Value)
  | map (entries : List (String × Value))

/-- A field value (`interface{}` in `Fields`): float64, bool, int64 from
`ParseInt`, or a Go `int`. -/
inductive FieldValue where
  | float (x : Float64)
  | bool (b : Bool)
  | int64 (n : Int)
  | int (n : Int)
deriving DecidableEq, Repr

/-- The type `Fields`. -/
abbrev Fields := GoMap FieldValue

/-- The type `Tags`. -/
abbrev Tags := GoMap String

/-- The struct `MetricsTable`: one record. -/
structure MetricsTable where
  fields : Fields
  tags : Tags
deriving DecidableEq, Repr

/-- The struct `IndexTags`: a tag found inside a sequence, with the index
context it was found under. -/
structure IndexTags where
  index : Tags
  tag : Tags
deriving DecidableEq, Repr

/-- The error values `parse` returns. -/
inductive ParseError where
  | cannotParse (data : String)
  | parseFloat (s : String)
  | parseBool (s : String)
  | parseInt (s : String)
  | parseBase (parameter : String)
  | unknownType
deriving DecidableEq, Repr

/-- The parts of `MapInterfaceParser` that are fixed during a walk: `TagKeys`
and the declarations `variable`. -/
structure Config where
  TagKeys : List String
  vars : List Variable
deriving DecidableEq, Repr

/-- The parts of `MapInterfaceParser` that the walk writes. -/
structure ParserState where
  metricsTable : List MetricsTable
  customTags : Tags
  indexTags : List IndexTags
deriving DecidableEq, Repr

/-- How a call ends: it returns, or the goroutine panics; the parser object
is then left in the state `st`. -/
inductive Outcome (α : Type) where
  | returned (a : α)
  | panicked (st : ParserState)
deriving DecidableEq, Repr

/-! ## The parser -/

/-- The function `findIndex`. -/
def findIndex (dataToMatch dataToSearch : Tags) : Bool :=
  match dataToSearch with
  | [] => true
  | (k, v) :: rest =>
    match GoMap.get? dataToMatch k with
    | some val => if val = v then findIndex dataToMatch rest else false
    | none => false

/-- The method `findVariable`. -/
def findVariable (vars : List Variable) (name : String) : Option Variable :=
  match vars with
  | [] => none
  | element :: rest => if element.Name = name then some element else findVariable rest name

/-- The method `isTag`. -/
def isTag (TagKeys : List String) (node : String) : Bool :=
  match TagKeys with
  | [] => false
  | val :: rest => if val = node then true else isTag rest node

/-- The method `gatherTag`: the returned flag and the parser state after it. -/
def gatherTag (cfg : Config) (_node nodeName val : String) (indexes : Tags)
    (st : ParserState) : Bool × ParserState :=
  if isTag cfg.TagKeys nodeName then
    if indexes.length > 0 then
      let indexTags : IndexTags :=
        { index := GoMap.assignAll [] indexes, tag := GoMap.set [] nodeName val }
      (false, { st with indexTags := st.indexTags ++ [indexTags] })
    else
      (false, { st with customTags := GoMap.set st.customTags nodeName val })
  else (true, st)

/-- The function `trimName`: every hyphen, then every period, is deleted. -/
def trimName (name : String) : String :=
  String.mk ((name.toList.filter (fun c => c ≠ '-')).filter (fun c => c ≠ '.'))

/-- The method `trimString`. -/
def trimString (data : String) : Except ParseError String :=
  match findSubmatch data.toList with
  | some stats => Except.ok (String.mk stats)
  | none => Except.error (ParseError.cannotParse data)

/-- The tail of `parse` (the lines after the type switch): a record is
appended when the node produced a field; it takes a copy of the index context
as tags. -/
def emit (metricsTable : MetricsTable) (indexes : Tags) (st : ParserState) : ParserState :=
  if metricsTable.fields.length > 0 then
    { st with
      metricsTable := st.metricsTable ++
        [{ metricsTable with tags := GoMap.assignAll metricsTable.tags indexes }] }
  else st

/-- The inner switch of the arm `case string` on the declared kind, applied
to the extracted text `vvv`: the coerced field value, `none` for a kind the
switch has no case for (`Duration`, `Unknown`), or the error returned. -/
def coerce (value : Variable) (vvv : String) : Except ParseError (Option FieldValue) :=
  match value.getType with
  | VariableType.Float =>
    match parseFloat32 vvv with
    | none => Except.error (ParseError.parseFloat vvv)
    | some val => Except.ok (some (FieldValue.float val))
  | VariableType.Bool =>
    match parseBool vvv with
    | none => Except.error (ParseError.parseBool vvv)
    | some val => Except.ok (some (FieldValue.bool val))
  | VariableType.Int =>
    let IntBase : Except ParseError Int :=
      if value.Parameter.length > 0 then
        match parseInt value.Parameter 0 with
        | none => Except.error (ParseError.parseBase value.Parameter)
        | some BaseBal => Except.ok BaseBal
      else Except.ok 0
    match IntBase with
    | Except.error err => Except.error err
    | Except.ok base =>
      match parseInt vvv base with
      | none => Except.error (ParseError.parseInt vvv)
      | some val => Except.ok (some (FieldValue.int64 val))
  | _ => Except.ok none

/-- The arm `case string` of `parse` for a non-empty string with a matching
declaration `value`; `name` is the sanitized name.  The three cases of the
inner switch share their tail: `gatherTag` on the extracted text, then the
field when it answers true. -/
def parseDeclared (cfg : Config) (value : Variable) (vv node name nodeName : String)
    (metricsTable : MetricsTable) (indexes : Tags) (st : ParserState) :
    Option ParseError × ParserState :=
  match trimString vv with
  | Except.error err => (some err, st)
  | Except.ok vvv =>
    match coerce value vvv with
    | Except.error err => (some err, st)
    | Except.ok none => (none, emit metricsTable indexes st)
    | Except.ok (some val) =>
      let g := gatherTag cfg node nodeName vvv indexes st
      (none, emit (if g.1 then { metricsTable with
        fields := GoMap.set metricsTable.fields name val } else metricsTable) indexes g.2)

/-- The arm `case string` of `parse`; `name` is the sanitized name. -/
def parseString (cfg : Config) (vv node name nodeName : String)
    (metricsTable : MetricsTable) (indexes : Tags) (st : ParserState) :
    Option ParseError × ParserState :=
  if vv.length = 0 then (none, st)
  else
    match findVariable cfg.vars nodeName with
    | some value => parseDeclared cfg value vv node name nodeName metricsTable indexes st
    | none => (none, emit metricsTable indexes (gatherTag cfg node nodeName vv indexes st).2)

/-- The head of `parse` that computes `nodeName`, the dotted path of the node,
from the container path and the sanitized name. -/
def nodePath (node name : String) : String :=
  if node.length > 0 then node ++ "__" ++ name
  else if name.length > 0 then name else ""

/-- The head of `parse` that creates the record of the node: no field, and the
tag `node` holding the container path, or `__` at top level. -/
def newRecord (node : String) : MetricsTable :=
  { fields := [], tags := GoMap.set [] "node" (if node.length > 0 then node else "__") }

/-- The index context of element `i` in the arm `case []interface{}`: a copy
of the index context with `name` bound to the decimal text of `i`. -/
def newIndexed (indexes : Tags) (name : String) (i : Nat) : Tags :=
  GoMap.set (GoMap.assignAll [] indexes) name (itoa (Int.ofNat i))

mutual
/-- The method `parse`.  The type switch tries its cases in order: `string`,
`float64`, `int`, `[]interface{}`, then `interface{}`, which every remaining
non-nil value satisfies and whose body asserts the value to be a mapping (a
failed assertion panics); `nil` has its own case, and `default` is left with
no value to take. -/
def parse (cfg : Config) (data : Value) (node name : String) (indexes : Tags)
    (st : ParserState) : Outcome (Option ParseError × ParserState) :=
  let metricsTable : MetricsTable := newRecord node
  let name := trimName name
  let nodeName : String := nodePath node name
  match data with
  | Value.str vv =>
    Outcome.returned (parseString cfg vv node name nodeName metricsTable indexes st)
  | Value.float vv =>
    let g := gatherTag cfg node nodeName (formatFloat vv) indexes st
    Outcome.returned (none, emit (if g.1 then { metricsTable with
      fields := GoMap.set metricsTable.fields name (FieldValue.float vv) } else metricsTable)
      indexes g.2)
  | Value.int vv =>
    let g := gatherTag cfg node nodeName (itoa vv) indexes st
    Outcome.returned (none, emit (if g.1 then { metricsTable with
      fields := GoMap.set metricsTable.fields name (FieldValue.int vv) } else metricsTable)
      indexes g.2)
  | Value.seq vv =>
    match parseElems cfg vv node name indexes 0 st with
    | Outcome.returned st1 => Outcome.returned (none, emit metricsTable indexes st1)
    | Outcome.panicked st1 => Outcome.panicked st1
  | Value.map vv =>
    match parseEntries cfg vv nodeName indexes st with
    | Outcome.returned st1 => Outcome.returned (none, emit metricsTable indexes st1)
    | Outcome.panicked st1 => Outcome.panicked st1
  | Value.bool _ => Outcome.panicked st
  | Value.null => Outcome.returned (none, st)
/-- The loop of the arm `case []interface{}`: element `i` is parsed under a
copy of the index context extended by `name -> i`; the error it returns is
dropped. -/
def parseElems (cfg : Config) (elems : List Value) (node name : String) (indexes : Tags)
    (i : Nat) (st : ParserState) : Outcome ParserState :=
  match elems with
  | [] => Outcome.returned st
  | u :: rest =>
    match parse cfg u node name (newIndexed indexes name i) st with
    | Outcome.returned r => parseElems cfg rest node name indexes (i + 1) r.2
    | Outcome.panicked st1 => Outcome.panicked st1
/-- The loop of the arm `case interface{}` over the entries of a mapping: each
value is parsed under the path of this node; the error it returns is dropped. -/
def parseEntries (cfg : Config) (entries : List (String × Value)) (nodeName : String)
    (indexes : Tags) (st : ParserState) : Outcome ParserState :=
  match entries with
  | [] => Outcome.returned st
  | (k, v) :: rest =>
    match parse cfg v nodeName k indexes st with
    | Outcome.returned r => parseEntries cfg rest nodeName indexes r.2
    | Outcome.panicked st1 => Outcome.panicked st1
end

/-- The finalize loop body of `parseMapInterface` for the scoped tags: each
one whose index context `findIndex` finds in the tags as they stand is
assigned onto them. -/
def applyIndexTags (tags : Tags) (indexTags : List IndexTags) : Tags :=
  indexTags.foldl
    (fun t indexTag => if findIndex t indexTag.index then GoMap.assignAll t indexTag.tag else t)
    tags

/-- The finalize loop body of `parseMapInterface` for one record. -/
def finalize (callerTags customTags : Tags) (indexTags : List IndexTags)
    (m : MetricsTable) : MetricsTable :=
  { m with
    tags := applyIndexTags (GoMap.assignAll (GoMap.assignAll m.tags callerTags) customTags)
      indexTags }

/-- The parser state a call of `parse` leaves behind. -/
def Outcome.finalState (o : Outcome (Option ParseError × ParserState)) : ParserState :=
  match o with
  | Outcome.returned r => r.2
  | Outcome.panicked st => st

/-- The parser state a loop of `parse` calls leaves behind. -/
def Outcome.loopState (o : Outcome ParserState) : ParserState :=
  match o with
  | Outcome.returned st => st
  | Outcome.panicked st => st

/-- A parser as `gatherServer` creates it: no records, no tags. -/
def ParserState.fresh : ParserState :=
  { metricsTable := [], customTags := [], indexTags := [] }

/-- The method `parseMapInterface` on a fresh parser with the given `TagKeys`:
the record list, or the error of the top-level `parse`. -/
def parseMapInterface (TagKeys : List String) (data : Value) (callerTags : Tags)
    (vars : List Variable) : Outcome (Except ParseError (List MetricsTable)) :=
  match parse { TagKeys := TagKeys, vars := vars } data "" "" [] ParserState.fresh with
  | Outcome.panicked st => Outcome.panicked st
  | Outcome.returned (some err, _) => Outcome.returned (Except.error err)
  | Outcome.returned (none, st) =>
    Outcome.returned (Except.ok (st.metricsTable.map (finalize callerTags st.customTags st.indexTags)))

/-- Leaves that can produce a field or a tag. -/
def Value.isLeaf : Value → Bool
  | Value.str _ => true
  | Value.float _ => true
  | Value.int _ => true
  | _ => false

mutual
/-- No sequence inside the node, visited under `name`, binds one of the index
keys `keys`: a sequence binds the sanitized name it is visited under. -/
def rebindFree (keys : List String) : Value → String → Bool
  | Value.seq elems, name =>
    !(keys.contains (trimName name)) && rebindFreeElems keys elems (trimName name)
  | Value.map entries, _ => rebindFreeEntries keys entries
  | _, _ => true
/-- The check `rebindFree` for the elements of a sequence visited under `name`. -/
def rebindFreeElems (keys : List String) : List Value → String → Bool
  | [], _ => true
  | u :: rest, name => rebindFree keys u name && rebindFreeElems keys rest name
/-- The check `rebindFree` for the entries of a mapping. -/
def rebindFreeEntries (keys : List String) : List (String × Value) → Bool
  | [] => true
  | (k, v) :: rest => rebindFree keys v k && rebindFreeEntries keys rest
end

/-! ## Relations between parser states -/

/-- The records a state holds beyond those of an earlier state all have
exactly one field. -/
def AddsSingletons (a b : ParserState) : Prop :=
  ∃ new : List MetricsTable, b.metricsTable = a.metricsTable ++ new ∧
    ∀ r ∈ new, r.fields.length = 1

/-- The records added between two parser states all carry, for the index keys
`K`, the bindings of the index context `ctx`. -/
def Carries (K : List String) (ctx : Tags) (a b : ParserState) : Prop :=
  ∃ new : List MetricsTable, b.metricsTable = a.metricsTable ++ new ∧
    ∀ r ∈ new, ∀ x ∈ K, ∀ w, GoMap.get? ctx x = some w → GoMap.get? r.tags x = some w

/-- The scoped tags of a later parser state extend those of an earlier one. -/
def IndexTagsGrow (a b : ParserState) : Prop :=
  ∃ more : List IndexTags, b.indexTags = a.indexTags ++ more

/-! ## Example documents -/

/-- The document `{"a": 1, "s": "x", "l": [2]}`. -/
def docFlat : Value :=
  Value.map [("a", Value.float ⟨false, 1, 0⟩), ("s", Value.str "x"),
    ("l", Value.seq [Value.float ⟨false, 1, 1⟩])]

/-- The record of the element of `l` in `docFlat`, as returned under the
caller tag `url`. -/
def docFlatRecordL : MetricsTable :=
  { fields := [("l", FieldValue.float ⟨false, 1, 1⟩)],
    tags := [("node", "__"), ("l", "0"), ("url", "u")] }

/-- What flattening `docFlat` returns under the caller tag `url`. -/
def docFlatRecords : List MetricsTable :=
  [{ fields := [("a", FieldValue.float ⟨false, 1, 0⟩)], tags := [("node", "__"), ("url", "u")] },
   docFlatRecordL]

/-- The document `{"n": 1, "up": true}`, its entries visited in this order. -/
def docBool : Value :=
  Value.map [("n", Value.float ⟨false, 1, 0⟩), ("up", Value.bool true)]

/-- Spec-side statement of the classification of one leaf by `TagKeys`, in
the words of the specification: when the dotted path of the leaf is listed, no
record is added and one tag keyed by the path is recorded, global under an
empty index context and scoped with the index context otherwise; when it is
not listed, one record holding the field of the leaf is added and no tag is
recorded.  `st` is the parser before the leaf and `st'` after it. -/
def ClassifiedByTagKeys (TagKeys : List String) (path name tagText : String)
    (field : FieldValue) (node : String) (indexes : Tags) (st st' : ParserState) : Prop :=
  (path ∈ TagKeys →
    st'.metricsTable = st.metricsTable ∧
    (indexes = [] →
      st'.customTags = GoMap.set st.customTags path tagText ∧ st'.indexTags = st.indexTags) ∧
    (indexes ≠ [] →
      st'.customTags = st.customTags ∧
      st'.indexTags = st.indexTags ++ [{ index := indexes, tag := [(path, tagText)] }])) ∧
  (path ∉ TagKeys →
    st'.metricsTable = st.metricsTable ++
      [{ fields := [(name, field)],
         tags := GoMap.assignAll [("node", if node = "" then "__" else node)] indexes }] ∧
    st'.customTags = st.customTags ∧ st'.indexTags = st.indexTags)

/-- The parser of the test `TestHttpJsonSingle`: no `TagKeys`, the
declarations `integer` (float) and `parent__child` (int). -/
def cfgSingle : Config :=
  { TagKeys := [],
    vars := [{ Name := "integer", Typ := "float", Parameter := "" },
             { Name := "parent__child", Typ := "int", Parameter := "" }] }

/-- Spec-side: among the scoped tags `post`, discovered after the scoped tags
`pre`, the last one that holds the key `k` and whose index context `findIndex`
finds in the tags `seen pre`; `acc` is the answer so far.  `seen` says which
tags of the record a scoped tag is matched against, given the scoped tags
discovered before it. -/
def lastMatchingFrom (k : String) (seen : List IndexTags → Tags) :
    List IndexTags → List IndexTags → Option IndexTags → Option IndexTags
  | _, [], acc => acc
  | pre, it :: post, acc =>
    lastMatchingFrom k seen (pre ++ [it]) post
      (if findIndex (seen pre) it.index = true ∧ (GoMap.get? it.tag k).isSome = true
        then some it else acc)

/-- Spec-side: the final value of the tag key `k` of a record in the words of
the specification: the value from the last matching scoped tag that has `k`,
otherwise the global tag, otherwise the caller tag, otherwise the value of the
record itself. -/
def finalTagValue (k : String) (seen : List IndexTags → Tags)
    (ownTags callerTags globalTags : Tags) (scopedTags : List IndexTags) : Option String :=
  match lastMatchingFrom k seen [] scopedTags none with
  | some it => GoMap.get? it.tag k
  | none => ((GoMap.get? globalTags k).or (GoMap.get? callerTags k)).or (GoMap.get? ownTags k)

/-- The record of `x` in `{"server": [{"name": "A", "x": 1}]}` as the walk
leaves it. -/
def recServerX : MetricsTable :=
  { fields := [("x", FieldValue.float ⟨false, 1, 0⟩)],
    tags := [("node", "server"), ("server", "0")] }

/-- The scoped tag of `name` in `{"server": [{"name": "A", "x": 1}]}` under
the tag key `server__name`. -/
def tagServerName : IndexTags :=
  { index := [("server", "0")], tag := [("server__name", "A")] }

/-- The record of `thid` of the second client of the test document
`validJSONTag` as the walk leaves it. -/
def recClient1 : MetricsTable :=
  { fields := [("thid", FieldValue.float ⟨false, 4185, 1⟩)],
    tags := [("node", "oscam__status__client"), ("client", "1")] }

/-- The scoped tags of the two client names of `validJSONTag`, in discovery
order. -/
def tagsClientNames : List IndexTags :=
  [{ index := [("client", "0")], tag := [("oscam__status__client__name", "Client0")] },
   { index := [("client", "1")], tag := [("oscam__status__client__name", "Client1")] }]

/-- The parser with the one tag key `client__name`. -/
def cfgClientName : Config := { TagKeys := ["client__name"], vars := [] }

/-- The first element of `client` in
`{"client": [{"name": "A", "client": [{"x": 1}, {"x": 2}]}, {"name": "B"}]}`:
it holds a sequence that is again called `client`. -/
def elemNested : Value :=
  Value.map [("name", Value.str "A"),
    ("client", Value.seq [Value.map [("x", Value.float ⟨false, 1, 0⟩)],
      Value.map [("x", Value.float ⟨false, 1, 1⟩)]])]

/-- The document
`{"client": [{"name": "A", "client": [{"x": 1}, {"x": 2}]}, {"name": "B"}]}`. -/
def docNested : Value :=
  Value.map [("client", Value.seq [elemNested, Value.map [("name", Value.str "B")]])]

/-- The entries of the first element of `client` in
`{"client": [{"name": "A", "x": 1}, {"name": "B", "x": 2}]}`. -/
def entriesClient0 : List (String × Value) :=
  [("name", Value.str "A"), ("x", Value.float ⟨false, 1, 0⟩)]

/-- The document `{"client": [{"name": "A", "x": 1}, {"name": "B", "x": 2}]}`. -/
def docClients : Value :=
  Value.map [("client", Value.seq [Value.map entriesClient0,
    Value.map [("name", Value.str "B"), ("x", Value.float ⟨false, 1, 1⟩)]])]

/-- The record of `x` of the first client of `docClients` as the walk leaves it. -/
def recClientX0 : MetricsTable :=
  { fields := [("x", FieldValue.float ⟨false, 1, 0⟩)],
    tags := [("node", "client"), ("client", "0")] }

/-- The parser after the first element of `client` in `docClients`. -/
def stateAfterClient0 : ParserState :=
  { metricsTable := [recClientX0], customTags := [],
    indexTags := [{ index := [("client", "0")], tag := [("client__name", "A")] }] }

/-- The parser after the walk of `docClients`. -/
def stateAfterClients : ParserState :=
  { metricsTable := [recClientX0,
      { fields := [("x", FieldValue.float ⟨false, 1, 1⟩)],
        tags := [("node", "client"), ("client", "1")] }],
    customTags := [],
    indexTags := [{ index := [("client", "0")], tag := [("client__name", "A")] },
      { index := [("client", "1")], tag := [("client__name", "B")] }] }

/-! ## Spec-side definitions and documents of the later claims -/

/-- A node that is `null` or the empty string. -/
def isEmptyLeaf : Value → Bool
  | Value.null => true
  | Value.str s => decide (s.length = 0)
  | _ => false

mutual
/-- Spec-side: the tree with every mapping entry whose value is `null` or the
empty string replaced by nothing, at every depth.  Elements of sequences stay
where they are. -/
def stripEmpty : Value → Value
  | Value.seq elems => Value.seq (stripEmptyElems elems)
  | Value.map entries => Value.map (stripEmptyEntries entries)
  | Value.null => Value.null
  | Value.bool b => Value.bool b
  | Value.float x => Value.float x
  | Value.int n => Value.int n
  | Value.str s => Value.str s
/-- The function `stripEmpty` on the elements of a sequence. -/
def stripEmptyElems : List Value → List Value
  | [] => []
  | u :: rest => stripEmpty u :: stripEmptyElems rest
/-- The function `stripEmpty` on the entries of a mapping. -/
def stripEmptyEntries : List (String × Value) → List (String × Value)
  | [] => []
  | (k, v) :: rest =>
    if isEmptyLeaf v then stripEmptyEntries rest else (k, stripEmpty v) :: stripEmptyEntries rest
end

/-- A decoded number: a float64, or a Go `int`. -/
inductive Number where
  | float (x : Float64)
  | int (n : Int)
deriving DecidableEq, Repr

/-- The tree node of a number. -/
def Number.toValue : Number → Value
  | Number.float x => Value.float x
  | Number.int n => Value.int n

/-- The field value of a number. -/
def Number.toField : Number → FieldValue
  | Number.float x => FieldValue.float x
  | Number.int n => FieldValue.int n

/-- Spec-side: the records of a sequence of numbers visited under the
container path `node` and the sanitized name `name` with the index context
`indexes`, the first element having the position `i`: one record per element,
holding the field `name` with the number and, over the tag `node`, the index
context extended by `name` bound to the position. -/
def numberRecords (node name : String) (indexes : Tags) : List Number → Nat → List MetricsTable
  | [], _ => []
  | x :: rest, i =>
    { fields := [(name, x.toField)],
      tags := GoMap.assignAll [("node", if node = "" then "__" else node)]
        (newIndexed indexes name i) } :: numberRecords node name indexes rest (i + 1)

/-- Spec-side: the run specified at a decimal digit: `0x` and the longest run
of hexadecimal digits when the text starts with `0x` and a hexadecimal digit,
otherwise the longest run of digits, periods, commas and the letters A-F,
a-f. -/
def runAtDigit (rest : List Char) : List Char :=
  match rest with
  | '0' :: 'x' :: h :: t =>
    if isHexChar h then '0' :: 'x' :: (h :: t).takeWhile isHexChar
    else ('0' :: 'x' :: h :: t).takeWhile isValueChar
  | _ => rest.takeWhile isValueChar

/-- Spec-side: what `trimString` is specified to extract from a string that
holds a decimal digit: the run that starts at the first decimal digit. -/
def extractAtFirstDigit (cs : List Char) : List Char :=
  runAtDigit (cs.dropWhile (fun c => !isDigit c))

/-- The document `{"oscam":{"status":{"client":[{"thid":90}]}}}` of the test
`validJSONArrayOfArray`. -/
def docArrayOfArray : Value :=
  Value.map [("oscam", Value.map [("status", Value.map [("client",
    Value.seq [Value.map [("thid", Value.float (Float64.ofNat 90))]])])])]

/-- The two records of the document
`{"parent":{"child":"3","ignored_child":"hi"},"integer":"693500.0"}`. -/
def recInteger : MetricsTable :=
  { fields := [("integer", FieldValue.float (Float64.ofNat 693500))], tags := [("node", "__")] }

/-- The record of `child` in the same document. -/
def recChild : MetricsTable :=
  { fields := [("child", FieldValue.int64 3)], tags := [("node", "parent")] }

/-! ## The leaves of a tree in the order of the walk -/

/-- A node that is neither a sequence nor a mapping. -/
def Value.isAtom : Value → Bool
  | Value.seq _ => false
  | Value.map _ => false
  | _ => true

/-- A native boolean, the node on which `parse` panics. -/
def Value.isBool : Value → Bool
  | Value.bool _ => true
  | _ => false

/-- A leaf as the walk reaches it: the arguments of the call of `parse` on it
(container path `node`, `name`, index context), and `segs`, the sanitized keys
of the mappings entered on the way from the root. -/
structure Site where
  leaf : Value
  node : String
  name : String
  indexes : Tags
  segs : List String

mutual
/-- The leaves below a node in the order in which `parse` reaches them, each
with the arguments of its call.  `root` says that no mapping was entered yet;
`segs` are the sanitized keys of the mappings entered so far. -/
def sites : Value → String → String → Tags → Bool → List String → List Site
  | Value.seq elems, node, name, ctx, root, segs =>
    sitesElems elems node (trimName name) ctx 0 root segs
  | Value.map entries, node, name, ctx, root, segs =>
    sitesEntries entries (nodePath node (trimName name)) ctx
      (if root then segs else segs ++ [trimName name])
  | Value.null, node, name, ctx, _, segs => [⟨Value.null, node, name, ctx, segs⟩]
  | Value.bool b, node, name, ctx, _, segs => [⟨Value.bool b, node, name, ctx, segs⟩]
  | Value.float x, node, name, ctx, _, segs => [⟨Value.float x, node, name, ctx, segs⟩]
  | Value.int n, node, name, ctx, _, segs => [⟨Value.int n, node, name, ctx, segs⟩]
  | Value.str v, node, name, ctx, _, segs => [⟨Value.str v, node, name, ctx, segs⟩]
/-- The leaves below the elements of a sequence, element `i` first. -/
def sitesElems : List Value → String → String → Tags → Nat → Bool → List String → List Site
  | [], _, _, _, _, _, _ => []
  | u :: rest, node, name, ctx, i, root, segs =>
    sites u node name (newIndexed ctx name i) root segs ++
      sitesElems rest node name ctx (i + 1) root segs
/-- The leaves below the entries of a mapping whose path is `nodeName`. -/
def sitesEntries : List (String × Value) → String → Tags → List String → List Site
  | [], _, _, _ => []
  | (k, v) :: rest, nodeName, ctx, segs =>
    sites v nodeName k ctx false segs ++ sitesEntries rest nodeName ctx segs
end

/-- The leaves of a document in the order of the walk of `parseMapInterface`. -/
def sitesOf (data : Value) : List Site := sites data "" "" [] true []

/-- The dotted path of a leaf, `nodeName` in `parse`. -/
def Site.path (s : Site) : String := nodePath s.node (trimName s.name)

/-- What the call of `parse` on a leaf adds to a fresh parser. -/
def Site.effect (cfg : Config) (s : Site) : ParserState :=
  (parse cfg s.leaf s.node s.name s.indexes ParserState.fresh).finalState

/-- A call outcome without the error value, which the loops drop. -/
def Outcome.dropError (o : Outcome (Option ParseError × ParserState)) : Outcome ParserState :=
  match o with
  | Outcome.returned r => Outcome.returned r.2
  | Outcome.panicked st => Outcome.panicked st

/-- The calls of `parse` on a list of leaves, one after the other, the errors
dropped; a panic ends the run. -/
def runSites (cfg : Config) : List Site → ParserState → Outcome ParserState
  | [], st => Outcome.returned st
  | s :: rest, st =>
    match parse cfg s.leaf s.node s.name s.indexes st with
    | Outcome.returned r => runSites cfg rest r.2
    | Outcome.panicked st1 => Outcome.panicked st1

/-- A parser state with the records, global tags and scoped tags of `d` added. -/
def ParserState.add (st d : ParserState) : ParserState :=
  { metricsTable := st.metricsTable ++ d.metricsTable,
    customTags := GoMap.assignAll st.customTags d.customTags,
    indexTags := st.indexTags ++ d.indexTags }

/-- The records the leaves of a list add, in order. -/
def recordsOf (cfg : Config) (l : List Site) : List MetricsTable :=
  (l.map (fun s => (s.effect cfg).metricsTable)).flatten

/-- The scoped tags the leaves of a list add, in order. -/
def scopedOf (cfg : Config) (l : List Site) : List IndexTags :=
  (l.map (fun s => (s.effect cfg).indexTags)).flatten

/-- The assignments to the global tags the leaves of a list make, in order. -/
def globalsOf (cfg : Config) (l : List Site) : Tags :=
  (l.map (fun s => (s.effect cfg).customTags)).flatten

/-- Spec-side: the sanitized keys of a path joined by the separator. -/
def joinPath : List String → String
  | [] => ""
  | [a] => a
  | a :: b :: rest => a ++ "__" ++ joinPath (b :: rest)

mutual
/-- No key of a mapping of the tree is empty after sanitization. -/
def keysNonEmpty : Value → Bool
  | Value.seq elems => keysNonEmptyElems elems
  | Value.map entries => keysNonEmptyEntries entries
  | _ => true
/-- The check `keysNonEmpty` for the elements of a sequence. -/
def keysNonEmptyElems : List Value → Bool
  | [] => true
  | u :: rest => keysNonEmpty u && keysNonEmptyElems rest
/-- The check `keysNonEmpty` for the entries of a mapping. -/
def keysNonEmptyEntries : List (String × Value) → Bool
  | [] => true
  | (k, v) :: rest => decide (trimName k ≠ "") && keysNonEmpty v && keysNonEmptyEntries rest
end

/-- The value of the first entry with the key `k`. -/
def lookupEntry (entries : List (String × Value)) (k : String) : Option Value :=
  match entries with
  | [] => none
  | (k', v) :: rest => if k' = k then some v else lookupEntry rest k

/-- Spec-side: the node reached from a node by descending through mappings
along the keys `ks`; no sequence is passed on the way. -/
def Value.atKeys (v : Value) : List String → Option Value
  | [] => some v
  | k :: ks =>
    match v with
    | Value.map entries =>
      match lookupEntry entries k with
      | some w => w.atKeys ks
      | none => none
    | _ => none

/-- The path of the node reached by the keys `ks` from a node visited
with the container path `node` and the name `name`. -/
def pathFrom (node name : String) : List String → String
  | [] => nodePath node (trimName name)
  | k :: ks => pathFrom (nodePath node (trimName name)) k ks

/-- The path of the node reached by the keys `ks` from the root. -/
def keysPath (ks : List String) : String := pathFrom "" "" ks

/-- The leaf adds a record. -/
def Site.yields (cfg : Config) (s : Site) : Bool := !(s.effect cfg).metricsTable.isEmpty

/-- A document with one listed string outside every sequence and records
inside and outside a sequence. -/
def docGlobalTag : Value :=
  Value.map [("site", Value.map [("name", Value.str "north")]),
    ("level", Value.int 3),
    ("cells", Value.seq [Value.map [("v", Value.int 1)], Value.map [("v", Value.int 2)]])]

/-- The records of `docGlobalTag` with `site.name` listed. -/
def recsGlobalTag : List MetricsTable :=
  [{ fields := [("level", FieldValue.int 3)],
     tags := [("node", "__"), ("site__name", "north")] },
   { fields := [("v", FieldValue.int 1)],
     tags := [("node", "cells"), ("cells", "0"), ("site__name", "north")] },
   { fields := [("v", FieldValue.int 2)],
     tags := [("node", "cells"), ("cells", "1"), ("site__name", "north")] }]

/-- A document whose sequence is stored under the key `node`. -/
def docSequenceNamedNode : Value := Value.map [("node", Value.seq [Value.int 1])]

/-- A document with leaves at top level, below two mappings and inside a
sequence of mappings. -/
def docNodePaths : Value :=
  Value.map [("up", Value.int 1),
    ("a", Value.map [("b", Value.map [("c", Value.int 2)])]),
    ("list", Value.seq [Value.map [("x", Value.int 3)], Value.int 4])]

/-- The records of `docNodePaths`. -/
def recsNodePaths : List MetricsTable :=
  [{ fields := [("up", FieldValue.int 1)], tags := [("node", "__")] },
   { fields := [("c", FieldValue.int 2)], tags := [("node", "a__b")] },
   { fields := [("x", FieldValue.int 3)], tags := [("node", "list"), ("list", "0")] },
   { fields := [("list", FieldValue.int 4)], tags := [("node", "__"), ("list", "1")] }]

/-- Spec-side: the second tree is the first with the entries of some of its
mappings, at any depth, in another order.  Go visits the entries of a map in
an unspecified order; a tree fixes one visiting order. -/
inductive Reorder : Value → Value → Prop where
  | same (v : Value) : Reorder v v
  | chain {a b c : Value} : Reorder a b → Reorder b c → Reorder a c
  | swap (pre post : List (String × Value)) (e1 e2 : String × Value) :
    Reorder (Value.map (pre ++ e1 :: e2 :: post)) (Value.map (pre ++ e2 :: e1 :: post))
  | inSeq (pre post : List Value) {u w : Value} :
    Reorder u w → Reorder (Value.seq (pre ++ u :: post)) (Value.seq (pre ++ w :: post))
  | inMap (pre post : List (String × Value)) (k : String) {u w : Value} :
    Reorder u w →
    Reorder (Value.map (pre ++ (k, u) :: post)) (Value.map (pre ++ (k, w) :: post))

/-- A document with two keys that sanitize to the same path. -/
def docCollidingKeys : Value :=
  Value.map [("a.b", Value.str "x"), ("ab", Value.str "y"), ("n", Value.int 1)]

/-- The document `docCollidingKeys` with its first two entries visited in the
other order. -/
def docCollidingKeysSwapped : Value :=
  Value.map [("ab", Value.str "y"), ("a.b", Value.str "x"), ("n", Value.int 1)]

/-- A document with a global tag, scoped tags and records. -/
def docOrders : Value :=
  Value.map [("host", Value.str "h1"),
    ("up", Value.int 1),
    ("disks", Value.seq [
      Value.map [("name", Value.str "sda"), ("used", Value.int 10)],
      Value.map [("used", Value.int 20), ("name", Value.str "sdb")]])]

/-- The document `docOrders` under another visiting order of its mappings. -/
def docOrdersSwapped : Value :=
  Value.map [("up", Value.int 1),
    ("host", Value.str "h1"),
    ("disks", Value.seq [
      Value.map [("used", Value.int 10), ("name", Value.str "sda")],
      Value.map [("used", Value.int 20), ("name", Value.str "sdb")]])]

/-- The records of `docOrders` with `host` and `disks__name` listed. -/
def recsOrders : List MetricsTable :=
  [{ fields := [("up", FieldValue.int 1)], tags := [("node", "__"), ("host", "h1")] },
   { fields := [("used", FieldValue.int 10)],
     tags := [("node", "disks"), ("disks", "0"), ("host", "h1"), ("disks__name", "sda")] },
   { fields := [("used", FieldValue.int 20)],
     tags := [("node", "disks"), ("disks", "1"), ("host", "h1"), ("disks__name", "sdb")] }]

/-! ## The calls of `parse` below a node -/

/-- The arguments of one call of `parse`. -/
structure Call where
  data : Value
  node : String
  name : String
  indexes : Tags

mutual
/-- The recursive calls that `parse`, called on a node with the given
arguments, makes below it, in the order of the walk when no call panics. -/
def calls : Value → String → String → Tags → List Call
  | Value.seq elems, node, name, ctx => callsElems elems node (trimName name) ctx 0
  | Value.map entries, node, name, ctx =>
    callsEntries entries (nodePath node (trimName name)) ctx
  | _, _, _, _ => []
/-- The calls of the loop over the elements of a sequence, from element `i` on. -/
def callsElems : List Value → String → String → Tags → Nat → List Call
  | [], _, _, _, _ => []
  | u :: rest, node, name, ctx, i =>
    ⟨u, node, name, newIndexed ctx name i⟩ ::
      (calls u node name (newIndexed ctx name i) ++ callsElems rest node name ctx (i + 1))
/-- The calls of the loop over the entries of a mapping. -/
def callsEntries : List (String × Value) → String → Tags → List Call
  | [], _, _ => []
  | (k, v) :: rest, nodeName, ctx =>
    ⟨v, nodeName, k, ctx⟩ :: (calls v nodeName k ctx ++ callsEntries rest nodeName ctx)
end

/-- A document with a sequence of sequences. -/
def docSeqOfSeq : Value :=
  Value.map [("list", Value.seq [Value.seq [Value.int 5], Value.seq [Value.int 6]])]

/-- An element of a sequence `disks` that holds a sequence `parts`. -/
def elemDisk : Value :=
  Value.map [("size", Value.int 7),
    ("parts", Value.seq [Value.map [("used", Value.int 1)], Value.map [("used", Value.int 2)]])]

/-! ## The caller `gatherServer` -/

/-- One call `acc.AddFields(measurement, fields, tags)`. -/
structure Emitted where
  measurement : String
  fields : Fields
  tags : Tags
deriving DecidableEq, Repr

/-- The measurement name `msrmnt_name` of `gatherServer`. -/
def measurementName (Name : String) : String :=
  if Name = "" then "webapi" else "webapi_" ++ Name

/-- The method `gatherServer` from the decoded response `f` on: `host` is the
host of the parsed `serverURL`, `responseTime` the time `sendRequest`
measured.  The result lists the calls of `acc.AddFields`, or is the error
returned. -/
def gatherServer (Name : String) (TagKeys : List String) (vars : List Variable)
    (serverURL host : String) (responseTime : Float64) (f : Value) :
    Outcome (Except ParseError (List Emitted)) :=
  let msrmnt_name := measurementName Name
  let tags : Tags := [("url", serverURL), ("server", host)]
  match parseMapInterface TagKeys f tags vars with
  | Outcome.panicked st => Outcome.panicked st
  | Outcome.returned (Except.error err) => Outcome.returned (Except.error err)
  | Outcome.returned (Except.ok metricsTable) =>
    Outcome.returned (Except.ok (metricsTable.map (fun metric =>
      { measurement := msrmnt_name,
        fields := GoMap.set metric.fields "response_time" (FieldValue.float responseTime),
        tags := metric.tags })))

/-- The number of fields handed to the accumulator, `acc.NFields()`. -/
def nFields (emitted : List Emitted) : Nat := (emitted.map (fun m => m.fields.length)).sum

/-- The document `validJSON` of the tests. -/
def docValidJSON : Value :=
  Value.map [
    ("parent", Value.map [("child", Value.str "3"), ("ignored_child", Value.str "hi")]),
    ("ignored_null", Value.null),
    ("integer", Value.str "693500.0"),
    ("list", Value.seq [Value.float (Float64.ofNat 3), Value.float (Float64.ofNat 4)]),
    ("ignored_parent", Value.map [("another_ignored_null", Value.null),
      ("ignored_string", Value.str "hello, world!")]),
    ("another_list", Value.seq [Value.float (Float64.ofNat 4)])]

/-- The caller tags of the test server. -/
def tagsServer1 : Tags :=
  [("url", "http://server1.example.com/metrics/"), ("server", "server1.example.com")]

/-- The records of `docValidJSON` under the parser and the caller tags of the
test `TestHttpJsonFieldNo`. -/
def recsValidJSON : List MetricsTable :=
  [{ fields := [("child", FieldValue.int64 3)],
     tags := ("node", "parent") :: tagsServer1 },
   { fields := [("integer", FieldValue.float (Float64.ofNat 693500))],
     tags := ("node", "__") :: tagsServer1 },
   { fields := [("list", FieldValue.float (Float64.ofNat 3))],
     tags := ("node", "__") :: ("list", "0") :: tagsServer1 },
   { fields := [("list", FieldValue.float (Float64.ofNat 4))],
     tags := ("node", "__") :: ("list", "1") :: tagsServer1 },
   { fields := [("another_list", FieldValue.float (Float64.ofNat 4))],
     tags := ("node", "__") :: ("another_list", "0") :: tagsServer1 }]

/-- A response with a leaf named `response_time`. -/
def docResponseTime : Value :=
  Value.map [("response_time", Value.int 5), ("load", Value.int 2)]

/-! ## Leaves whose call returns an error -/

/-- The call of `parse` on the node, visited under the container path `node`
and the name `name`, returns an error. -/
def offends (cfg : Config) (data : Value) (node name : String) : Bool :=
  match parse cfg data node name [] ParserState.fresh with
  | Outcome.returned (some _, _) => true
  | _ => false

mutual
/-- Spec-side: the tree with `null` in the place of every leaf whose call
returns an error; `node` and `name` are the arguments the node is visited
with. -/
def withoutOffending (cfg : Config) : Value → String → String → Value
  | Value.seq elems, node, name =>
    Value.seq (withoutOffendingElems cfg elems node (trimName name))
  | Value.map entries, node, name =>
    Value.map (withoutOffendingEntries cfg entries (nodePath node (trimName name)))
  | Value.null, _, _ => Value.null
  | Value.bool b, _, _ => Value.bool b
  | Value.float x, _, _ => Value.float x
  | Value.int n, _, _ => Value.int n
  | Value.str v, node, name =>
    if offends cfg (Value.str v) node name then Value.null else Value.str v
/-- The elements of a sequence without the offending leaves. -/
def withoutOffendingElems (cfg : Config) : List Value → String → String → List Value
  | [], _, _ => []
  | u :: rest, node, name =>
    withoutOffending cfg u node name :: withoutOffendingElems cfg rest node name
/-- The entries of a mapping without the offending leaves. -/
def withoutOffendingEntries (cfg : Config) :
    List (String × Value) → String → List (String × Value)
  | [], _ => []
  | (k, v) :: rest, nodeName =>
    (k, withoutOffending cfg v nodeName k) :: withoutOffendingEntries cfg rest nodeName
end

mutual
/-- The tree holds no native boolean. -/
def noBool : Value → Bool
  | Value.seq elems => noBoolElems elems
  | Value.map entries => noBoolEntries entries
  | Value.bool _ => false
  | _ => true
/-- The check `noBool` for the elements of a sequence. -/
def noBoolElems : List Value → Bool
  | [] => true
  | u :: rest => noBool u && noBoolElems rest
/-- The check `noBool` for the entries of a mapping. -/
def noBoolEntries : List (String × Value) → Bool
  | [] => true
  | (_, v) :: rest => noBool v && noBoolEntries rest
end

/-- A document whose sequence `list`, declared Int, starts with a string that
holds no number. -/
def docOffendingElement : Value :=
  Value.map [("list", Value.seq [Value.str "x", Value.int 1]), ("t", Value.str "n/a")]

/-- The declarations for `docOffendingElement`. -/
def varsOffending : List Variable :=
  [{ Name := "list", Typ := "int", Parameter := "" },
   { Name := "t", Typ := "float", Parameter := "" }]

/-- A document whose sequence is stored under a key with a hyphen. -/
def docHyphenKey : Value := Value.map [("a-b", Value.seq [Value.float (Float64.ofNat 7)])]

/-- A document whose sequence is stored under the key `server`, which is also
the key of a tag that `gatherServer` passes. -/
def docSequenceNamedServer : Value :=
  Value.map [("server", Value.seq [Value.float (Float64.ofNat 7),
    Value.float (Float64.ofNat 8)])]

/-- The numbers of the entry `list` of `docValidJSON`. -/
def numbersList : List Number :=
  [Number.float (Float64.ofNat 3), Number.float (Float64.ofNat 4)]

/-! ## Maps: lookups after assignments -/

theorem GoMap.get?_set_self {β : Type} (m : GoMap β) (k : String) (v : β) :
    GoMap.get? (GoMap.set m k v) k = some v := by
  induction m with
  | nil => simp [GoMap.set, GoMap.get?]
  | cons e rest ih =>
    obtain ⟨k', v'⟩ := e
    by_cases h : k' = k
    · simp [GoMap.set, GoMap.get?, h]
    · simp [GoMap.set, GoMap.get?, h, ih]

theorem GoMap.get?_set_ne {β : Type} (m : GoMap β) (k k2 : String) (v : β) (h : k ≠ k2) :
    GoMap.get? (GoMap.set m k v) k2 = GoMap.get? m k2 := by
  induction m with
  | nil => simp [GoMap.set, GoMap.get?, h]
  | cons e rest ih =>
    obtain ⟨k', v'⟩ := e
    by_cases h1 : k' = k
    · subst h1
      simp [GoMap.set, GoMap.get?, h]
    · by_cases h2 : k' = k2
      · subst h2
        simp [GoMap.set, GoMap.get?, h1]
      · simp [GoMap.set, GoMap.get?, h1, h2, ih]

theorem GoMap.get?_eq_none_iff {β : Type} (m : GoMap β) (k : String) :
    GoMap.get? m k = none ↔ k ∉ GoMap.keys m := by
  induction m with
  | nil => simp [GoMap.get?, GoMap.keys]
  | cons e rest ih =>
    obtain ⟨k', v'⟩ := e
    by_cases h : k' = k
    · simp [GoMap.get?, GoMap.keys, h]
    · have ih2 : GoMap.get? rest k = none ↔ k ∉ List.map Prod.fst rest := ih
      simp [GoMap.get?, GoMap.keys, h, ih2, Ne.symm h]

theorem GoMap.keys_set {β : Type} (m : GoMap β) (k : String) (v : β) (x : String) :
    x ∈ GoMap.keys (GoMap.set m k v) ↔ x = k ∨ x ∈ GoMap.keys m := by
  induction m with
  | nil => simp [GoMap.set, GoMap.keys]
  | cons e rest ih =>
    obtain ⟨k', v'⟩ := e
    have ih2 : x ∈ List.map Prod.fst (GoMap.set rest k v) ↔ x = k ∨ x ∈ List.map Prod.fst rest := ih
    by_cases h : k' = k
    · subst h
      simp [GoMap.set, GoMap.keys]
    · simp only [GoMap.set, GoMap.keys, h, if_false, List.map_cons, List.mem_cons, ih2]
      tauto

theorem GoMap.set_append_of_not_mem {β : Type} (m : GoMap β) (k : String) (v : β)
    (h : k ∉ GoMap.keys m) : GoMap.set m k v = m ++ [(k, v)] := by
  induction m with
  | nil => simp [GoMap.set]
  | cons e rest ih =>
    obtain ⟨k', v'⟩ := e
    have h1 : k' ≠ k := by
      intro hk
      exact h (by simp [GoMap.keys, hk])
    have h2 : k ∉ GoMap.keys rest := by
      intro hk
      exact h (by simp only [GoMap.keys, List.map_cons, List.mem_cons]; exact Or.inr hk)
    simp [GoMap.set, h1, ih h2]

theorem GoMap.assignAll_append_of_WF {β : Type} (src acc : GoMap β)
    (h : GoMap.WF (acc ++ src)) : GoMap.assignAll acc src = acc ++ src := by
  induction src generalizing acc with
  | nil => simp [GoMap.assignAll]
  | cons e rest ih =>
    obtain ⟨k, v⟩ := e
    have hk : k ∉ GoMap.keys acc := by
      intro hk
      simp only [GoMap.WF, GoMap.keys, List.map_append, List.map_cons] at h
      have := (List.nodup_append.mp h).2.2
      exact this hk (by simp)
    have h3 : GoMap.WF ((acc ++ [(k, v)]) ++ rest) := by simpa using h
    have := ih (acc ++ [(k, v)]) h3
    simp only [GoMap.assignAll, List.foldl_cons] at this ⊢
    rw [GoMap.set_append_of_not_mem acc k v hk, this]
    simp

/-- Copying a map into a fresh one gives the map back. -/
theorem GoMap.assignAll_nil_of_WF {β : Type} (src : GoMap β) (h : GoMap.WF src) :
    GoMap.assignAll [] src = src := by
  have := GoMap.assignAll_append_of_WF src [] (by simpa using h)
  simpa using this

theorem GoMap.get?_assignAll {β : Type} (src dst : GoMap β) (k : String)
    (h : GoMap.WF src) :
    GoMap.get? (GoMap.assignAll dst src) k = (GoMap.get? src k).or (GoMap.get? dst k) := by
  induction src generalizing dst with
  | nil => simp [GoMap.assignAll, GoMap.get?]
  | cons e rest ih =>
    obtain ⟨k1, v1⟩ := e
    have hrest : GoMap.WF rest := by
      simp only [GoMap.WF, GoMap.keys, List.map_cons, List.nodup_cons] at h
      exact h.2
    have hk1 : k1 ∉ GoMap.keys rest := by
      simp only [GoMap.WF, GoMap.keys, List.map_cons, List.nodup_cons] at h
      exact h.1
    have := ih (GoMap.set dst k1 v1) hrest
    simp only [GoMap.assignAll, List.foldl_cons] at this ⊢
    rw [this]
    by_cases hk : k1 = k
    · subst hk
      rw [(GoMap.get?_eq_none_iff rest k1).mpr hk1, GoMap.get?_set_self]
      simp [GoMap.get?]
    · rw [GoMap.get?_set_ne dst k1 k v1 hk]
      simp [GoMap.get?, hk]

theorem GoMap.get?_assignAll_of_not_mem {β : Type} (src dst : GoMap β) (k : String)
    (h : k ∉ GoMap.keys src) :
    GoMap.get? (GoMap.assignAll dst src) k = GoMap.get? dst k := by
  induction src generalizing dst with
  | nil => simp [GoMap.assignAll]
  | cons e rest ih =>
    obtain ⟨k1, v1⟩ := e
    have hk1 : k1 ≠ k := by
      intro hk
      exact h (by simp [GoMap.keys, hk])
    have hrest : k ∉ GoMap.keys rest := by
      intro hk
      exact h (by simp only [GoMap.keys, List.map_cons, List.mem_cons]; exact Or.inr hk)
    have := ih (GoMap.set dst k1 v1) hrest
    simp only [GoMap.assignAll, List.foldl_cons] at this ⊢
    rw [this, GoMap.get?_set_ne dst k1 k v1 hk1]

theorem GoMap.get?_isSome_iff {β : Type} (m : GoMap β) (k : String) :
    (GoMap.get? m k).isSome = true ↔ k ∈ GoMap.keys m := by
  have h := GoMap.get?_eq_none_iff m k
  cases hg : GoMap.get? m k with
  | none =>
    have := h.mp hg
    simp [this]
  | some v =>
    have : k ∈ GoMap.keys m := by
      by_contra hc
      rw [h.mpr hc] at hg
      cases hg
    simp [this]

/-! ## The walk: a relation kept by every leaf is kept by the whole walk -/

theorem emit_nil_fields (tags : Tags) (ctx : Tags) (st : ParserState) :
    emit { fields := [], tags := tags } ctx st = st := by
  simp [emit]

theorem emit_newRecord (node : String) (ctx : Tags) (st : ParserState) :
    emit (newRecord node) ctx st = st := by
  simp [emit, newRecord]

mutual
/-- A reflexive and transitive relation between parser states that holds
across every leaf holds across `parse` of any node, whether the call returns
or panics. -/
theorem parse_rel (cfg : Config) (R : ParserState → ParserState → Prop)
    (hrefl : ∀ s, R s s) (htrans : ∀ a b c, R a b → R b c → R a c)
    (hleaf : ∀ data node name ctx st, Value.isLeaf data = true →
      R st (parse cfg data node name ctx st).finalState) :
    ∀ (data : Value) (node name : String) (ctx : Tags) (st : ParserState),
      R st (parse cfg data node name ctx st).finalState
  | Value.str _, node, name, ctx, st => hleaf _ node name ctx st rfl
  | Value.float _, node, name, ctx, st => hleaf _ node name ctx st rfl
  | Value.int _, node, name, ctx, st => hleaf _ node name ctx st rfl
  | Value.null, _, _, _, st => by
    simp only [parse, Outcome.finalState]; exact hrefl st
  | Value.bool _, _, _, _, st => by
    simp only [parse, Outcome.finalState]; exact hrefl st
  | Value.seq vv, node, name, ctx, st => by
    have h := parseElems_rel cfg R hrefl htrans hleaf vv node (trimName name) ctx 0 st
    simp only [parse]
    cases hp : parseElems cfg vv node (trimName name) ctx 0 st with
    | returned st1 => simpa [Outcome.finalState, Outcome.loopState, emit_newRecord, hp] using h
    | panicked st1 => simpa [Outcome.finalState, Outcome.loopState, hp] using h
  | Value.map vv, node, name, ctx, st => by
    have h := parseEntries_rel cfg R hrefl htrans hleaf vv (nodePath node (trimName name)) ctx st
    simp only [parse]
    cases hp : parseEntries cfg vv (nodePath node (trimName name)) ctx st with
    | returned st1 => simpa [Outcome.finalState, Outcome.loopState, emit_newRecord, hp] using h
    | panicked st1 => simpa [Outcome.finalState, Outcome.loopState, hp] using h
/-- The relation of `parse_rel` across the loop over the elements of a sequence. -/
theorem parseElems_rel (cfg : Config) (R : ParserState → ParserState → Prop)
    (hrefl : ∀ s, R s s) (htrans : ∀ a b c, R a b → R b c → R a c)
    (hleaf : ∀ data node name ctx st, Value.isLeaf data = true →
      R st (parse cfg data node name ctx st).finalState) :
    ∀ (elems : List Value) (node name : String) (ctx : Tags) (i : Nat) (st : ParserState),
      R st (parseElems cfg elems node name ctx i st).loopState
  | [], _, _, _, _, st => by
    simp only [parseElems, Outcome.loopState]; exact hrefl st
  | u :: rest, node, name, ctx, i, st => by
    simp only [parseElems]
    have h1 := parse_rel cfg R hrefl htrans hleaf u node name
      (newIndexed ctx name i) st
    cases hp : parse cfg u node name
        (newIndexed ctx name i) st with
    | returned r =>
      rw [hp] at h1
      exact htrans _ _ _ h1 (parseElems_rel cfg R hrefl htrans hleaf rest node name ctx (i + 1) r.2)
    | panicked st1 =>
      rw [hp] at h1
      simpa [Outcome.finalState, Outcome.loopState] using h1
/-- The relation of `parse_rel` across the loop over the entries of a mapping. -/
theorem parseEntries_rel (cfg : Config) (R : ParserState → ParserState → Prop)
    (hrefl : ∀ s, R s s) (htrans : ∀ a b c, R a b → R b c → R a c)
    (hleaf : ∀ data node name ctx st, Value.isLeaf data = true →
      R st (parse cfg data node name ctx st).finalState) :
    ∀ (entries : List (String × Value)) (nodeName : String) (ctx : Tags) (st : ParserState),
      R st (parseEntries cfg entries nodeName ctx st).loopState
  | [], _, _, st => by
    simp only [parseEntries, Outcome.loopState]; exact hrefl st
  | (k, v) :: rest, nodeName, ctx, st => by
    simp only [parseEntries]
    have h1 := parse_rel cfg R hrefl htrans hleaf v nodeName k ctx st
    cases hp : parse cfg v nodeName k ctx st with
    | returned r =>
      rw [hp] at h1
      exact htrans _ _ _ h1 (parseEntries_rel cfg R hrefl htrans hleaf rest nodeName ctx r.2)
    | panicked st1 =>
      rw [hp] at h1
      simpa [Outcome.finalState, Outcome.loopState] using h1
end

/-! ## What one leaf does to the parser state -/

theorem gatherTag_metricsTable (cfg : Config) (node nodeName val : String) (ctx : Tags)
    (st : ParserState) :
    (gatherTag cfg node nodeName val ctx st).2.metricsTable = st.metricsTable := by
  unfold gatherTag
  split
  · split <;> rfl
  · rfl

/-- The tail of `parse` adds no record, or one record: the one of the node
with a copy of the index context assigned onto its tags. -/
theorem emit_metricsTable (mt : MetricsTable) (ctx : Tags) (st : ParserState) :
    (emit mt ctx st).metricsTable = st.metricsTable ∨
    (mt.fields ≠ [] ∧ (emit mt ctx st).metricsTable =
      st.metricsTable ++ [{ mt with tags := GoMap.assignAll mt.tags ctx }]) := by
  unfold emit
  by_cases h : mt.fields.length > 0
  · right
    refine ⟨?_, by simp [h]⟩
    intro h0
    simp [h0] at h
  · left
    simp [h]

theorem addsSingletons_refl (s : ParserState) : AddsSingletons s s :=
  ⟨[], by simp, by simp⟩

theorem addsSingletons_trans (a b c : ParserState) (h1 : AddsSingletons a b)
    (h2 : AddsSingletons b c) : AddsSingletons a c := by
  obtain ⟨n1, e1, p1⟩ := h1
  obtain ⟨n2, e2, p2⟩ := h2
  refine ⟨n1 ++ n2, by rw [e2, e1, List.append_assoc], ?_⟩
  intro r hr
  rcases List.mem_append.mp hr with h | h
  · exact p1 r h
  · exact p2 r h

/-- Setting one field on the fresh record of a node and emitting it adds a
record with exactly that field. -/
theorem emit_field_singleton (cfg : Config) (node nodeName val name : String)
    (fv : FieldValue) (ctx : Tags) (st : ParserState) :
    AddsSingletons st
      (emit (if (gatherTag cfg node nodeName val ctx st).1 then
          { newRecord node with fields := GoMap.set (newRecord node).fields name fv }
        else newRecord node) ctx (gatherTag cfg node nodeName val ctx st).2) := by
  have hg := gatherTag_metricsTable cfg node nodeName val ctx st
  by_cases hb : (gatherTag cfg node nodeName val ctx st).1 = true
  · rw [if_pos hb]
    refine ⟨[{ fields := [(name, fv)], tags := GoMap.assignAll (newRecord node).tags ctx }], ?_, ?_⟩
    · simp [emit, newRecord, GoMap.set, hg]
    · simp
  · rw [if_neg hb]
    refine ⟨[], ?_, by simp⟩
    simp [emit_newRecord, hg]

theorem parse_leaf_addsSingletons (cfg : Config) (data : Value) (node name : String)
    (ctx : Tags) (st : ParserState) (hl : Value.isLeaf data = true) :
    AddsSingletons st (parse cfg data node name ctx st).finalState := by
  cases data with
  | str vv =>
    simp only [parse, Outcome.finalState, parseString]
    split
    · exact addsSingletons_refl st
    · split
      · simp only [parseDeclared]
        split
        · exact addsSingletons_refl st
        · split
          · exact addsSingletons_refl st
          · rw [emit_newRecord]; exact addsSingletons_refl st
          · exact emit_field_singleton cfg node _ _ _ _ ctx st
      · rw [emit_newRecord]
        exact ⟨[], by simp [gatherTag_metricsTable], by simp⟩
  | float vv =>
    simp only [parse, Outcome.finalState]
    exact emit_field_singleton cfg node _ _ _ _ ctx st
  | int vv =>
    simp only [parse, Outcome.finalState]
    exact emit_field_singleton cfg node _ _ _ _ ctx st
  | null => simp [Value.isLeaf] at hl
  | bool b => simp [Value.isLeaf] at hl
  | seq vv => simp [Value.isLeaf] at hl
  | map vv => simp [Value.isLeaf] at hl

theorem finalize_fields (callerTags customTags : Tags) (indexTags : List IndexTags)
    (m : MetricsTable) : (finalize callerTags customTags indexTags m).fields = m.fields := rfl

theorem String.length_eq_zero_iff_eq (s : String) : s.length = 0 ↔ s = "" := by
  obtain ⟨l⟩ := s
  constructor
  · intro h
    have : l = [] := List.length_eq_zero.mp h
    subst this
    rfl
  · intro h
    rw [h]
    rfl

theorem isTag_iff (TagKeys : List String) (x : String) :
    isTag TagKeys x = true ↔ x ∈ TagKeys := by
  induction TagKeys with
  | nil => simp [isTag]
  | cons val rest ih =>
    by_cases h : val = x
    · simp [isTag, h]
    · simp [isTag, h, ih, Ne.symm h]

/-- The method `gatherTag` under a listed path: the flag is false and the tag
is stored, globally under an empty index context, scoped otherwise. -/
theorem gatherTag_listed (cfg : Config) (node path val : String) (ctx : Tags)
    (st : ParserState) (h : path ∈ cfg.TagKeys) :
    gatherTag cfg node path val ctx st =
      (false, if ctx = [] then { st with customTags := GoMap.set st.customTags path val }
        else { st with indexTags := st.indexTags ++
          [{ index := GoMap.assignAll [] ctx, tag := [(path, val)] }] }) := by
  have ht := (isTag_iff cfg.TagKeys path).mpr h
  cases ctx with
  | nil => simp [gatherTag, ht]
  | cons e rest => simp [gatherTag, ht, GoMap.set]

/-- The method `gatherTag` under a path that is not listed: the flag is true
and nothing is stored. -/
theorem gatherTag_unlisted (cfg : Config) (node path val : String) (ctx : Tags)
    (st : ParserState) (h : path ∉ cfg.TagKeys) :
    gatherTag cfg node path val ctx st = (true, st) := by
  have ht : isTag cfg.TagKeys path = false := by
    cases hh : isTag cfg.TagKeys path with
    | false => rfl
    | true => exact absurd ((isTag_iff cfg.TagKeys path).mp hh) h
  simp [gatherTag, ht]

theorem newRecord_fields (node : String) : (newRecord node).fields = [] := rfl

theorem newRecord_tags (node : String) :
    (newRecord node).tags = [("node", if node = "" then "__" else node)] := by
  by_cases h : node = ""
  · subst h
    rfl
  · have : node.length > 0 := by
      have := (String.length_eq_zero_iff_eq node).not.mpr h
      omega
    simp [newRecord, GoMap.set, h, this]

/-- A leaf whose arm calls `gatherTag` with the text `val` and then sets the
field `fv` is classified by `TagKeys` as the specification words it. -/
theorem emit_gatherTag_classified (cfg : Config) (node path val name : String)
    (fv : FieldValue) (ctx : Tags) (st : ParserState) (hwf : GoMap.WF ctx) :
    ClassifiedByTagKeys cfg.TagKeys path name val fv node ctx st
      (emit (if (gatherTag cfg node path val ctx st).1 then
          { newRecord node with fields := GoMap.set (newRecord node).fields name fv }
        else newRecord node) ctx (gatherTag cfg node path val ctx st).2) := by
  constructor
  · intro h
    rw [gatherTag_listed cfg node path val ctx st h]
    simp only [Bool.false_eq_true, if_false, emit_newRecord]
    refine ⟨?_, ?_, ?_⟩
    · split <;> rfl
    · intro h0
      simp [h0]
    · intro h0
      simp [h0, GoMap.assignAll_nil_of_WF ctx hwf]
  · intro h
    rw [gatherTag_unlisted cfg node path val ctx st h]
    simp [emit, newRecord_tags, newRecord_fields, GoMap.set]

/-! ## Records carry the index context they were found under -/

theorem GoMap.keys_set_of_mem {β : Type} (m : GoMap β) (k : String) (v : β)
    (h : k ∈ GoMap.keys m) : GoMap.keys (GoMap.set m k v) = GoMap.keys m := by
  induction m with
  | nil => simp [GoMap.keys] at h
  | cons e rest ih =>
    obtain ⟨k', v'⟩ := e
    by_cases hk : k' = k
    · subst hk
      simp [GoMap.set, GoMap.keys]
    · have hr : k ∈ GoMap.keys rest := by
        simp only [GoMap.keys, List.map_cons, List.mem_cons] at h
        rcases h with h | h
        · exact absurd h.symm hk
        · exact h
      have := ih hr
      simp only [GoMap.keys] at this
      simp [GoMap.set, GoMap.keys, hk, this]

theorem GoMap.WF_set {β : Type} (m : GoMap β) (k : String) (v : β) (h : GoMap.WF m) :
    GoMap.WF (GoMap.set m k v) := by
  by_cases hk : k ∈ GoMap.keys m
  · unfold GoMap.WF
    rw [GoMap.keys_set_of_mem m k v hk]
    exact h
  · rw [GoMap.set_append_of_not_mem m k v hk]
    unfold GoMap.WF GoMap.keys at *
    rw [List.map_append, List.nodup_append]
    refine ⟨h, by simp, ?_⟩
    intro a ha hb
    simp only [List.map_cons, List.map_nil, List.mem_singleton] at hb
    exact hk (hb ▸ ha)

/-- Every key of a map has a value. -/
theorem GoMap.get?_of_mem_keys {β : Type} (m : GoMap β) (k : String) (h : k ∈ GoMap.keys m) :
    ∃ v, GoMap.get? m k = some v := by
  cases hg : GoMap.get? m k with
  | none => exact absurd h ((GoMap.get?_eq_none_iff m k).mp hg)
  | some v => exact ⟨v, rfl⟩

/-- In a map every entry is what the lookup of its key returns. -/
theorem GoMap.get?_of_mem {β : Type} (m : GoMap β) (k : String) (v : β) (hwf : GoMap.WF m)
    (h : (k, v) ∈ m) : GoMap.get? m k = some v := by
  induction m with
  | nil => simp at h
  | cons e rest ih =>
    obtain ⟨k', v'⟩ := e
    simp only [GoMap.WF, GoMap.keys, List.map_cons, List.nodup_cons] at hwf
    rcases List.mem_cons.mp h with h1 | h1
    · cases h1
      simp [GoMap.get?]
    · have hne : k' ≠ k := by
        intro hk
        apply hwf.1
        rw [hk]
        exact List.mem_map.mpr ⟨(k, v), h1, rfl⟩
      simp only [GoMap.get?, hne, if_false]
      exact ih hwf.2 h1

theorem carries_refl (K : List String) (ctx : Tags) (s : ParserState) : Carries K ctx s s :=
  ⟨[], by simp, by simp⟩

theorem carries_trans (K : List String) (ctx : Tags) (a b c : ParserState)
    (h1 : Carries K ctx a b) (h2 : Carries K ctx b c) : Carries K ctx a c := by
  obtain ⟨n1, e1, p1⟩ := h1
  obtain ⟨n2, e2, p2⟩ := h2
  refine ⟨n1 ++ n2, by rw [e2, e1, List.append_assoc], ?_⟩
  intro r hr
  rcases List.mem_append.mp hr with h | h
  · exact p1 r h
  · exact p2 r h

/-- A leaf adds no record, or one record whose tags are those of the fresh
record of the node with the index context assigned over them. -/
theorem parse_leaf_records (cfg : Config) (data : Value) (node name : String) (ctx : Tags)
    (st : ParserState) (hl : Value.isLeaf data = true) :
    (parse cfg data node name ctx st).finalState.metricsTable = st.metricsTable ∨
    ∃ flds, (parse cfg data node name ctx st).finalState.metricsTable =
      st.metricsTable ++ [{ fields := flds, tags := GoMap.assignAll (newRecord node).tags ctx }] := by
  have key : ∀ (mt : MetricsTable) (st2 : ParserState), mt.tags = (newRecord node).tags →
      st2.metricsTable = st.metricsTable →
      ((emit mt ctx st2).metricsTable = st.metricsTable ∨
        ∃ flds, (emit mt ctx st2).metricsTable =
          st.metricsTable ++ [{ fields := flds, tags := GoMap.assignAll (newRecord node).tags ctx }]) := by
    intro mt st2 ht hs
    rcases emit_metricsTable mt ctx st2 with h | ⟨_, h⟩
    · left
      rw [h, hs]
    · right
      exact ⟨mt.fields, by rw [h, hs, ht]⟩
  have key2 : ∀ (val nodeName nm : String) (fv : FieldValue),
      ((emit (if (gatherTag cfg node nodeName val ctx st).1 then
          { newRecord node with fields := GoMap.set (newRecord node).fields nm fv }
        else newRecord node) ctx (gatherTag cfg node nodeName val ctx st).2).metricsTable =
          st.metricsTable ∨
        ∃ flds, (emit (if (gatherTag cfg node nodeName val ctx st).1 then
          { newRecord node with fields := GoMap.set (newRecord node).fields nm fv }
        else newRecord node) ctx (gatherTag cfg node nodeName val ctx st).2).metricsTable =
          st.metricsTable ++ [{ fields := flds, tags := GoMap.assignAll (newRecord node).tags ctx }]) := by
    intro val nodeName nm fv
    apply key
    · split <;> rfl
    · exact gatherTag_metricsTable _ _ _ _ _ _
  cases data with
  | str vv =>
    simp only [parse, Outcome.finalState, parseString]
    split
    · exact Or.inl rfl
    · split
      · simp only [parseDeclared]
        split
        · exact Or.inl rfl
        · split
          · exact Or.inl rfl
          · exact key _ _ rfl rfl
          · exact key2 _ _ _ _
      · exact key _ _ rfl (gatherTag_metricsTable _ _ _ _ _ _)
  | float vv =>
    simp only [parse, Outcome.finalState]
    exact key2 _ _ _ _
  | int vv =>
    simp only [parse, Outcome.finalState]
    exact key2 _ _ _ _
  | null => simp [Value.isLeaf] at hl
  | bool b => simp [Value.isLeaf] at hl
  | seq vv => simp [Value.isLeaf] at hl
  | map vv => simp [Value.isLeaf] at hl

theorem parse_leaf_carries (cfg : Config) (K : List String) (data : Value) (node name : String)
    (ctx : Tags) (st : ParserState) (hwf : GoMap.WF ctx) (hl : Value.isLeaf data = true) :
    Carries K ctx st (parse cfg data node name ctx st).finalState := by
  rcases parse_leaf_records cfg data node name ctx st hl with h | ⟨flds, h⟩
  · exact ⟨[], by simpa using h, by simp⟩
  · refine ⟨_, h, ?_⟩
    intro r hr x _ w hw
    simp only [List.mem_singleton] at hr
    subst hr
    simp only
    rw [GoMap.get?_assignAll ctx _ x hwf, hw]
    rfl

/-- Lookups of an index context extended by a binding of another key. -/
theorem get?_newIndexed (ctx : Tags) (name : String) (i : Nat) (x : String)
    (hwf : GoMap.WF ctx) (hx : name ≠ x) :
    GoMap.get? (newIndexed ctx name i) x = GoMap.get? ctx x := by
  unfold newIndexed
  rw [GoMap.get?_set_ne _ name x _ hx, GoMap.assignAll_nil_of_WF ctx hwf]

theorem WF_newIndexed (ctx : Tags) (name : String) (i : Nat) (hwf : GoMap.WF ctx) :
    GoMap.WF (newIndexed ctx name i) := by
  unfold newIndexed
  rw [GoMap.assignAll_nil_of_WF ctx hwf]
  exact GoMap.WF_set ctx name _ hwf

theorem keys_newIndexed (ctx : Tags) (name : String) (i : Nat) (x : String)
    (hwf : GoMap.WF ctx) (hx : x ∈ GoMap.keys (newIndexed ctx name i)) :
    x ∈ name :: GoMap.keys ctx := by
  unfold newIndexed at hx
  rw [GoMap.assignAll_nil_of_WF ctx hwf] at hx
  rcases (GoMap.keys_set ctx name _ x).mp hx with h | h
  · exact h ▸ List.mem_cons_self _ _
  · exact List.mem_cons_of_mem _ h

theorem newIndexed_ne_nil (ctx : Tags) (name : String) (i : Nat) :
    newIndexed ctx name i ≠ [] := by
  intro h0
  have := GoMap.get?_set_self (GoMap.assignAll [] ctx) name (itoa (Int.ofNat i))
  unfold newIndexed at h0
  rw [h0] at this
  simp [GoMap.get?] at this

mutual
/-- Records produced anywhere below a node carry the bindings that the index
context of the node has for the keys `K`, when no sequence below rebinds a key
of `K`. -/
theorem parse_carries (cfg : Config) (K : List String) :
    ∀ (data : Value) (node name : String) (ctx : Tags) (st : ParserState),
      GoMap.WF ctx → rebindFree K data name = true →
      Carries K ctx st (parse cfg data node name ctx st).finalState
  | Value.str _, node, name, ctx, st, hwf, _ => parse_leaf_carries cfg K _ node name ctx st hwf rfl
  | Value.float _, node, name, ctx, st, hwf, _ =>
    parse_leaf_carries cfg K _ node name ctx st hwf rfl
  | Value.int _, node, name, ctx, st, hwf, _ => parse_leaf_carries cfg K _ node name ctx st hwf rfl
  | Value.null, _, _, ctx, st, _, _ => by
    simp only [parse, Outcome.finalState]; exact carries_refl K ctx st
  | Value.bool _, _, _, ctx, st, _, _ => by
    simp only [parse, Outcome.finalState]; exact carries_refl K ctx st
  | Value.seq vv, node, name, ctx, st, hwf, hfree => by
    simp only [rebindFree, Bool.and_eq_true, Bool.not_eq_true', List.contains_eq_any_beq,
      List.any_eq_false, beq_iff_eq] at hfree
    have hnot : trimName name ∉ K := fun hmem => hfree.1 _ hmem rfl
    have h := parseElems_carries cfg K vv node (trimName name) ctx 0 st hwf hnot hfree.2
    simp only [parse]
    cases hp : parseElems cfg vv node (trimName name) ctx 0 st with
    | returned st1 => simpa [Outcome.finalState, Outcome.loopState, emit_newRecord, hp] using h
    | panicked st1 => simpa [Outcome.finalState, Outcome.loopState, hp] using h
  | Value.map vv, node, name, ctx, st, hwf, hfree => by
    simp only [rebindFree] at hfree
    have h := parseEntries_carries cfg K vv (nodePath node (trimName name)) ctx st hwf hfree
    simp only [parse]
    cases hp : parseEntries cfg vv (nodePath node (trimName name)) ctx st with
    | returned st1 => simpa [Outcome.finalState, Outcome.loopState, emit_newRecord, hp] using h
    | panicked st1 => simpa [Outcome.finalState, Outcome.loopState, hp] using h
/-- The statement of `parse_carries` for the loop over the elements of a sequence. -/
theorem parseElems_carries (cfg : Config) (K : List String) :
    ∀ (elems : List Value) (node name : String) (ctx : Tags) (i : Nat) (st : ParserState),
      GoMap.WF ctx → name ∉ K → rebindFreeElems K elems name = true →
      Carries K ctx st (parseElems cfg elems node name ctx i st).loopState
  | [], _, _, ctx, _, st, _, _, _ => by
    simp only [parseElems, Outcome.loopState]; exact carries_refl K ctx st
  | u :: rest, node, name, ctx, i, st, hwf, hnot, hfree => by
    simp only [rebindFreeElems, Bool.and_eq_true] at hfree
    simp only [parseElems]
    have h1 := parse_carries cfg K u node name
      (newIndexed ctx name i) st
      (WF_newIndexed ctx name i hwf) hfree.1
    have h1' : Carries K ctx st (parse cfg u node name
        (newIndexed ctx name i) st).finalState := by
      obtain ⟨new, hnew, hall⟩ := h1
      refine ⟨new, hnew, ?_⟩
      intro r hr x hx w hw
      apply hall r hr x hx w
      rw [get?_newIndexed ctx name i x hwf (fun hxe => hnot (hxe ▸ hx))]
      exact hw
    cases hp : parse cfg u node name
        (newIndexed ctx name i) st with
    | returned r =>
      rw [hp] at h1'
      exact carries_trans K ctx _ _ _ h1'
        (parseElems_carries cfg K rest node name ctx (i + 1) r.2 hwf hnot hfree.2)
    | panicked st1 =>
      rw [hp] at h1'
      simpa [Outcome.finalState, Outcome.loopState] using h1'
/-- The statement of `parse_carries` for the loop over the entries of a mapping. -/
theorem parseEntries_carries (cfg : Config) (K : List String) :
    ∀ (entries : List (String × Value)) (nodeName : String) (ctx : Tags) (st : ParserState),
      GoMap.WF ctx → rebindFreeEntries K entries = true →
      Carries K ctx st (parseEntries cfg entries nodeName ctx st).loopState
  | [], _, ctx, st, _, _ => by
    simp only [parseEntries, Outcome.loopState]; exact carries_refl K ctx st
  | (k, v) :: rest, nodeName, ctx, st, hwf, hfree => by
    simp only [rebindFreeEntries, Bool.and_eq_true] at hfree
    simp only [parseEntries]
    have h1 := parse_carries cfg K v nodeName k ctx st hwf hfree.1
    cases hp : parse cfg v nodeName k ctx st with
    | returned r =>
      rw [hp] at h1
      exact carries_trans K ctx _ _ _ h1
        (parseEntries_carries cfg K rest nodeName ctx r.2 hwf hfree.2)
    | panicked st1 =>
      rw [hp] at h1
      simpa [Outcome.finalState, Outcome.loopState] using h1
end

/-! ## Scoped tags are only ever added -/

theorem indexTagsGrow_refl (s : ParserState) : IndexTagsGrow s s := ⟨[], by simp⟩

theorem indexTagsGrow_trans (a b c : ParserState) (h1 : IndexTagsGrow a b)
    (h2 : IndexTagsGrow b c) : IndexTagsGrow a c := by
  obtain ⟨m1, e1⟩ := h1
  obtain ⟨m2, e2⟩ := h2
  exact ⟨m1 ++ m2, by rw [e2, e1, List.append_assoc]⟩

theorem emit_indexTags (mt : MetricsTable) (ctx : Tags) (st : ParserState) :
    (emit mt ctx st).indexTags = st.indexTags := by
  unfold emit
  split <;> rfl

theorem gatherTag_indexTags_grow (cfg : Config) (node nodeName val : String) (ctx : Tags)
    (st : ParserState) : IndexTagsGrow st (gatherTag cfg node nodeName val ctx st).2 := by
  unfold gatherTag
  split
  · split
    · exact ⟨[_], rfl⟩
    · exact ⟨[], by simp⟩
  · exact indexTagsGrow_refl st

theorem parse_leaf_indexTags_grow (cfg : Config) (data : Value) (node name : String)
    (ctx : Tags) (st : ParserState) (hl : Value.isLeaf data = true) :
    IndexTagsGrow st (parse cfg data node name ctx st).finalState := by
  have key : ∀ (mt : MetricsTable) (val nodeName : String),
      IndexTagsGrow st (emit mt ctx (gatherTag cfg node nodeName val ctx st).2) := by
    intro mt val nodeName
    obtain ⟨more, hm⟩ := gatherTag_indexTags_grow cfg node nodeName val ctx st
    exact ⟨more, by rw [emit_indexTags, hm]⟩
  cases data with
  | str vv =>
    simp only [parse, Outcome.finalState, parseString]
    split
    · exact indexTagsGrow_refl st
    · split
      · simp only [parseDeclared]
        split
        · exact indexTagsGrow_refl st
        · split
          · exact indexTagsGrow_refl st
          · exact ⟨[], by simp [emit_indexTags]⟩
          · exact key _ _ _
      · exact key _ _ _
  | float vv =>
    simp only [parse, Outcome.finalState]
    exact key _ _ _
  | int vv =>
    simp only [parse, Outcome.finalState]
    exact key _ _ _
  | null => simp [Value.isLeaf] at hl
  | bool b => simp [Value.isLeaf] at hl
  | seq vv => simp [Value.isLeaf] at hl
  | map vv => simp [Value.isLeaf] at hl

/-- A non-empty string without declaration: the call returns no error and
the parser is the one `gatherTag` leaves. -/
theorem parse_undeclared_string (cfg : Config) (vv node name : String) (ctx : Tags)
    (st : ParserState) (hne : vv ≠ "")
    (hdecl : findVariable cfg.vars (nodePath node (trimName name)) = none) :
    parse cfg (Value.str vv) node name ctx st =
      Outcome.returned (none, (gatherTag cfg node (nodePath node (trimName name)) vv ctx st).2) := by
  have hlen : ¬ vv.length = 0 := fun h => hne ((String.length_eq_zero_iff_eq vv).mp h)
  simp only [parse, parseString, hlen, if_false, hdecl, emit_newRecord]

/-- A listed, undeclared, non-empty string entry of a mapping walked under a
non-empty index context leaves its scoped tag in the parser. -/
theorem parseEntries_records_tag (cfg : Config) (leafKey v nodeName : String) (ctx : Tags)
    (hv : v ≠ "") (hctx : ctx ≠ []) (hwf : GoMap.WF ctx)
    (hlisted : nodePath nodeName (trimName leafKey) ∈ cfg.TagKeys)
    (hdecl : findVariable cfg.vars (nodePath nodeName (trimName leafKey)) = none) :
    ∀ (entries : List (String × Value)) (st st1 : ParserState),
      (leafKey, Value.str v) ∈ entries →
      parseEntries cfg entries nodeName ctx st = Outcome.returned st1 →
      ({ index := ctx, tag := [(nodePath nodeName (trimName leafKey), v)] } : IndexTags) ∈
        st1.indexTags := by
  intro entries
  induction entries with
  | nil =>
    intro st st1 hmem _
    simp at hmem
  | cons e rest ih =>
    intro st st1 hmem hrun
    obtain ⟨k, u⟩ := e
    simp only [parseEntries] at hrun
    rcases List.mem_cons.mp hmem with h1 | h1
    · cases h1
      rw [parse_undeclared_string cfg v nodeName leafKey ctx st hv hdecl] at hrun
      simp only at hrun
      have hgrow := parseEntries_rel cfg IndexTagsGrow indexTagsGrow_refl indexTagsGrow_trans
        (fun data node name ctx st hl => parse_leaf_indexTags_grow cfg data node name ctx st hl)
        rest nodeName ctx (gatherTag cfg nodeName (nodePath nodeName (trimName leafKey)) v ctx st).2
      rw [hrun] at hgrow
      obtain ⟨more, hmore⟩ := hgrow
      simp only [Outcome.loopState] at hmore
      rw [hmore, gatherTag_listed cfg nodeName _ v ctx st hlisted]
      simp [hctx, GoMap.assignAll_nil_of_WF ctx hwf]
    · cases hp : parse cfg u nodeName k ctx st with
      | returned r =>
        rw [hp] at hrun
        exact ih r.2 st1 h1 hrun
      | panicked st2 =>
        rw [hp] at hrun
        cases hrun

/-! ## The finalize pass -/

/-- The loop of `findIndex` succeeds exactly when every entry of the searched
map is found, with its value, in the other map. -/
theorem findIndex_eq_true_iff (recordTags scopedIndex : Tags) :
    findIndex recordTags scopedIndex = true ↔
      ∀ k v, (k, v) ∈ scopedIndex → GoMap.get? recordTags k = some v := by
  induction scopedIndex with
  | nil => simp [findIndex]
  | cons e rest ih =>
    obtain ⟨k0, v0⟩ := e
    unfold findIndex
    cases hg : GoMap.get? recordTags k0 with
    | none =>
      simp only [Bool.false_eq_true, false_iff, not_forall]
      exact ⟨k0, v0, by simp, by simp [hg]⟩
    | some val =>
      by_cases hv : val = v0
      · subst hv
        simp only [if_true, ih]
        constructor
        · intro h k v hkv
          rcases List.mem_cons.mp hkv with h1 | h1
          · cases h1
            exact hg
          · exact h k v h1
        · intro h k v hkv
          exact h k v (List.mem_cons_of_mem _ hkv)
      · simp only [hv, if_false, Bool.false_eq_true, false_iff, not_forall]
        refine ⟨k0, v0, by simp, ?_⟩
        rw [hg]
        simpa using hv

theorem findIndex_false_of_missing (recordTags scopedIndex : Tags) (k : String)
    (hk : k ∈ GoMap.keys scopedIndex) (hm : GoMap.get? recordTags k = none) :
    findIndex recordTags scopedIndex = false := by
  cases hf : findIndex recordTags scopedIndex with
  | false => rfl
  | true =>
    obtain ⟨e, he, hek⟩ := List.mem_map.mp hk
    obtain ⟨k1, v1⟩ := e
    have := ((findIndex_eq_true_iff recordTags scopedIndex).mp hf) k1 v1 he
    simp only at hek
    rw [hek, hm] at this
    cases this

theorem applyIndexTags_append (t : Tags) (l1 l2 : List IndexTags) :
    applyIndexTags t (l1 ++ l2) = applyIndexTags (applyIndexTags t l1) l2 := by
  simp [applyIndexTags, List.foldl_append]

theorem applyIndexTags_cons (t : Tags) (it : IndexTags) (l : List IndexTags) :
    applyIndexTags t (it :: l) =
      applyIndexTags (if findIndex t it.index then GoMap.assignAll t it.tag else t) l := by
  simp [applyIndexTags]

/-- A key that no scoped tag of the list holds keeps its value through the
finalize loop. -/
theorem get?_applyIndexTags_of_not_mem (l : List IndexTags) (t : Tags) (x : String)
    (h : ∀ it ∈ l, x ∉ GoMap.keys it.tag) :
    GoMap.get? (applyIndexTags t l) x = GoMap.get? t x := by
  induction l generalizing t with
  | nil => simp [applyIndexTags]
  | cons it rest ih =>
    rw [applyIndexTags_cons, ih _ (fun it2 h2 => h it2 (List.mem_cons_of_mem _ h2))]
    split
    · exact GoMap.get?_assignAll_of_not_mem it.tag t x (h it (List.mem_cons_self _ _))
    · rfl

/-- The answer of `findIndex` depends on the lookups of the keys of the
searched index context only. -/
theorem findIndex_congr (t1 t2 idx : Tags)
    (h : ∀ x ∈ GoMap.keys idx, GoMap.get? t1 x = GoMap.get? t2 x) :
    findIndex t1 idx = findIndex t2 idx := by
  induction idx with
  | nil => rfl
  | cons e rest ih =>
    obtain ⟨k, v⟩ := e
    have hk := h k (by simp [GoMap.keys])
    have hrest := ih (fun x hx => h x (by
      simp only [GoMap.keys, List.map_cons, List.mem_cons]; exact Or.inr hx))
    simp only [findIndex, hk, hrest]

/-- The finalize loop against the spec-side `lastMatchingFrom`, when scoped
tags are matched against the tags as they stand. -/
theorem get?_applyIndexTags_lastMatching (base : Tags) (k : String) (dflt : Option String)
    (post : List IndexTags) (hs : ∀ it ∈ post, GoMap.WF it.tag) :
    ∀ (pre : List IndexTags) (acc : Option IndexTags),
      GoMap.get? (applyIndexTags base pre) k =
        (match acc with
          | some it => GoMap.get? it.tag k
          | none => dflt) →
      GoMap.get? (applyIndexTags (applyIndexTags base pre) post) k =
        (match lastMatchingFrom k (fun l => applyIndexTags base l) pre post acc with
          | some it => GoMap.get? it.tag k
          | none => dflt) := by
  induction post with
  | nil =>
    intro pre acc h
    simpa [lastMatchingFrom, applyIndexTags] using h
  | cons it rest ih =>
    intro pre acc h
    have hwf := hs it (List.mem_cons_self _ _)
    have ih2 := ih (fun it2 h2 => hs it2 (List.mem_cons_of_mem _ h2)) (pre ++ [it])
    rw [applyIndexTags_append base pre [it]] at ih2
    rw [applyIndexTags_cons]
    simp only [lastMatchingFrom]
    have hone : applyIndexTags (applyIndexTags base pre) [it] =
        (if findIndex (applyIndexTags base pre) it.index then
          GoMap.assignAll (applyIndexTags base pre) it.tag else applyIndexTags base pre) := by
      simp [applyIndexTags]
    rw [hone] at ih2
    apply ih2
    by_cases hm : findIndex (applyIndexTags base pre) it.index = true
    · simp only [hm, if_true, true_and]
      rw [GoMap.get?_assignAll it.tag _ k hwf]
      cases hg : GoMap.get? it.tag k with
      | none => simpa using h
      | some v => simp [hg]
    · simp only [hm, false_and, if_false]
      exact h

/-- Two ways of choosing the tags to match against give the same last
matching scoped tag when `findIndex` cannot tell them apart. -/
theorem lastMatchingFrom_congr (k : String) (seen1 seen2 : List IndexTags → Tags)
    (scopedTags post : List IndexTags) (hsub : ∀ it ∈ post, it ∈ scopedTags)
    (h : ∀ (l : List IndexTags) (it : IndexTags), (∀ x ∈ l, x ∈ scopedTags) → it ∈ scopedTags →
      findIndex (seen1 l) it.index = findIndex (seen2 l) it.index) :
    ∀ (pre : List IndexTags) (acc : Option IndexTags), (∀ x ∈ pre, x ∈ scopedTags) →
      lastMatchingFrom k seen1 pre post acc = lastMatchingFrom k seen2 pre post acc := by
  induction post with
  | nil =>
    intro pre acc _
    rfl
  | cons it rest ih =>
    intro pre acc hpre
    simp only [lastMatchingFrom]
    rw [h pre it hpre (hsub it (List.mem_cons_self _ _))]
    apply ih (fun it2 h2 => hsub it2 (List.mem_cons_of_mem _ h2))
    intro x hx
    rcases List.mem_append.mp hx with h1 | h1
    · exact hpre x h1
    · simp only [List.mem_singleton] at h1
      rw [h1]
      exact hsub it (List.mem_cons_self _ _)

/-- In the finalize loop, a record that carries the bindings of the index
context `ectx` ends with the tag `P -> v` once it has it or the scoped tag
`ectx, P -> v` is among those still to come, when no scoped tag is keyed by a
key of `ectx` and every other scoped tag holding `P` was found under an index
context that disagrees with `ectx`. -/
theorem applyIndexTags_keeps_tag (ectx : Tags) (P v : String) (hwf : GoMap.WF ectx)
    (L : List IndexTags)
    (hK : ∀ it ∈ L, ∀ x ∈ GoMap.keys ectx, x ∉ GoMap.keys it.tag)
    (huniq : ∀ it ∈ L, P ∈ GoMap.keys it.tag →
      it = { index := ectx, tag := [(P, v)] } ∨
      ∃ kv ∈ it.index, (GoMap.get? ectx kv.1).isSome = true ∧ GoMap.get? ectx kv.1 ≠ some kv.2) :
    ∀ t : Tags, (∀ x ∈ GoMap.keys ectx, GoMap.get? t x = GoMap.get? ectx x) →
      (GoMap.get? t P = some v ∨ ({ index := ectx, tag := [(P, v)] } : IndexTags) ∈ L) →
      GoMap.get? (applyIndexTags t L) P = some v := by
  induction L with
  | nil =>
    intro t _ h
    rcases h with h | h
    · simpa [applyIndexTags] using h
    · simp at h
  | cons it rest ih =>
    intro t hcar h
    have ih2 := ih (fun it2 h2 => hK it2 (List.mem_cons_of_mem _ h2))
      (fun it2 h2 => huniq it2 (List.mem_cons_of_mem _ h2))
    rw [applyIndexTags_cons]
    have hmatchT : findIndex t ectx = true := by
      apply (findIndex_eq_true_iff t ectx).mpr
      intro k w hkw
      rw [hcar k (List.mem_map.mpr ⟨(k, w), hkw, rfl⟩)]
      exact GoMap.get?_of_mem ectx k w hwf hkw
    by_cases hm : findIndex t it.index = true
    · rw [if_pos hm]
      apply ih2
      · intro x hx
        rw [GoMap.get?_assignAll_of_not_mem it.tag t x (hK it (List.mem_cons_self _ _) x hx)]
        exact hcar x hx
      · by_cases hP : P ∈ GoMap.keys it.tag
        · rcases huniq it (List.mem_cons_self _ _) hP with hT | ⟨kv, hkv, hsome, hne⟩
          · left
            rw [hT]
            simp [GoMap.assignAll, GoMap.get?_set_self]
          · exfalso
            have h1 := (findIndex_eq_true_iff t it.index).mp hm kv.1 kv.2 hkv
            have h2 := hcar kv.1 ((GoMap.get?_isSome_iff ectx kv.1).mp hsome)
            rw [h1] at h2
            exact hne h2.symm
        · rcases h with h | h
          · left
            rw [GoMap.get?_assignAll_of_not_mem it.tag t P hP]
            exact h
          · right
            rcases List.mem_cons.mp h with h1 | h1
            · exfalso
              apply hP
              rw [← h1]
              simp [GoMap.keys]
            · exact h1
    · rw [if_neg hm]
      apply ih2 t hcar
      rcases h with h | h
      · exact Or.inl h
      · right
        rcases List.mem_cons.mp h with h1 | h1
        · exfalso
          apply hm
          rw [← h1]
          exact hmatchT
        · exact h1

/-! ## Claims -/

/-- C1: whenever `parseMapInterface`, run on a fresh parser, succeeds, every
record of the returned list has a non-empty field mapping, and that mapping
holds exactly one field. -/
theorem records_have_exactly_one_field (TagKeys : List String) (data : Value)
    (callerTags : Tags) (vars : List Variable) (recs : List MetricsTable)
    (h : parseMapInterface TagKeys data callerTags vars = Outcome.returned (Except.ok recs)) :
    ∀ r ∈ recs, r.fields ≠ [] ∧ r.fields.length = 1 := by
  have hw := parse_rel { TagKeys := TagKeys, vars := vars } AddsSingletons
    addsSingletons_refl addsSingletons_trans
    (fun data node name ctx st hl => parse_leaf_addsSingletons _ data node name ctx st hl)
    data "" "" [] ParserState.fresh
  unfold parseMapInterface at h
  cases hp : parse { TagKeys := TagKeys, vars := vars } data "" "" [] ParserState.fresh with
  | panicked st1 => simp [hp] at h
  | returned r =>
    obtain ⟨e, st1⟩ := r
    rw [hp] at h hw
    cases e with
    | some err => simp at h
    | none =>
      simp only [Outcome.returned.injEq, Except.ok.injEq] at h
      obtain ⟨new, hnew, hone⟩ := hw
      simp only [Outcome.finalState, ParserState.fresh, List.nil_append] at hnew
      intro r hr
      rw [← h, hnew] at hr
      obtain ⟨r0, hr0, rfl⟩ := List.mem_map.mp hr
      have h1 := hone r0 hr0
      rw [finalize_fields]
      refine ⟨?_, h1⟩
      intro h0
      simp [h0] at h1

/-- Witness of C1 on the document `{"a": 1, "s": "x", "l": [2]}`. -/
theorem records_have_exactly_one_field_witness :
    parseMapInterface [] docFlat [("url", "u")] [] = Outcome.returned (Except.ok docFlatRecords) ∧
    (docFlatRecordL.fields ≠ [] ∧ docFlatRecordL.fields.length = 1) :=
  ⟨by decide,
   records_have_exactly_one_field [] docFlat [("url", "u")] [] docFlatRecords (by decide)
     docFlatRecordL (by decide)⟩

/-- C3: `findIndex(recordTags, scopedIndex)` answers true exactly when every
key of the scoped tag's index context is present in the record's tags with an
equal value; so an empty index context matches every record. -/
theorem findIndex_true_iff (recordTags scopedIndex : Tags) :
    (findIndex recordTags scopedIndex = true ↔
      ∀ k v, (k, v) ∈ scopedIndex → GoMap.get? recordTags k = some v) ∧
    findIndex recordTags [] = true :=
  ⟨findIndex_eq_true_iff recordTags scopedIndex, rfl⟩

/-- C4, the claim as written fails: the record has only the tag `node`, the
scoped tag was found under `client -> 0`; no key is in both maps, yet
`findIndex` reports no match and the finalize pass leaves the record without
the scoped tag. -/
theorem missing_key_disqualifies_example :
    (∀ k a b, GoMap.get? ([("node", "__")] : Tags) k = some a →
      GoMap.get? ([("client", "0")] : Tags) k = some b → a = b) ∧
    findIndex [("node", "__")] [("client", "0")] = false ∧
    finalize [] [] [{ index := [("client", "0")], tag := [("client__name", "A")] }]
      { fields := [("x", FieldValue.float ⟨false, 1, 0⟩)], tags := [("node", "__")] } =
      { fields := [("x", FieldValue.float ⟨false, 1, 0⟩)], tags := [("node", "__")] } := by
  refine ⟨?_, by decide, by decide⟩
  intro k a b h1 h2
  by_cases hk : "node" = k
  · subst hk
    simp [GoMap.get?] at h2
  · simp [GoMap.get?, hk] at h1

/-- C4 (amended): a scoped tag is merged onto a record when every key of its
index context is present in the record's tags with an equal value; a key of
the index context that the record's tags lack disqualifies the scoped tag: it
is not a match and the finalize step leaves the tags as they are. -/
theorem scoped_tag_match_needs_every_key (recordTags : Tags) (scopedTag : IndexTags) :
    ((∀ k v, (k, v) ∈ scopedTag.index → GoMap.get? recordTags k = some v) →
      findIndex recordTags scopedTag.index = true ∧
      applyIndexTags recordTags [scopedTag] = GoMap.assignAll recordTags scopedTag.tag) ∧
    ((∃ k, k ∈ GoMap.keys scopedTag.index ∧ GoMap.get? recordTags k = none) →
      findIndex recordTags scopedTag.index = false ∧
      applyIndexTags recordTags [scopedTag] = recordTags) := by
  constructor
  · intro h
    have hf := (findIndex_eq_true_iff recordTags scopedTag.index).mpr h
    exact ⟨hf, by simp [applyIndexTags, hf]⟩
  · rintro ⟨k, hk, hm⟩
    have hf := findIndex_false_of_missing recordTags scopedTag.index k hk hm
    exact ⟨hf, by simp [applyIndexTags, hf]⟩

/-- Witness of C4 (amended): a record under `client -> 0` takes the scoped tag
found under `client -> 0`; a record without the key `client` does not. -/
theorem scoped_tag_match_needs_every_key_witness :
    (findIndex [("node", "c"), ("client", "0")] [("client", "0")] = true ∧
      applyIndexTags [("node", "c"), ("client", "0")]
        [{ index := [("client", "0")], tag := [("c__name", "A")] }] =
        GoMap.assignAll [("node", "c"), ("client", "0")] [("c__name", "A")]) ∧
    (findIndex [("node", "__")] [("client", "0")] = false ∧
      applyIndexTags [("node", "__")]
        [{ index := [("client", "0")], tag := [("c__name", "A")] }] = [("node", "__")]) :=
  ⟨(scoped_tag_match_needs_every_key [("node", "c"), ("client", "0")]
      { index := [("client", "0")], tag := [("c__name", "A")] }).1
      (by
        intro k v hkv
        simp only [List.mem_singleton, Prod.mk.injEq] at hkv
        obtain ⟨rfl, rfl⟩ := hkv
        decide),
   (scoped_tag_match_needs_every_key [("node", "__")]
      { index := [("client", "0")], tag := [("c__name", "A")] }).2
      ⟨"client", by decide, by decide⟩⟩

/-- C7, the code at the failing input: a native boolean, at the root or as a
value of the root mapping, makes the walk panic at the type assertion of the
catch-all case; no error value is returned. -/
theorem native_boolean_panics :
    parseMapInterface [] (Value.bool true) [] [] = Outcome.panicked ParserState.fresh ∧
    parseMapInterface [] (Value.map [("a", Value.bool false)]) [] [] =
      Outcome.panicked ParserState.fresh := by
  constructor <;> decide

/-- C8, the claim as written fails: in `{"n": 1, "up": true}` the native
boolean `up`, undeclared and not in `TagKeys`, yields no record; the walk
stops at it holding the record of `n` alone. -/
theorem boolean_leaf_record_example :
    parseMapInterface [] docBool [] [] =
      Outcome.panicked
        { metricsTable :=
            [{ fields := [("n", FieldValue.float ⟨false, 1, 0⟩)], tags := [("node", "__")] }],
          customTags := [], indexTags := [] } := by
  decide

/-- C8 (amended): a native boolean leaf is not read as a field: whatever the
declarations, `TagKeys`, path and index context, the call of `parse` on it
leaves the parser with the records and tags it had. -/
theorem boolean_leaf_adds_nothing (cfg : Config) (b : Bool) (node name : String)
    (indexes : Tags) (st : ParserState) :
    (parse cfg (Value.bool b) node name indexes st).finalState = st := by
  simp [parse, Outcome.finalState]

/-- C6, the code at the failing input: in `{"a": "hi"}` with `a` declared Int
no substring can be extracted, in `{"a": ["1.2.3"]}` with `a` declared Float
the extracted text is no float, in `{"a": {"b": "yes"}}` with `a__b` declared
Bool it is no boolean; each time the error of the leaf is dropped by the
enclosing mapping or sequence and the call succeeds with no record.  The call
of `parse` on the leaf itself (last conjunct) does return the error. -/
theorem nested_coercion_error_is_dropped :
    parseMapInterface [] (Value.map [("a", Value.str "hi")]) []
      [{ Name := "a", Typ := "int", Parameter := "" }] = Outcome.returned (Except.ok []) ∧
    parseMapInterface [] (Value.map [("a", Value.seq [Value.str "1.2.3"])]) []
      [{ Name := "a", Typ := "float", Parameter := "" }] = Outcome.returned (Except.ok []) ∧
    parseMapInterface [] (Value.map [("a", Value.map [("b", Value.str "yes")])]) []
      [{ Name := "a__b", Typ := "bool", Parameter := "" }] = Outcome.returned (Except.ok []) ∧
    (parse { TagKeys := [], vars := [{ Name := "a", Typ := "int", Parameter := "" }] }
      (Value.str "hi") "" "a" [] ParserState.fresh =
      Outcome.returned (some (ParseError.cannotParse "hi"), ParserState.fresh)) := by
  refine ⟨?_, ?_, ?_, ?_⟩ <;> decide

/-- C9, the claim as written fails: in `{"s": "x", "n": 1}` with no `TagKeys`
the undeclared string `s` is stored nowhere: after the walk the parser holds no
global and no scoped tag, and the one returned record carries no tag `s`. -/
theorem unlisted_string_is_no_tag_example :
    parse { TagKeys := [], vars := [] }
      (Value.map [("s", Value.str "x"), ("n", Value.float ⟨false, 1, 0⟩)]) "" "" []
      ParserState.fresh =
      Outcome.returned (none,
        { metricsTable :=
            [{ fields := [("n", FieldValue.float ⟨false, 1, 0⟩)], tags := [("node", "__")] }],
          customTags := [], indexTags := [] }) ∧
    parseMapInterface [] (Value.map [("s", Value.str "x"), ("n", Value.float ⟨false, 1, 0⟩)])
      [] [] =
      Outcome.returned (Except.ok
        [{ fields := [("n", FieldValue.float ⟨false, 1, 0⟩)], tags := [("node", "__")] }]) := by
  constructor <;> decide

/-- C9 (amended): a non-empty string leaf with no matching declaration becomes
a tag exactly when its dotted path is listed in `TagKeys`: it is then stored
under that path, as a global tag when the index context is empty and as a
scoped tag with a copy of the index context otherwise; when the path is not
listed the leaf changes nothing.  It never yields a record. -/
theorem undeclared_string_is_tag_iff_listed (cfg : Config) (vv node name : String)
    (indexes : Tags) (st : ParserState) (hne : vv ≠ "")
    (hdecl : findVariable cfg.vars (nodePath node (trimName name)) = none)
    (hwf : GoMap.WF indexes) :
    ∃ st', parse cfg (Value.str vv) node name indexes st = Outcome.returned (none, st') ∧
      st'.metricsTable = st.metricsTable ∧
      (nodePath node (trimName name) ∈ cfg.TagKeys →
        (indexes = [] →
          st'.customTags = GoMap.set st.customTags (nodePath node (trimName name)) vv ∧
          st'.indexTags = st.indexTags) ∧
        (indexes ≠ [] →
          st'.customTags = st.customTags ∧
          st'.indexTags = st.indexTags ++
            [{ index := indexes, tag := [(nodePath node (trimName name), vv)] }])) ∧
      (nodePath node (trimName name) ∉ cfg.TagKeys → st' = st) := by
  have hlen : ¬ vv.length = 0 := fun h => hne ((String.length_eq_zero_iff_eq vv).mp h)
  refine ⟨(gatherTag cfg node (nodePath node (trimName name)) vv indexes st).2,
    by simp only [parse, parseString, hlen, if_false, hdecl, emit_newRecord], ?_, ?_, ?_⟩
  · exact gatherTag_metricsTable _ _ _ _ _ _
  · intro h
    rw [gatherTag_listed cfg node _ vv indexes st h]
    constructor
    · intro h0
      simp [h0]
    · intro h0
      simp [h0, GoMap.assignAll_nil_of_WF indexes hwf]
  · intro h
    rw [gatherTag_unlisted cfg node _ vv indexes st h]

/-- Witness of C9 (amended): the string `Client0` at `client__name`, listed in
`TagKeys`, under the index context `client -> 0`. -/
theorem undeclared_string_is_tag_iff_listed_witness :
    ("Client0" ≠ "" ∧
      findVariable ([] : List Variable) (nodePath "client" (trimName "name")) = none ∧
      GoMap.WF ([("client", "0")] : Tags)) ∧
    ∃ st', parse { TagKeys := ["client__name"], vars := [] } (Value.str "Client0") "client" "name"
        [("client", "0")] ParserState.fresh = Outcome.returned (none, st') ∧
      st'.metricsTable = ParserState.fresh.metricsTable ∧
      (nodePath "client" (trimName "name") ∈ ["client__name"] →
        (([("client", "0")] : Tags) = [] →
          st'.customTags = GoMap.set ParserState.fresh.customTags
            (nodePath "client" (trimName "name")) "Client0" ∧
          st'.indexTags = ParserState.fresh.indexTags) ∧
        (([("client", "0")] : Tags) ≠ [] →
          st'.customTags = ParserState.fresh.customTags ∧
          st'.indexTags = ParserState.fresh.indexTags ++
            [{ index := [("client", "0")],
               tag := [(nodePath "client" (trimName "name"), "Client0")] }])) ∧
      (nodePath "client" (trimName "name") ∉ ["client__name"] → st' = ParserState.fresh) :=
  ⟨⟨by decide, by decide, by decide⟩,
   undeclared_string_is_tag_iff_listed { TagKeys := ["client__name"], vars := [] } "Client0"
     "client" "name" [("client", "0")] ParserState.fresh (by decide) (by decide)
     (by decide)⟩

/-- C10: a numeric leaf (float64 or int), and a declared string leaf whose
extracted text coerces, is classified by whether its dotted path `nodeName` is
in `TagKeys`: if it is, no record is added and one tag keyed by the path is
recorded (global under an empty index context, scoped with a copy of the index
context otherwise); if it is not, one record with the field of the leaf is
added and no tag is recorded.  The two cases exclude each other, so no leaf
yields both a field and a tag. -/
theorem leaf_is_tag_or_field (cfg : Config) (node name : String) (indexes : Tags)
    (st : ParserState) (hwf : GoMap.WF indexes) :
    (∀ x : Float64, ∃ st',
      parse cfg (Value.float x) node name indexes st = Outcome.returned (none, st') ∧
      ClassifiedByTagKeys cfg.TagKeys (nodePath node (trimName name)) (trimName name)
        (formatFloat x) (FieldValue.float x) node indexes st st') ∧
    (∀ n : Int, ∃ st',
      parse cfg (Value.int n) node name indexes st = Outcome.returned (none, st') ∧
      ClassifiedByTagKeys cfg.TagKeys (nodePath node (trimName name)) (trimName name)
        (itoa n) (FieldValue.int n) node indexes st st') ∧
    (∀ (vv vvv : String) (value : Variable) (fv : FieldValue),
      findVariable cfg.vars (nodePath node (trimName name)) = some value →
      trimString vv = Except.ok vvv →
      coerce value vvv = Except.ok (some fv) →
      ∃ st', parse cfg (Value.str vv) node name indexes st = Outcome.returned (none, st') ∧
        ClassifiedByTagKeys cfg.TagKeys (nodePath node (trimName name)) (trimName name)
          vvv fv node indexes st st') := by
  refine ⟨?_, ?_, ?_⟩
  · intro x
    exact ⟨_, by simp only [parse], emit_gatherTag_classified cfg node _ _ _ _ indexes st hwf⟩
  · intro n
    exact ⟨_, by simp only [parse], emit_gatherTag_classified cfg node _ _ _ _ indexes st hwf⟩
  · intro vv vvv value fv hdecl htrim hco
    have hlen : ¬ vv.length = 0 := by
      intro h
      rw [(String.length_eq_zero_iff_eq vv).mp h] at htrim
      have hempty : trimString "" = Except.error (ParseError.cannotParse "") := by decide
      rw [hempty] at htrim
      cases htrim
    exact ⟨_, by simp only [parse, parseString, hlen, if_false, hdecl, parseDeclared, htrim, hco],
      emit_gatherTag_classified cfg node _ _ _ _ indexes st hwf⟩

/-- Witness of C10: the number 90 at `thid` inside element 0 of `client`, and
the string `3` at `parent__child`, declared Int. -/
theorem leaf_is_tag_or_field_witness :
    GoMap.WF ([("client", "0")] : Tags) ∧
    (∃ st', parse cfgSingle (Value.float ⟨false, 90, 0⟩) "oscam__status__client" "thid"
        [("client", "0")] ParserState.fresh = Outcome.returned (none, st') ∧
      ClassifiedByTagKeys cfgSingle.TagKeys (nodePath "oscam__status__client" (trimName "thid"))
        (trimName "thid") (formatFloat ⟨false, 90, 0⟩) (FieldValue.float ⟨false, 90, 0⟩)
        "oscam__status__client" [("client", "0")] ParserState.fresh st') ∧
    (findVariable cfgSingle.vars (nodePath "parent" (trimName "child")) =
        some { Name := "parent__child", Typ := "int", Parameter := "" } ∧
      trimString "3" = Except.ok "3" ∧
      coerce { Name := "parent__child", Typ := "int", Parameter := "" } "3" =
        Except.ok (some (FieldValue.int64 3))) ∧
    (∃ st', parse cfgSingle (Value.str "3") "parent" "child" [] ParserState.fresh =
        Outcome.returned (none, st') ∧
      ClassifiedByTagKeys cfgSingle.TagKeys (nodePath "parent" (trimName "child"))
        (trimName "child") "3" (FieldValue.int64 3) "parent" [] ParserState.fresh st') :=
  ⟨by decide,
   (leaf_is_tag_or_field cfgSingle "oscam__status__client" "thid" [("client", "0")]
      ParserState.fresh (by decide)).1 ⟨false, 90, 0⟩,
   ⟨by decide, by decide, by decide⟩,
   (leaf_is_tag_or_field cfgSingle "parent" "child" [] ParserState.fresh
      (by decide)).2.2 "3" "3"
      { Name := "parent__child", Typ := "int", Parameter := "" } (FieldValue.int64 3)
      (by decide) (by decide) (by decide)⟩

/-- C5, the claim as written fails: the record of `x` in
`{"server": [{"name": "A", "x": 1}]}` has the own tags `node`, `server -> 0`;
the scoped tag `server__name -> A` was found under `server -> 0`, so it matches
the record's own index context.  With the caller tag `server` (the one
`gatherServer` passes) the finalize pass overwrites `server` first, the scoped
tag no longer matches and the record ends without `server__name`. -/
theorem caller_tag_alters_matching_example :
    findIndex recServerX.tags tagServerName.index = true ∧
    finalTagValue "server__name" (fun _ => recServerX.tags) recServerX.tags
      [("url", "u"), ("server", "h")] [] [tagServerName] = some "A" ∧
    GoMap.get? (finalize [("url", "u"), ("server", "h")] [] [tagServerName] recServerX).tags
      "server__name" = none ∧
    parseMapInterface ["server__name"]
      (Value.map [("server", Value.seq
        [Value.map [("name", Value.str "A"), ("x", Value.float ⟨false, 1, 0⟩)]])])
      [("url", "u"), ("server", "h")] [] =
      Outcome.returned (Except.ok
        [{ fields := [("x", FieldValue.float ⟨false, 1, 0⟩)],
           tags := [("node", "server"), ("server", "h"), ("url", "u")] }]) := by
  refine ⟨?_, ?_, ?_, ?_⟩ <;> decide

/-- C5 (amended): in the finalize pass the final value of a tag key `k` of a
record is the value from the last (in discovery order) scoped tag that has `k`
and whose index context matches the tags of the record as they stand when that
scoped tag is examined (the own tags with the caller tags, the global tags and
the scoped tags merged before it assigned over them); otherwise the global tag
for `k`; otherwise the caller tag; otherwise the record's own value.  When no
key of a scoped index context is the key of a caller tag, a global tag or a
scoped tag, a scoped tag matches exactly when it matches the record's own
tags. -/
theorem final_tag_value (m : MetricsTable) (callerTags customTags : Tags)
    (scopedTags : List IndexTags) (k : String)
    (hc : GoMap.WF callerTags) (hg : GoMap.WF customTags)
    (hs : ∀ it ∈ scopedTags, GoMap.WF it.tag) :
    GoMap.get? (finalize callerTags customTags scopedTags m).tags k =
      finalTagValue k
        (fun pre => applyIndexTags
          (GoMap.assignAll (GoMap.assignAll m.tags callerTags) customTags) pre)
        m.tags callerTags customTags scopedTags ∧
    ((∀ it ∈ scopedTags, ∀ x ∈ GoMap.keys it.index,
        x ∉ GoMap.keys callerTags ∧ x ∉ GoMap.keys customTags ∧
        ∀ it2 ∈ scopedTags, x ∉ GoMap.keys it2.tag) →
      GoMap.get? (finalize callerTags customTags scopedTags m).tags k =
        finalTagValue k (fun _ => m.tags) m.tags callerTags customTags scopedTags) := by
  have hbase : GoMap.get? (GoMap.assignAll (GoMap.assignAll m.tags callerTags) customTags) k =
      ((GoMap.get? customTags k).or (GoMap.get? callerTags k)).or (GoMap.get? m.tags k) := by
    rw [GoMap.get?_assignAll customTags _ k hg, GoMap.get?_assignAll callerTags _ k hc]
    cases GoMap.get? customTags k <;> cases GoMap.get? callerTags k <;> simp
  have hfirst := get?_applyIndexTags_lastMatching
    (GoMap.assignAll (GoMap.assignAll m.tags callerTags) customTags) k
    (((GoMap.get? customTags k).or (GoMap.get? callerTags k)).or (GoMap.get? m.tags k))
    scopedTags hs [] none (by simpa [applyIndexTags] using hbase)
  have hmain : GoMap.get? (finalize callerTags customTags scopedTags m).tags k =
      finalTagValue k
        (fun pre => applyIndexTags
          (GoMap.assignAll (GoMap.assignAll m.tags callerTags) customTags) pre)
        m.tags callerTags customTags scopedTags := by
    simpa [finalize, finalTagValue, applyIndexTags] using hfirst
  refine ⟨hmain, ?_⟩
  intro hdis
  rw [hmain]
  unfold finalTagValue
  rw [lastMatchingFrom_congr k _ (fun _ => m.tags) scopedTags scopedTags (fun _ h => h) ?_ []
    none (by simp)]
  intro l it hl hit
  apply findIndex_congr
  intro x hx
  obtain ⟨h1, h2, h3⟩ := hdis it hit x hx
  rw [get?_applyIndexTags_of_not_mem l _ x (fun it2 h2' => h3 it2 (hl it2 h2')),
    GoMap.get?_assignAll_of_not_mem customTags _ x h2,
    GoMap.get?_assignAll_of_not_mem callerTags _ x h1]

/-- Witness of C5 (amended): the record of `thid` of the second client of
`validJSONTag`, the caller tag `url`, the global tag `oscam__rootName` and the
scoped tags of the two client names. -/
theorem final_tag_value_witness :
    (GoMap.WF ([("url", "u")] : Tags) ∧ GoMap.WF ([("oscam__rootName", "root")] : Tags) ∧
      (∀ it ∈ tagsClientNames, GoMap.WF it.tag) ∧
      (∀ it ∈ tagsClientNames, ∀ x ∈ GoMap.keys it.index,
        x ∉ GoMap.keys ([("url", "u")] : Tags) ∧
        x ∉ GoMap.keys ([("oscam__rootName", "root")] : Tags) ∧
        ∀ it2 ∈ tagsClientNames, x ∉ GoMap.keys it2.tag)) ∧
    GoMap.get? (finalize [("url", "u")] [("oscam__rootName", "root")] tagsClientNames
        recClient1).tags "oscam__status__client__name" =
      finalTagValue "oscam__status__client__name" (fun _ => recClient1.tags) recClient1.tags
        [("url", "u")] [("oscam__rootName", "root")] tagsClientNames ∧
    finalTagValue "oscam__status__client__name" (fun _ => recClient1.tags) recClient1.tags
      [("url", "u")] [("oscam__rootName", "root")] tagsClientNames = some "Client1" :=
  ⟨⟨by decide, by decide, by decide, by decide⟩,
   (final_tag_value recClient1 [("url", "u")] [("oscam__rootName", "root")] tagsClientNames
      "oscam__status__client__name" (by decide) (by decide) (by decide)).2 (by decide),
   by decide⟩

/-- C2, the claim as written fails: in
`{"client": [{"name": "A", "client": [{"x": 1}, {"x": 2}]}, {"name": "B"}]}`
with the tag key `client__name`, both records come from inside element 0 of
the outer `client` (the first conjunct: they are what the walk of that element
adds), yet the record of the second `x` is returned with the name `B` of
element 1 and without the name `A` of its own element: the inner sequence,
having the same name, rebinds the index key `client`. -/
theorem same_name_sequence_leaks_tag_example :
    (parse cfgClientName elemNested "" "client" [("client", "0")]
        ParserState.fresh).finalState.metricsTable =
      [{ fields := [("x", FieldValue.float ⟨false, 1, 0⟩)],
         tags := [("node", "client__client"), ("client", "0")] },
       { fields := [("x", FieldValue.float ⟨false, 1, 1⟩)],
         tags := [("node", "client__client"), ("client", "1")] }] ∧
    parseMapInterface ["client__name"] docNested [] [] =
      Outcome.returned (Except.ok
        [{ fields := [("x", FieldValue.float ⟨false, 1, 0⟩)],
           tags := [("node", "client__client"), ("client", "0"), ("client__name", "A")] },
         { fields := [("x", FieldValue.float ⟨false, 1, 1⟩)],
           tags := [("node", "client__client"), ("client", "1"), ("client__name", "B")] }]) := by
  constructor <;> decide

/-- C2 (amended): let element `i` of a sequence visited under `name` with the
index context `ctx` be a mapping holding a non-empty undeclared string
`leafKey -> v` whose dotted path `P` is in `TagKeys`.  Provided that no
sequence inside the element rebinds an index key of the element (`name` or a
key of `ctx`), that no caller tag, global tag or scoped tag is keyed by such an
index key, and that every other scoped tag holding `P` in the final parser was
found under an index context that disagrees with the element's, every record
produced anywhere inside element `i` is returned with the tag `P -> v`, the
value of its own element, and so with no other value for `P`. -/
theorem scoped_tag_reaches_records_of_element (cfg : Config)
    (entries : List (String × Value)) (node name : String) (ctx : Tags) (i : Nat)
    (st st1 final : ParserState) (e : Option ParseError) (leafKey v : String)
    (callerTags : Tags) (later : List IndexTags)
    (hrun : parse cfg (Value.map entries) node name
      (newIndexed ctx name i) st =
      Outcome.returned (e, st1))
    (hctx : GoMap.WF ctx)
    (hleaf : (leafKey, Value.str v) ∈ entries) (hv : v ≠ "")
    (hlisted : nodePath (nodePath node (trimName name)) (trimName leafKey) ∈ cfg.TagKeys)
    (hdecl : findVariable cfg.vars
      (nodePath (nodePath node (trimName name)) (trimName leafKey)) = none)
    (hfree : rebindFreeEntries (name :: GoMap.keys ctx) entries = true)
    (hfinal : final.indexTags = st1.indexTags ++ later)
    (hkeys : ∀ x ∈ name :: GoMap.keys ctx,
      x ∉ GoMap.keys callerTags ∧ x ∉ GoMap.keys final.customTags ∧
      ∀ it ∈ final.indexTags, x ∉ GoMap.keys it.tag)
    (huniq : ∀ it ∈ final.indexTags,
      nodePath (nodePath node (trimName name)) (trimName leafKey) ∈ GoMap.keys it.tag →
      it = { index := newIndexed ctx name i,
             tag := [(nodePath (nodePath node (trimName name)) (trimName leafKey), v)] } ∨
      ∃ kv ∈ it.index,
        (GoMap.get? (newIndexed ctx name i) kv.1).isSome
          = true ∧
        GoMap.get? (newIndexed ctx name i) kv.1 ≠
          some kv.2) :
    ∀ new, st1.metricsTable = st.metricsTable ++ new → ∀ r ∈ new,
      GoMap.get? (finalize callerTags final.customTags final.indexTags r).tags
        (nodePath (nodePath node (trimName name)) (trimName leafKey)) = some v ∧
      ∀ w, w ≠ v →
        GoMap.get? (finalize callerTags final.customTags final.indexTags r).tags
          (nodePath (nodePath node (trimName name)) (trimName leafKey)) ≠ some w := by
  intro new hnew r hr
  have hewf := WF_newIndexed ctx name i hctx
  have hekeys := fun x => keys_newIndexed ctx name i x hctx
  have hene := newIndexed_ne_nil ctx name i
  -- the walk of the entries
  simp only [parse] at hrun
  cases hp : parseEntries cfg entries (nodePath node (trimName name))
      (newIndexed ctx name i) st with
  | panicked st2 =>
    rw [hp] at hrun
    cases hrun
  | returned st2 =>
    rw [hp] at hrun
    simp only [emit_newRecord, Outcome.returned.injEq, Prod.mk.injEq] at hrun
    obtain ⟨_, hst⟩ := hrun
    subst hst
    -- the scoped tag of the leaf is in the final parser
    have htag := parseEntries_records_tag cfg leafKey v (nodePath node (trimName name)) _ hv hene
      hewf hlisted hdecl entries st st2 hleaf hp
    have htagF : (⟨newIndexed ctx name i,
        [(nodePath (nodePath node (trimName name)) (trimName leafKey), v)]⟩ : IndexTags)
        ∈ final.indexTags := by
      rw [hfinal]
      exact List.mem_append_left _ htag
    -- the record carries the bindings of the element
    have hcar := parseEntries_carries cfg (name :: GoMap.keys ctx) entries
      (nodePath node (trimName name)) _ st hewf hfree
    rw [hp] at hcar
    obtain ⟨new2, hnew2, hall⟩ := hcar
    simp only [Outcome.loopState] at hnew2
    have hsame : new2 = new := List.append_cancel_left (hnew2.symm.trans hnew)
    subst hsame
    have hrc : ∀ x ∈ GoMap.keys (newIndexed ctx name i),
        GoMap.get? (GoMap.assignAll (GoMap.assignAll r.tags callerTags) final.customTags) x =
          GoMap.get? (newIndexed ctx name i) x := by
      intro x hx
      obtain ⟨w, hw⟩ := GoMap.get?_of_mem_keys _ x hx
      obtain ⟨h1, h2, _⟩ := hkeys x (hekeys x hx)
      rw [GoMap.get?_assignAll_of_not_mem final.customTags _ x h2,
        GoMap.get?_assignAll_of_not_mem callerTags _ x h1, hw]
      exact hall r hr x (hekeys x hx) w hw
    have hfin := applyIndexTags_keeps_tag _
      (nodePath (nodePath node (trimName name)) (trimName leafKey)) v hewf final.indexTags
      (fun it hit x hx => (hkeys x (hekeys x hx)).2.2 it hit) huniq _ hrc (Or.inr htagF)
    have hres : GoMap.get? (finalize callerTags final.customTags final.indexTags r).tags
        (nodePath (nodePath node (trimName name)) (trimName leafKey)) = some v := hfin
    refine ⟨hres, ?_⟩
    intro w hw hc
    rw [hres] at hc
    exact hw (Option.some.inj hc).symm

/-- Witness of C2 (amended): element 0 of `client` in
`{"client": [{"name": "A", "x": 1}, {"name": "B", "x": 2}]}` with the tag key
`client__name` and the caller tag `url`; the record of its `x` is returned
with `client__name -> A`. -/
theorem scoped_tag_reaches_records_of_element_witness :
    parse cfgClientName docClients "" "" [] ParserState.fresh =
      Outcome.returned (none, stateAfterClients) ∧
    (GoMap.get? (finalize [("url", "u")] stateAfterClients.customTags
        stateAfterClients.indexTags recClientX0).tags
        (nodePath (nodePath "" (trimName "client")) (trimName "name")) = some "A" ∧
      ∀ w, w ≠ "A" →
        GoMap.get? (finalize [("url", "u")] stateAfterClients.customTags
          stateAfterClients.indexTags recClientX0).tags
          (nodePath (nodePath "" (trimName "client")) (trimName "name")) ≠ some w) :=
  ⟨by decide,
   scoped_tag_reaches_records_of_element cfgClientName entriesClient0 "" "client" [] 0
     ParserState.fresh stateAfterClient0 stateAfterClients none "name" "A" [("url", "u")]
     [{ index := [("client", "1")], tag := [("client__name", "B")] }]
     (by decide) (by decide) (List.mem_cons_self _ _) (by decide) (by decide) (by decide)
     (by decide) (by decide) (by decide) (by decide) [recClientX0] (by decide) recClientX0
     (by decide)⟩

/-! ## Claims C11 to C20 -/

mutual
/-- Walking a tree and walking it without its `null` and empty-string mapping
entries is the same call. -/
theorem parse_stripEmpty (cfg : Config) :
    ∀ (data : Value) (node name : String) (ctx : Tags) (st : ParserState),
      parse cfg (stripEmpty data) node name ctx st = parse cfg data node name ctx st
  | Value.str _, _, _, _, _ => by simp only [stripEmpty]
  | Value.float _, _, _, _, _ => by simp only [stripEmpty]
  | Value.int _, _, _, _, _ => by simp only [stripEmpty]
  | Value.null, _, _, _, _ => by simp only [stripEmpty]
  | Value.bool _, _, _, _, _ => by simp only [stripEmpty]
  | Value.seq vv, node, name, ctx, st => by
    simp only [stripEmpty, parse, parseElems_stripEmpty cfg vv node (trimName name) ctx 0 st]
  | Value.map vv, node, name, ctx, st => by
    simp only [stripEmpty, parse,
      parseEntries_stripEmpty cfg vv (nodePath node (trimName name)) ctx st]
/-- The statement of `parse_stripEmpty` for the elements of a sequence. -/
theorem parseElems_stripEmpty (cfg : Config) :
    ∀ (elems : List Value) (node name : String) (ctx : Tags) (i : Nat) (st : ParserState),
      parseElems cfg (stripEmptyElems elems) node name ctx i st =
        parseElems cfg elems node name ctx i st
  | [], _, _, _, _, _ => by simp only [stripEmptyElems]
  | u :: rest, node, name, ctx, i, st => by
    simp only [stripEmptyElems, parseElems, parse_stripEmpty cfg u node name _ st]
    cases parse cfg u node name (newIndexed ctx name i) st with
    | returned r => exact parseElems_stripEmpty cfg rest node name ctx (i + 1) r.2
    | panicked st1 => rfl
/-- The statement of `parse_stripEmpty` for the entries of a mapping. -/
theorem parseEntries_stripEmpty (cfg : Config) :
    ∀ (entries : List (String × Value)) (nodeName : String) (ctx : Tags) (st : ParserState),
      parseEntries cfg (stripEmptyEntries entries) nodeName ctx st =
        parseEntries cfg entries nodeName ctx st
  | [], _, _, _ => by simp only [stripEmptyEntries]
  | (k, v) :: rest, nodeName, ctx, st => by
    simp only [stripEmptyEntries]
    by_cases he : isEmptyLeaf v = true
    · rw [if_pos he, parseEntries_stripEmpty cfg rest nodeName ctx st]
      have hv : parse cfg v nodeName k ctx st = Outcome.returned (none, st) := by
        cases v with
        | null => simp only [parse]
        | str s =>
          have hs : s.length = 0 := by simpa [isEmptyLeaf] using he
          simp only [parse, parseString, hs, if_true]
        | bool b => simp [isEmptyLeaf] at he
        | float x => simp [isEmptyLeaf] at he
        | int n => simp [isEmptyLeaf] at he
        | seq vv => simp [isEmptyLeaf] at he
        | map vv => simp [isEmptyLeaf] at he
      simp only [parseEntries, hv]
    · rw [if_neg he]
      simp only [parseEntries, parse_stripEmpty cfg v nodeName k ctx st]
      cases parse cfg v nodeName k ctx st with
      | returned r => exact parseEntries_stripEmpty cfg rest nodeName ctx r.2
      | panicked st1 => rfl
end

/-- C11, the claim as written fails: adding a `null` in front of the number
in `{"list": [1]}` changes the tags of the returned record, the index `list`
of the number becoming `1`. -/
theorem null_in_sequence_shifts_index_example :
    parseMapInterface [] (Value.map [("list", Value.seq [Value.float ⟨false, 1, 0⟩])]) [] [] =
      Outcome.returned (Except.ok
        [{ fields := [("list", FieldValue.float ⟨false, 1, 0⟩)],
           tags := [("node", "__"), ("list", "0")] }]) ∧
    parseMapInterface []
      (Value.map [("list", Value.seq [Value.null, Value.float ⟨false, 1, 0⟩])]) [] [] =
      Outcome.returned (Except.ok
        [{ fields := [("list", FieldValue.float ⟨false, 1, 0⟩)],
           tags := [("node", "__"), ("list", "1")] }]) := by
  constructor <;> decide

/-- C11 (amended): a `null` and an empty string never produce a record or a
tag: `parse` on such a node returns no error and leaves the parser as it was,
and replacing every mapping entry that holds one by nothing, at any depth of
the tree (so also adding such entries to mappings), changes neither the walk
nor what `parseMapInterface` returns. -/
theorem null_and_empty_string_are_inert (cfg : Config) (data : Value) (node name : String)
    (indexes callerTags : Tags) (st : ParserState) :
    parse cfg Value.null node name indexes st = Outcome.returned (none, st) ∧
    parse cfg (Value.str "") node name indexes st = Outcome.returned (none, st) ∧
    parse cfg (stripEmpty data) node name indexes st = parse cfg data node name indexes st ∧
    parseMapInterface cfg.TagKeys (stripEmpty data) callerTags cfg.vars =
      parseMapInterface cfg.TagKeys data callerTags cfg.vars := by
  refine ⟨by simp only [parse], ?_, parse_stripEmpty cfg data node name indexes st, ?_⟩
  · have h0 : ("" : String).length = 0 := rfl
    simp only [parse, parseString, h0, if_true]
  · simp only [parseMapInterface, parse_stripEmpty]

/-! ## The extraction at the first decimal digit -/

theorem isValueChar_of_isDigit (c : Char) (h : isDigit c = true) : isValueChar c = true := by
  simp [isValueChar, isHexChar, h]

theorem matchGroup_at_digit (d : Char) (t : List Char) (hd : isDigit d = true) :
    matchGroup (d :: t) = some (runAtDigit (d :: t)) := by
  have hv := isValueChar_of_isDigit d hd
  have hsecond : (match (d :: t).takeWhile isValueChar with
      | [] => none
      | r => some r) = some ((d :: t).takeWhile isValueChar) := by
    simp [List.takeWhile_cons, hv]
  unfold matchGroup runAtDigit
  simp only [hsecond]
  split
  · rename_i rest heq
    have h1 : d = '0' := (List.cons.inj heq).1
    have h2 : t = 'x' :: rest := (List.cons.inj heq).2
    subst h1 h2
    cases rest with
    | nil => simp
    | cons h t2 =>
      by_cases hh : isHexChar h = true
      · simp [List.takeWhile_cons, hh]
      · simp [List.takeWhile_cons, hh]
  · rename_i hne
    split
    · rename_i h t2 heq
      exact absurd heq (hne (h :: t2))
    · rfl

theorem matchHere_at_first_digit (cs : List Char) (h : ∃ c ∈ cs, isDigit c = true) :
    matchHere cs = some (extractAtFirstDigit cs) := by
  induction cs with
  | nil => simp at h
  | cons c rest ih =>
    by_cases hc : isDigit c = true
    · simp only [matchHere, hc, if_true, extractAtFirstDigit, List.dropWhile_cons,
        Bool.not_true, Bool.false_eq_true, if_false]
      exact matchGroup_at_digit c rest hc
    · have hrest : ∃ c ∈ rest, isDigit c = true := by
        obtain ⟨x, hx, hxd⟩ := h
        rcases List.mem_cons.mp hx with h1 | h1
        · rw [h1] at hxd
          exact absurd hxd hc
        · exact ⟨x, h1, hxd⟩
      have hcf : isDigit c = false := by simpa using hc
      simp only [matchHere, hcf, Bool.false_eq_true, if_false, ih hrest, extractAtFirstDigit,
        List.dropWhile_cons, Bool.not_false, if_true]

theorem findSubmatch_of_matchHere (cs r : List Char) (h : matchHere cs = some r) :
    findSubmatch cs = some r := by
  cases cs with
  | nil => simpa [findSubmatch] using h
  | cons c rest => simp [findSubmatch, h]

/-! ## Sequences of numbers -/

theorem trimName_idem (name : String) : trimName (trimName name) = trimName name := by
  simp only [trimName, List.filter_filter]
  congr 1
  show List.filter _ (List.filter _ name.toList) = _
  rw [List.filter_filter]
  apply List.filter_congr
  intro c _
  cases decide (c ≠ '.') <;> cases decide (c ≠ '-') <;> rfl

theorem GoMap.WF_assignAll {β : Type} (src dst : GoMap β) (h : GoMap.WF dst) :
    GoMap.WF (GoMap.assignAll dst src) := by
  induction src generalizing dst with
  | nil => simpa [GoMap.assignAll] using h
  | cons e rest ih =>
    have := ih (GoMap.set dst e.1 e.2) (GoMap.WF_set dst e.1 e.2 h)
    simpa [GoMap.assignAll] using this

/-- The index context of an element is a map, whatever it was copied from. -/
theorem WF_newIndexed_any (ctx : Tags) (name : String) (i : Nat) :
    GoMap.WF (newIndexed ctx name i) := by
  unfold newIndexed
  exact GoMap.WF_set _ _ _ (GoMap.WF_assignAll ctx [] (by simp [GoMap.WF, GoMap.keys]))

/-- The tag that an element of a sequence gets for the name of the sequence
is its position. -/
theorem get?_tags_newIndexed (base ctx : Tags) (name : String) (i : Nat) :
    GoMap.get? (GoMap.assignAll base (newIndexed ctx name i)) name = some (toString i) := by
  rw [GoMap.get?_assignAll _ _ name (WF_newIndexed_any ctx name i)]
  have : GoMap.get? (newIndexed ctx name i) name = some (toString i) := by
    unfold newIndexed
    rw [GoMap.get?_set_self]
    rfl
  rw [this]
  rfl

/-- A number whose path is not listed adds the record of its field. -/
theorem parse_number_unlisted (cfg : Config) (x : Number) (node name : String) (ctx : Tags)
    (st : ParserState) (h : nodePath node (trimName name) ∉ cfg.TagKeys) :
    parse cfg x.toValue node name ctx st =
      Outcome.returned (none, { st with
        metricsTable := st.metricsTable ++
          [{ fields := [(trimName name, x.toField)],
             tags := GoMap.assignAll [("node", if node = "" then "__" else node)] ctx }] }) := by
  cases x with
  | float v =>
    simp only [Number.toValue, Number.toField, parse]
    rw [gatherTag_unlisted cfg node _ _ ctx st h]
    simp [emit, newRecord_tags, newRecord_fields, GoMap.set]
  | int n =>
    simp only [Number.toValue, Number.toField, parse]
    rw [gatherTag_unlisted cfg node _ _ ctx st h]
    simp [emit, newRecord_tags, newRecord_fields, GoMap.set]

/-- The loop over a sequence of numbers whose path is not listed adds the
specified records. -/
theorem parseElems_numbers (cfg : Config) (node name : String) (ctx : Tags)
    (h : nodePath node (trimName name) ∉ cfg.TagKeys) :
    ∀ (xs : List Number) (i : Nat) (st : ParserState),
      parseElems cfg (xs.map Number.toValue) node (trimName name) ctx i st =
        Outcome.returned { st with
          metricsTable := st.metricsTable ++ numberRecords node (trimName name) ctx xs i } := by
  intro xs
  induction xs with
  | nil =>
    intro i st
    simp [parseElems, numberRecords]
  | cons x rest ih =>
    intro i st
    have h2 : nodePath node (trimName (trimName name)) ∉ cfg.TagKeys := by
      rw [trimName_idem]
      exact h
    simp only [List.map_cons, parseElems,
      parse_number_unlisted cfg x node (trimName name) _ st h2, ih, trimName_idem]
    simp [numberRecords]

theorem numberRecords_length (node name : String) (ctx : Tags) :
    ∀ (xs : List Number) (i : Nat), (numberRecords node name ctx xs i).length = xs.length := by
  intro xs
  induction xs with
  | nil => intro i; rfl
  | cons x rest ih => intro i; simp [numberRecords, ih]

theorem numberRecords_getElem? (node name : String) (ctx : Tags) :
    ∀ (xs : List Number) (i j : Nat) (x : Number), xs[j]? = some x →
      (numberRecords node name ctx xs i)[j]? =
        some { fields := [(name, x.toField)],
               tags := GoMap.assignAll [("node", if node = "" then "__" else node)]
                 (newIndexed ctx name (i + j)) } := by
  intro xs
  induction xs with
  | nil => intro i j x h; simp at h
  | cons y rest ih =>
    intro i j x h
    cases j with
    | zero =>
      simp only [List.getElem?_cons_zero, Option.some.injEq] at h
      subst h
      simp [numberRecords]
    | succ j =>
      simp only [List.getElem?_cons_succ] at h
      have := ih (i + 1) j x h
      simp only [numberRecords, List.getElem?_cons_succ, this]
      have e : i + 1 + j = i + (j + 1) := by omega
      rw [e]

/-- The walk over a sequence of N numbers visited under `name`, its path not in
`TagKeys`, adds exactly N records and nothing else: the i-th (from 0) holds
the one field `name` (sanitized) with the i-th number and carries the tag
`name` (sanitized) with the decimal text of i; the sequence node adds no
record of its own and an empty sequence adds none. -/
theorem parse_sequence_of_numbers (cfg : Config) (node name : String)
    (indexes : Tags) (st : ParserState) (xs : List Number)
    (h : nodePath node (trimName name) ∉ cfg.TagKeys) :
    parse cfg (Value.seq (xs.map Number.toValue)) node name indexes st =
      Outcome.returned (none, { st with
        metricsTable := st.metricsTable ++ numberRecords node (trimName name) indexes xs 0 }) ∧
    (numberRecords node (trimName name) indexes xs 0).length = xs.length ∧
    (∀ (i : Nat) (x : Number), xs[i]? = some x →
      ∃ r, (numberRecords node (trimName name) indexes xs 0)[i]? = some r ∧
        r.fields = [(trimName name, x.toField)] ∧
        GoMap.get? r.tags (trimName name) = some (toString i)) ∧
    parse cfg (Value.seq []) node name indexes st = Outcome.returned (none, st) := by
  refine ⟨?_, numberRecords_length _ _ _ xs 0, ?_, ?_⟩
  · simp only [parse, parseElems_numbers cfg node name indexes h xs 0 st, emit_newRecord]
  · intro i x hx
    refine ⟨_, numberRecords_getElem? node (trimName name) indexes xs 0 i x hx, rfl, ?_⟩
    simp only [Nat.zero_add]
    exact get?_tags_newIndexed _ indexes (trimName name) i
  · simp only [parse, parseElems, emit_newRecord]

/-- The walk over the entry `list` of the test document `validJSON`, the
sequence of 3 and 4 at top level. -/
theorem parse_sequence_of_numbers_example :
    nodePath "" (trimName "list") ∉ cfgSingle.TagKeys ∧
    parse cfgSingle
      (Value.seq ([Number.float (Float64.ofNat 3), Number.float (Float64.ofNat 4)].map
        Number.toValue)) "" "list" [] ParserState.fresh =
      Outcome.returned (none, { ParserState.fresh with
        metricsTable := ParserState.fresh.metricsTable ++
          numberRecords "" (trimName "list") []
            [Number.float (Float64.ofNat 3), Number.float (Float64.ofNat 4)] 0 }) ∧
    numberRecords "" (trimName "list") []
      [Number.float (Float64.ofNat 3), Number.float (Float64.ofNat 4)] 0 =
      [{ fields := [("list", FieldValue.float (Float64.ofNat 3))],
         tags := [("node", "__"), ("list", "0")] },
       { fields := [("list", FieldValue.float (Float64.ofNat 4))],
         tags := [("node", "__"), ("list", "1")] }] :=
  ⟨by decide,
   (parse_sequence_of_numbers cfgSingle "" "list" [] ParserState.fresh
      [Number.float (Float64.ofNat 3), Number.float (Float64.ofNat 4)] (by decide)).1,
   by decide⟩

/-! ## Claims C15 to C19 -/

/-- C15: flattening `{"oscam":{"status":{"client":[{"thid":90}]}}}` with no
declarations, no `TagKeys` and no caller tags returns exactly one record, with
the field `thid` 90 and the tags `node` `oscam__status__client` and `client`
`0`. -/
theorem array_of_array_scenario :
    parseMapInterface [] docArrayOfArray [] [] =
      Outcome.returned (Except.ok
        [{ fields := [("thid", FieldValue.float (Float64.ofNat 90))],
           tags := [("node", "oscam__status__client"), ("client", "0")] }]) := by
  decide

/-- C16: flattening
`{"parent":{"child":"3","ignored_child":"hi"},"integer":"693500.0"}` with the
declarations `integer` float and `parent__child` int, no `TagKeys` and no
caller tags returns exactly the record of `integer` (the float 693500, tag
`node` `__`) and the record of `child` (the integer 3, tag `node` `parent`),
in the order of the visit, for each of the four visiting orders of the two
mappings; `ignored_child` yields no record. -/
theorem single_scenario :
    parseMapInterface [] (Value.map [("parent", Value.map [("child", Value.str "3"),
        ("ignored_child", Value.str "hi")]), ("integer", Value.str "693500.0")]) []
      cfgSingle.vars = Outcome.returned (Except.ok [recChild, recInteger]) ∧
    parseMapInterface [] (Value.map [("parent", Value.map [("ignored_child", Value.str "hi"),
        ("child", Value.str "3")]), ("integer", Value.str "693500.0")]) []
      cfgSingle.vars = Outcome.returned (Except.ok [recChild, recInteger]) ∧
    parseMapInterface [] (Value.map [("integer", Value.str "693500.0"),
        ("parent", Value.map [("child", Value.str "3"), ("ignored_child", Value.str "hi")])]) []
      cfgSingle.vars = Outcome.returned (Except.ok [recInteger, recChild]) ∧
    parseMapInterface [] (Value.map [("integer", Value.str "693500.0"),
        ("parent", Value.map [("ignored_child", Value.str "hi"), ("child", Value.str "3")])]) []
      cfgSingle.vars = Outcome.returned (Except.ok [recInteger, recChild]) := by
  refine ⟨?_, ?_, ?_, ?_⟩ <;> decide

/-- C17: for every string that contains a decimal digit, `trimString` succeeds
and returns the text that starts at the first decimal digit: `0x` and the
longest run of hexadecimal digits when the text there is `0x` followed by a
hexadecimal digit, otherwise the longest run of digits, periods, commas and
the letters A-F, a-f; what stands before and after is dropped, as in the
strings of the test `TestStringValueTrim`. -/
theorem trimString_extracts_at_first_digit (data : String)
    (h : ∃ c ∈ data.toList, isDigit c = true) :
    trimString data = Except.ok (String.mk (extractAtFirstDigit data.toList)) ∧
    (trimString "10 MB" = Except.ok "10" ∧ trimString "MB 10" = Except.ok "10" ∧
      trimString "10MB" = Except.ok "10" ∧ trimString "MB10" = Except.ok "10" ∧
      trimString "id_0x60AD4140F" = Except.ok "0x60AD4140F") := by
  refine ⟨?_, by decide, by decide, by decide, by decide, by decide⟩
  unfold trimString
  rw [findSubmatch_of_matchHere _ _ (matchHere_at_first_digit data.toList h)]

/-- Witness of C17 on the string `id_0x60AD4140F`. -/
theorem trimString_extracts_at_first_digit_witness :
    (∃ c ∈ "id_0x60AD4140F".toList, isDigit c = true) ∧
    trimString "id_0x60AD4140F" =
      Except.ok (String.mk (extractAtFirstDigit "id_0x60AD4140F".toList)) ∧
    String.mk (extractAtFirstDigit "id_0x60AD4140F".toList) = "0x60AD4140F" :=
  ⟨⟨'0', by decide, by decide⟩,
   (trimString_extracts_at_first_digit "id_0x60AD4140F" ⟨'0', by decide, by decide⟩).1,
   by decide⟩

/-- C18, the code at the failing input: of the hexadecimal strings `C27` and
`ff` only the text from the first decimal digit on, or the last letter, comes
back, so with the declaration Int, Parameter 16, the leaf `C27` yields 39
(hexadecimal 27) and `ff` yields 15, whereas `0C27` is read whole as 3111. -/
theorem leading_hex_letter_is_dropped :
    trimString "C27" = Except.ok "27" ∧ trimString "ff" = Except.ok "f" ∧
    trimString "0C27" = Except.ok "0C27" ∧
    parseMapInterface []
      (Value.map [("v", Value.str "C27"), ("w", Value.str "ff"), ("u", Value.str "0C27")]) []
      [{ Name := "v", Typ := "int", Parameter := "16" },
       { Name := "w", Typ := "int", Parameter := "16" },
       { Name := "u", Typ := "int", Parameter := "16" }] =
      Outcome.returned (Except.ok
        [{ fields := [("v", FieldValue.int64 39)], tags := [("node", "__")] },
         { fields := [("w", FieldValue.int64 15)], tags := [("node", "__")] },
         { fields := [("u", FieldValue.int64 3111)], tags := [("node", "__")] }]) := by
  refine ⟨?_, ?_, ?_, ?_⟩ <;> decide

/-- C19, the code at the failing input: of the literals `true`, `false`,
`TRUE` and `False` the extraction keeps the letter `e` or `E` alone, which is
no boolean for `strconv.ParseBool`; the leaf declared Bool returns an error,
and inside a mapping it yields no record. -/
theorem boolean_literal_is_not_coerced :
    trimString "true" = Except.ok "e" ∧ trimString "false" = Except.ok "e" ∧
    trimString "TRUE" = Except.ok "E" ∧ trimString "False" = Except.ok "e" ∧
    parse { TagKeys := [], vars := [{ Name := "up", Typ := "bool", Parameter := "" }] }
      (Value.str "true") "" "up" [] ParserState.fresh =
      Outcome.returned (some (ParseError.parseBool "e"), ParserState.fresh) ∧
    parseMapInterface [] (Value.map [("up", Value.str "true"), ("down", Value.str "false")]) []
      [{ Name := "up", Typ := "bool", Parameter := "" },
       { Name := "down", Typ := "bool", Parameter := "" }] =
      Outcome.returned (Except.ok []) := by
  refine ⟨?_, ?_, ?_, ?_, ?_, ?_⟩ <;> decide

/-! ## The walk as a run over the leaves -/

theorem runSites_append (cfg : Config) (l1 l2 : List Site) (st : ParserState) :
    runSites cfg (l1 ++ l2) st =
      (match runSites cfg l1 st with
        | Outcome.returned st1 => runSites cfg l2 st1
        | Outcome.panicked st1 => Outcome.panicked st1) := by
  induction l1 generalizing st with
  | nil => simp [runSites]
  | cons s rest ih =>
    simp only [List.cons_append, runSites]
    cases parse cfg s.leaf s.node s.name s.indexes st with
    | returned r => exact ih r.2
    | panicked st1 => rfl

theorem runSites_singleton (cfg : Config) (s : Site) (st : ParserState) :
    runSites cfg [s] st = (parse cfg s.leaf s.node s.name s.indexes st).dropError := by
  simp only [runSites, Outcome.dropError]

mutual
/-- The walk below a node is the run over its leaves: the calls of `parse` on
the leaves in order, the errors dropped. -/
theorem parse_eq_runSites (cfg : Config) :
    ∀ (data : Value) (node name : String) (ctx : Tags) (root : Bool) (segs : List String)
      (st : ParserState),
      (parse cfg data node name ctx st).dropError =
        runSites cfg (sites data node name ctx root segs) st
  | Value.str _, _, _, _, _, _, _ => by simp only [sites, runSites_singleton]
  | Value.float _, _, _, _, _, _, _ => by simp only [sites, runSites_singleton]
  | Value.int _, _, _, _, _, _, _ => by simp only [sites, runSites_singleton]
  | Value.null, _, _, _, _, _, _ => by simp only [sites, runSites_singleton]
  | Value.bool _, _, _, _, _, _, _ => by simp only [sites, runSites_singleton]
  | Value.seq vv, node, name, ctx, root, segs, st => by
    have h := parseElems_eq_runSites cfg vv node (trimName name) ctx 0 root segs st
    simp only [sites, parse, ← h]
    cases parseElems cfg vv node (trimName name) ctx 0 st with
    | returned st1 => simp [Outcome.dropError, emit_newRecord]
    | panicked st1 => simp [Outcome.dropError]
  | Value.map vv, node, name, ctx, root, segs, st => by
    have h := parseEntries_eq_runSites cfg vv (nodePath node (trimName name)) ctx
      (if root then segs else segs ++ [trimName name]) st
    simp only [sites, parse, ← h]
    cases parseEntries cfg vv (nodePath node (trimName name)) ctx st with
    | returned st1 => simp [Outcome.dropError, emit_newRecord]
    | panicked st1 => simp [Outcome.dropError]
/-- The statement of `parse_eq_runSites` for the elements of a sequence. -/
theorem parseElems_eq_runSites (cfg : Config) :
    ∀ (elems : List Value) (node name : String) (ctx : Tags) (i : Nat) (root : Bool)
      (segs : List String) (st : ParserState),
      parseElems cfg elems node name ctx i st =
        runSites cfg (sitesElems elems node name ctx i root segs) st
  | [], _, _, _, _, _, _, _ => by simp only [sitesElems, parseElems, runSites]
  | u :: rest, node, name, ctx, i, root, segs, st => by
    have h := parse_eq_runSites cfg u node name (newIndexed ctx name i) root segs st
    simp only [sitesElems, parseElems, runSites_append, ← h]
    cases parse cfg u node name (newIndexed ctx name i) st with
    | returned r =>
      simp only [Outcome.dropError]
      exact parseElems_eq_runSites cfg rest node name ctx (i + 1) root segs r.2
    | panicked st1 => simp [Outcome.dropError]
/-- The statement of `parse_eq_runSites` for the entries of a mapping. -/
theorem parseEntries_eq_runSites (cfg : Config) :
    ∀ (entries : List (String × Value)) (nodeName : String) (ctx : Tags) (segs : List String)
      (st : ParserState),
      parseEntries cfg entries nodeName ctx st =
        runSites cfg (sitesEntries entries nodeName ctx segs) st
  | [], _, _, _, _ => by simp only [sitesEntries, parseEntries, runSites]
  | (k, v) :: rest, nodeName, ctx, segs, st => by
    have h := parse_eq_runSites cfg v nodeName k ctx false segs st
    simp only [sitesEntries, parseEntries, runSites_append, ← h]
    cases parse cfg v nodeName k ctx st with
    | returned r =>
      simp only [Outcome.dropError]
      exact parseEntries_eq_runSites cfg rest nodeName ctx segs r.2
    | panicked st1 => simp [Outcome.dropError]
end

/-! ## What a leaf adds does not depend on the parser it is added to -/

theorem ParserState.add_fresh (st : ParserState) : st.add ParserState.fresh = st := by
  simp [ParserState.add, ParserState.fresh, GoMap.assignAll]

theorem gatherTag_add (cfg : Config) (node p v : String) (ctx : Tags) (st : ParserState) :
    gatherTag cfg node p v ctx st =
      ((gatherTag cfg node p v ctx ParserState.fresh).1,
        st.add (gatherTag cfg node p v ctx ParserState.fresh).2) := by
  unfold gatherTag
  split
  · split
    · simp [ParserState.add, ParserState.fresh, GoMap.assignAll]
    · simp [ParserState.add, ParserState.fresh, GoMap.assignAll, GoMap.set]
  · simp [ParserState.add_fresh]

theorem emit_add (mt : MetricsTable) (ctx : Tags) (st d : ParserState) :
    emit mt ctx (st.add d) = st.add (emit mt ctx d) := by
  unfold emit
  split
  · simp [ParserState.add]
  · rfl

/-- The tail shared by the leaf arms: `gatherTag`, then the record. -/
theorem emit_gatherTag_add (cfg : Config) (node p v : String) (ctx : Tags)
    (mt1 mt2 : MetricsTable) (st : ParserState) :
    emit (if (gatherTag cfg node p v ctx st).1 then mt1 else mt2) ctx
        (gatherTag cfg node p v ctx st).2 =
      st.add (emit (if (gatherTag cfg node p v ctx ParserState.fresh).1 then mt1 else mt2) ctx
        (gatherTag cfg node p v ctx ParserState.fresh).2) := by
  rw [gatherTag_add cfg node p v ctx st, emit_add]

/-- A leaf called on any parser returns what it returns on a fresh parser, its
additions put after what the parser holds; a leaf that panics does so on
every parser. -/
theorem parse_atom_add (cfg : Config) (data : Value) (node name : String) (ctx : Tags)
    (st : ParserState) (ha : data.isAtom = true) :
    parse cfg data node name ctx st =
      (match parse cfg data node name ctx ParserState.fresh with
        | Outcome.returned r => Outcome.returned (r.1, st.add r.2)
        | Outcome.panicked _ => Outcome.panicked st) := by
  cases data with
  | seq vv => simp [Value.isAtom] at ha
  | map vv => simp [Value.isAtom] at ha
  | null => simp [parse, ParserState.add_fresh]
  | bool b => simp [parse]
  | float x =>
    simp only [parse]
    rw [emit_gatherTag_add]
  | int n =>
    simp only [parse]
    rw [emit_gatherTag_add]
  | str vv =>
    simp only [parse, parseString]
    split
    · simp [ParserState.add_fresh]
    · split
      · simp only [parseDeclared]
        split
        · simp [ParserState.add_fresh]
        · split
          · simp [ParserState.add_fresh]
          · simp [emit_newRecord, ParserState.add_fresh]
          · simp only
            rw [emit_gatherTag_add]
      · simp only [emit_newRecord]
        rw [gatherTag_add cfg node _ vv ctx st]

/-! ## Properties of the leaves that descend from the root -/

mutual
/-- A property of a node and of the arguments it is visited with, handed down
from a sequence to its elements and from a mapping to its entries, holds of
every leaf; and every leaf is an atom. -/
theorem sites_inv (Inv : Value → String → String → Tags → Bool → List String → Prop)
    (hseq : ∀ elems node name ctx root segs, Inv (Value.seq elems) node name ctx root segs →
      ∀ u ∈ elems, ∀ i, Inv u node (trimName name) (newIndexed ctx (trimName name) i) root segs)
    (hmap : ∀ entries node name ctx root segs, Inv (Value.map entries) node name ctx root segs →
      ∀ kv ∈ entries, Inv kv.2 (nodePath node (trimName name)) kv.1 ctx false
        (if root then segs else segs ++ [trimName name])) :
    ∀ (data : Value) (node name : String) (ctx : Tags) (root : Bool) (segs : List String),
      Inv data node name ctx root segs →
      ∀ s ∈ sites data node name ctx root segs,
        s.leaf.isAtom = true ∧ ∃ rt, Inv s.leaf s.node s.name s.indexes rt s.segs
  | Value.str _, _, _, _, root, _, h, s, hs => by
    simp only [sites, List.mem_singleton] at hs
    subst hs
    exact ⟨rfl, root, h⟩
  | Value.float _, _, _, _, root, _, h, s, hs => by
    simp only [sites, List.mem_singleton] at hs
    subst hs
    exact ⟨rfl, root, h⟩
  | Value.int _, _, _, _, root, _, h, s, hs => by
    simp only [sites, List.mem_singleton] at hs
    subst hs
    exact ⟨rfl, root, h⟩
  | Value.null, _, _, _, root, _, h, s, hs => by
    simp only [sites, List.mem_singleton] at hs
    subst hs
    exact ⟨rfl, root, h⟩
  | Value.bool _, _, _, _, root, _, h, s, hs => by
    simp only [sites, List.mem_singleton] at hs
    subst hs
    exact ⟨rfl, root, h⟩
  | Value.seq vv, node, name, ctx, root, segs, h, s, hs => by
    simp only [sites] at hs
    exact sitesElems_inv Inv hseq hmap vv node (trimName name) ctx 0 root segs
      (fun u hu i => hseq vv node name ctx root segs h u hu i) s hs
  | Value.map vv, node, name, ctx, root, segs, h, s, hs => by
    simp only [sites] at hs
    exact sitesEntries_inv Inv hseq hmap vv (nodePath node (trimName name)) ctx _
      (fun kv hkv => hmap vv node name ctx root segs h kv hkv) s hs
/-- The statement of `sites_inv` for the elements of a sequence. -/
theorem sitesElems_inv (Inv : Value → String → String → Tags → Bool → List String → Prop)
    (hseq : ∀ elems node name ctx root segs, Inv (Value.seq elems) node name ctx root segs →
      ∀ u ∈ elems, ∀ i, Inv u node (trimName name) (newIndexed ctx (trimName name) i) root segs)
    (hmap : ∀ entries node name ctx root segs, Inv (Value.map entries) node name ctx root segs →
      ∀ kv ∈ entries, Inv kv.2 (nodePath node (trimName name)) kv.1 ctx false
        (if root then segs else segs ++ [trimName name])) :
    ∀ (elems : List Value) (node name : String) (ctx : Tags) (i : Nat) (root : Bool)
      (segs : List String),
      (∀ u ∈ elems, ∀ j, Inv u node name (newIndexed ctx name j) root segs) →
      ∀ s ∈ sitesElems elems node name ctx i root segs,
        s.leaf.isAtom = true ∧ ∃ rt, Inv s.leaf s.node s.name s.indexes rt s.segs
  | [], _, _, _, _, _, _, _, s, hs => by simp [sitesElems] at hs
  | u :: rest, node, name, ctx, i, root, segs, h, s, hs => by
    simp only [sitesElems, List.mem_append] at hs
    rcases hs with hs | hs
    · exact sites_inv Inv hseq hmap u node name _ root segs
        (h u (List.mem_cons_self _ _) i) s hs
    · exact sitesElems_inv Inv hseq hmap rest node name ctx (i + 1) root segs
        (fun u2 hu2 j => h u2 (List.mem_cons_of_mem _ hu2) j) s hs
/-- The statement of `sites_inv` for the entries of a mapping. -/
theorem sitesEntries_inv (Inv : Value → String → String → Tags → Bool → List String → Prop)
    (hseq : ∀ elems node name ctx root segs, Inv (Value.seq elems) node name ctx root segs →
      ∀ u ∈ elems, ∀ i, Inv u node (trimName name) (newIndexed ctx (trimName name) i) root segs)
    (hmap : ∀ entries node name ctx root segs, Inv (Value.map entries) node name ctx root segs →
      ∀ kv ∈ entries, Inv kv.2 (nodePath node (trimName name)) kv.1 ctx false
        (if root then segs else segs ++ [trimName name])) :
    ∀ (entries : List (String × Value)) (nodeName : String) (ctx : Tags) (segs : List String),
      (∀ kv ∈ entries, Inv kv.2 nodeName kv.1 ctx false segs) →
      ∀ s ∈ sitesEntries entries nodeName ctx segs,
        s.leaf.isAtom = true ∧ ∃ rt, Inv s.leaf s.node s.name s.indexes rt s.segs
  | [], _, _, _, _, s, hs => by simp [sitesEntries] at hs
  | (k, v) :: rest, nodeName, ctx, segs, h, s, hs => by
    simp only [sitesEntries, List.mem_append] at hs
    rcases hs with hs | hs
    · exact sites_inv Inv hseq hmap v nodeName k ctx false segs
        (h (k, v) (List.mem_cons_self _ _)) s hs
    · exact sitesEntries_inv Inv hseq hmap rest nodeName ctx segs
        (fun kv hkv => h kv (List.mem_cons_of_mem _ hkv)) s hs
end

theorem sites_atoms (data : Value) (node name : String) (ctx : Tags) (root : Bool)
    (segs : List String) : ∀ s ∈ sites data node name ctx root segs, s.leaf.isAtom = true :=
  fun s hs => (sites_inv (fun _ _ _ _ _ _ => True) (fun _ _ _ _ _ _ _ _ _ _ => trivial)
    (fun _ _ _ _ _ _ _ _ _ => trivial) data node name ctx root segs trivial s hs).1

/-! ## The parser after a run over leaves -/

theorem parse_atom_fresh_returned (cfg : Config) (data : Value) (node name : String)
    (ctx : Tags) (ha : data.isAtom = true) (hb : data.isBool = false) :
    ∃ r, parse cfg data node name ctx ParserState.fresh = Outcome.returned r := by
  cases data with
  | seq vv => simp [Value.isAtom] at ha
  | map vv => simp [Value.isAtom] at ha
  | bool b => simp [Value.isBool] at hb
  | null =>
    simp only [parse]
    exact ⟨_, rfl⟩
  | float x =>
    simp only [parse]
    exact ⟨_, rfl⟩
  | int n =>
    simp only [parse]
    exact ⟨_, rfl⟩
  | str vv =>
    simp only [parse]
    exact ⟨_, rfl⟩

/-- A run over leaves none of which is a native boolean returns; the parser
then holds, after what it held, the records, global-tag assignments and scoped
tags of the leaves in order. -/
theorem runSites_returned (cfg : Config) (l : List Site) (ha : ∀ s ∈ l, s.leaf.isAtom = true)
    (hb : ∀ s ∈ l, s.leaf.isBool = false) (st : ParserState) :
    runSites cfg l st = Outcome.returned
      { metricsTable := st.metricsTable ++ recordsOf cfg l,
        customTags := GoMap.assignAll st.customTags (globalsOf cfg l),
        indexTags := st.indexTags ++ scopedOf cfg l } := by
  induction l generalizing st with
  | nil => simp [runSites, recordsOf, scopedOf, globalsOf, GoMap.assignAll]
  | cons s rest ih =>
    have has := ha s (List.mem_cons_self _ _)
    have hbs := hb s (List.mem_cons_self _ _)
    obtain ⟨r, hr⟩ := parse_atom_fresh_returned cfg s.leaf s.node s.name s.indexes has hbs
    have heff : s.effect cfg = r.2 := by simp [Site.effect, hr, Outcome.finalState]
    simp only [runSites, parse_atom_add cfg s.leaf s.node s.name s.indexes st has, hr]
    rw [ih (fun s2 h2 => ha s2 (List.mem_cons_of_mem _ h2))
      (fun s2 h2 => hb s2 (List.mem_cons_of_mem _ h2))]
    simp [recordsOf, scopedOf, globalsOf, heff, ParserState.add, GoMap.assignAll,
      List.foldl_append]

/-- A run over leaves one of which is a native boolean panics. -/
theorem runSites_panicked (cfg : Config) (l : List Site) (ha : ∀ s ∈ l, s.leaf.isAtom = true)
    (hb : ∃ s ∈ l, s.leaf.isBool = true) (st : ParserState) :
    ∃ st1, runSites cfg l st = Outcome.panicked st1 := by
  induction l generalizing st with
  | nil =>
    obtain ⟨s, hs, _⟩ := hb
    simp at hs
  | cons s rest ih =>
    by_cases hbs : s.leaf.isBool = true
    · refine ⟨st, ?_⟩
      cases hl : s.leaf with
      | bool b => simp [runSites, hl, parse]
      | null => simp [hl, Value.isBool] at hbs
      | float x => simp [hl, Value.isBool] at hbs
      | int n => simp [hl, Value.isBool] at hbs
      | str v => simp [hl, Value.isBool] at hbs
      | seq v => simp [hl, Value.isBool] at hbs
      | map v => simp [hl, Value.isBool] at hbs
    · have hbs2 : s.leaf.isBool = false := by simpa using hbs
      have has := ha s (List.mem_cons_self _ _)
      obtain ⟨r, hr⟩ := parse_atom_fresh_returned cfg s.leaf s.node s.name s.indexes has hbs2
      simp only [runSites, parse_atom_add cfg s.leaf s.node s.name s.indexes st has, hr]
      apply ih (fun s2 h2 => ha s2 (List.mem_cons_of_mem _ h2))
      obtain ⟨s2, hs2, hb2⟩ := hb
      rcases List.mem_cons.mp hs2 with h1 | h1
      · rw [h1] at hb2
        exact absurd hb2 hbs
      · exact ⟨s2, h1, hb2⟩

/-- A run that returns met no native boolean. -/
theorem no_bool_of_runSites_returned (cfg : Config) (l : List Site)
    (ha : ∀ s ∈ l, s.leaf.isAtom = true) (st st1 : ParserState)
    (h : runSites cfg l st = Outcome.returned st1) : ∀ s ∈ l, s.leaf.isBool = false := by
  intro s hs
  by_contra hc
  have hb : s.leaf.isBool = true := by simpa using hc
  obtain ⟨st2, h2⟩ := runSites_panicked cfg l ha ⟨s, hs, hb⟩ st
  rw [h2] at h
  cases h

/-! ## What one leaf adds -/

/-- Every leaf arm ends in the tail of `parse` applied to the record of the
node, with at most the one field of the leaf, on a fresh parser or on the one
`gatherTag` leaves. -/
theorem effect_shape (cfg : Config) (s : Site) (ha : s.leaf.isAtom = true) :
    ∃ (mt : MetricsTable) (X : ParserState), s.effect cfg = emit mt s.indexes X ∧
      mt.tags = (newRecord s.node).tags ∧
      (mt.fields = [] ∨ ∃ fv, mt.fields = [(trimName s.name, fv)]) ∧
      (X = ParserState.fresh ∨
        ∃ val, X = (gatherTag cfg s.node s.path val s.indexes ParserState.fresh).2) := by
  obtain ⟨leaf, node, name, ctx, segs⟩ := s
  have hfresh : ∃ (mt : MetricsTable) (X : ParserState),
      ParserState.fresh = emit mt ctx X ∧ mt.tags = (newRecord node).tags ∧
      (mt.fields = [] ∨ ∃ fv, mt.fields = [(trimName name, fv)]) ∧
      (X = ParserState.fresh ∨
        ∃ val, X = (gatherTag cfg node (nodePath node (trimName name)) val ctx
          ParserState.fresh).2) :=
    ⟨newRecord node, ParserState.fresh, (emit_newRecord _ _ _).symm, rfl, Or.inl rfl, Or.inl rfl⟩
  have htail : ∀ (val : String) (fv : FieldValue),
      ∃ (mt : MetricsTable) (X : ParserState),
        emit (if (gatherTag cfg node (nodePath node (trimName name)) val ctx
            ParserState.fresh).1 then
          { newRecord node with fields := GoMap.set (newRecord node).fields (trimName name) fv }
          else newRecord node) ctx
          (gatherTag cfg node (nodePath node (trimName name)) val ctx ParserState.fresh).2 =
          emit mt ctx X ∧ mt.tags = (newRecord node).tags ∧
        (mt.fields = [] ∨ ∃ fv, mt.fields = [(trimName name, fv)]) ∧
        (X = ParserState.fresh ∨
          ∃ val, X = (gatherTag cfg node (nodePath node (trimName name)) val ctx
            ParserState.fresh).2) := by
    intro val fv
    refine ⟨_, _, rfl, ?_, ?_, Or.inr ⟨val, rfl⟩⟩
    · split <;> rfl
    · split
      · exact Or.inr ⟨fv, by simp [newRecord_fields, GoMap.set]⟩
      · exact Or.inl rfl
  simp only [Site.effect, Site.path]
  cases leaf with
  | seq vv => simp [Value.isAtom] at ha
  | map vv => simp [Value.isAtom] at ha
  | null => simpa [parse, Outcome.finalState] using hfresh
  | bool b => simpa [parse, Outcome.finalState] using hfresh
  | float x =>
    simp only [parse, Outcome.finalState]
    exact htail _ _
  | int n =>
    simp only [parse, Outcome.finalState]
    exact htail _ _
  | str vv =>
    simp only [parse, Outcome.finalState, parseString]
    split
    · exact hfresh
    · split
      · simp only [parseDeclared]
        split
        · exact hfresh
        · split
          · exact hfresh
          · simp only [emit_newRecord]
            exact hfresh
          · exact htail _ _
      · exact ⟨newRecord node, _, rfl, rfl, Or.inl rfl, Or.inr ⟨vv, rfl⟩⟩

theorem gatherTag_fresh_metricsTable (cfg : Config) (node p v : String) (ctx : Tags) :
    (gatherTag cfg node p v ctx ParserState.fresh).2.metricsTable = [] :=
  gatherTag_metricsTable cfg node p v ctx ParserState.fresh

/-- A leaf adds no record, or the one record of its field under the tags of
its node and index context. -/
theorem effect_records (cfg : Config) (s : Site) (ha : s.leaf.isAtom = true) :
    (s.effect cfg).metricsTable = [] ∨
    ∃ fv, (s.effect cfg).metricsTable =
      [{ fields := [(trimName s.name, fv)],
         tags := GoMap.assignAll (newRecord s.node).tags s.indexes }] := by
  obtain ⟨mt, X, he, ht, hf, hX⟩ := effect_shape cfg s ha
  have hXm : X.metricsTable = [] := by
    rcases hX with h | ⟨val, h⟩
    · rw [h]; rfl
    · rw [h]; exact gatherTag_fresh_metricsTable _ _ _ _ _
  rw [he]
  rcases hf with h0 | ⟨fv, h1⟩
  · left
    simp [emit, h0, hXm]
  · right
    exact ⟨fv, by simp [emit, h1, hXm, ht]⟩

/-- A leaf assigns no global tag, or the one keyed by its path, which is then
listed in `TagKeys`, the index context being empty. -/
theorem effect_customTags (cfg : Config) (s : Site) (ha : s.leaf.isAtom = true) :
    (s.effect cfg).customTags = [] ∨
    ∃ v, (s.effect cfg).customTags = [(s.path, v)] ∧ s.path ∈ cfg.TagKeys ∧ s.indexes = [] := by
  obtain ⟨mt, X, he, _, _, hX⟩ := effect_shape cfg s ha
  have hc : (s.effect cfg).customTags = X.customTags := by
    rw [he]; unfold emit; split <;> rfl
  rw [hc]
  rcases hX with h | ⟨val, h⟩
  · left; rw [h]; rfl
  · rw [h]
    by_cases hl : s.path ∈ cfg.TagKeys
    · rw [gatherTag_listed cfg s.node s.path val s.indexes ParserState.fresh hl]
      by_cases hi : s.indexes = []
      · right
        exact ⟨val, by simp [hi, ParserState.fresh, GoMap.set], hl, hi⟩
      · left
        simp [hi, ParserState.fresh]
    · left
      rw [gatherTag_unlisted cfg s.node s.path val s.indexes ParserState.fresh hl]
      rfl

/-- A leaf adds no scoped tag, or the one keyed by its path, which is then
listed in `TagKeys`, under a copy of its non-empty index context. -/
theorem effect_indexTags (cfg : Config) (s : Site) (ha : s.leaf.isAtom = true) :
    (s.effect cfg).indexTags = [] ∨
    ∃ v, (s.effect cfg).indexTags =
        [{ index := GoMap.assignAll [] s.indexes, tag := [(s.path, v)] }] ∧
      s.path ∈ cfg.TagKeys ∧ s.indexes ≠ [] := by
  obtain ⟨mt, X, he, _, _, hX⟩ := effect_shape cfg s ha
  have hc : (s.effect cfg).indexTags = X.indexTags := by
    rw [he]; exact emit_indexTags _ _ _
  rw [hc]
  rcases hX with h | ⟨val, h⟩
  · left; rw [h]; rfl
  · rw [h]
    by_cases hl : s.path ∈ cfg.TagKeys
    · rw [gatherTag_listed cfg s.node s.path val s.indexes ParserState.fresh hl]
      by_cases hi : s.indexes = []
      · left
        simp [hi, ParserState.fresh]
      · right
        exact ⟨val, by simp [hi, ParserState.fresh], hl, hi⟩
    · left
      rw [gatherTag_unlisted cfg s.node s.path val s.indexes ParserState.fresh hl]
      rfl

/-! ## Leaves reached through mappings only -/

theorem sitesEntries_mem_of_lookup (entries : List (String × Value)) (k : String) (w : Value)
    (nodeName : String) (ctx : Tags) (segs : List String) (h : lookupEntry entries k = some w) :
    ∀ s ∈ sites w nodeName k ctx false segs, s ∈ sitesEntries entries nodeName ctx segs := by
  induction entries with
  | nil => simp [lookupEntry] at h
  | cons e rest ih =>
    obtain ⟨k', v⟩ := e
    intro s hs
    simp only [sitesEntries, List.mem_append]
    by_cases hk : k' = k
    · subst hk
      simp only [lookupEntry, if_true, Option.some.injEq] at h
      subst h
      exact Or.inl hs
    · simp only [lookupEntry, hk, if_false] at h
      exact Or.inr (ih h s hs)

/-- A leaf reached through mappings alone is visited with the index context
of the node the descent starts from, under the path of its keys. -/
theorem site_of_atKeys (leaf : Value) (ha : leaf.isAtom = true) :
    ∀ (ks : List String) (v : Value) (node name : String) (ctx : Tags) (root : Bool)
      (segs : List String), v.atKeys ks = some leaf →
      ∃ s ∈ sites v node name ctx root segs,
        s.leaf = leaf ∧ s.indexes = ctx ∧ s.path = pathFrom node name ks := by
  intro ks
  induction ks with
  | nil =>
    intro v node name ctx root segs h
    simp only [Value.atKeys, Option.some.injEq] at h
    subst h
    cases v with
    | seq vv => simp [Value.isAtom] at ha
    | map vv => simp [Value.isAtom] at ha
    | null => exact ⟨⟨Value.null, node, name, ctx, segs⟩, by simp only [sites, List.mem_singleton], rfl, rfl, rfl⟩
    | bool b => exact ⟨⟨Value.bool b, node, name, ctx, segs⟩, by simp only [sites, List.mem_singleton], rfl, rfl, rfl⟩
    | float x => exact ⟨⟨Value.float x, node, name, ctx, segs⟩, by simp only [sites, List.mem_singleton], rfl, rfl, rfl⟩
    | int n => exact ⟨⟨Value.int n, node, name, ctx, segs⟩, by simp only [sites, List.mem_singleton], rfl, rfl, rfl⟩
    | str x => exact ⟨⟨Value.str x, node, name, ctx, segs⟩, by simp only [sites, List.mem_singleton], rfl, rfl, rfl⟩
  | cons k ks ih =>
    intro v node name ctx root segs h
    cases v with
    | map entries =>
      simp only [Value.atKeys] at h
      cases hl : lookupEntry entries k with
      | none => simp [hl] at h
      | some w =>
        rw [hl] at h
        obtain ⟨s, hs, h1, h2, h3⟩ := ih w (nodePath node (trimName name)) k ctx false
          (if root then segs else segs ++ [trimName name]) h
        refine ⟨s, ?_, h1, h2, ?_⟩
        · simp only [sites]
          exact sitesEntries_mem_of_lookup entries k w _ ctx _ hl s hs
        · simpa [pathFrom] using h3
    | seq vv => simp [Value.atKeys] at h
    | null => simp [Value.atKeys] at h
    | bool b => simp [Value.atKeys] at h
    | float x => simp [Value.atKeys] at h
    | int n => simp [Value.atKeys] at h
    | str x => simp [Value.atKeys] at h

/-! ## The tags a run over leaves collects -/

theorem mem_globalsOf (cfg : Config) (l : List Site) (ha : ∀ s ∈ l, s.leaf.isAtom = true)
    (k : String) (hk : k ∈ GoMap.keys (globalsOf cfg l)) :
    ∃ s ∈ l, s.path = k ∧ s.indexes = [] ∧ k ∈ cfg.TagKeys := by
  simp only [globalsOf, GoMap.keys, List.mem_map, List.mem_flatten] at hk
  obtain ⟨e, ⟨lst, ⟨s, hs, hls⟩, he⟩, hek⟩ := hk
  rcases effect_customTags cfg s (ha s hs) with h0 | ⟨v, h1, h2, h3⟩
  · rw [← hls, h0] at he
    simp at he
  · rw [← hls, h1] at he
    simp only [List.mem_singleton] at he
    subst he
    simp only at hek
    exact ⟨s, hs, hek, h3, hek ▸ h2⟩

theorem mem_scopedOf (cfg : Config) (l : List Site) (ha : ∀ s ∈ l, s.leaf.isAtom = true)
    (T : IndexTags) (hT : T ∈ scopedOf cfg l) :
    ∃ s ∈ l, ∃ v, T = { index := GoMap.assignAll [] s.indexes, tag := [(s.path, v)] } ∧
      s.path ∈ cfg.TagKeys ∧ s.indexes ≠ [] := by
  simp only [scopedOf, List.mem_flatten, List.mem_map] at hT
  obtain ⟨lst, ⟨s, hs, hls⟩, he⟩ := hT
  rcases effect_indexTags cfg s (ha s hs) with h0 | ⟨v, h1, h2, h3⟩
  · rw [← hls, h0] at he
    simp at he
  · rw [← hls, h1] at he
    simp only [List.mem_singleton] at he
    exact ⟨s, hs, v, he, h2, h3⟩

theorem globalsOf_append (cfg : Config) (l1 l2 : List Site) :
    globalsOf cfg (l1 ++ l2) = globalsOf cfg l1 ++ globalsOf cfg l2 := by
  simp [globalsOf]

theorem GoMap.assignAll_append {β : Type} (dst a b : GoMap β) :
    GoMap.assignAll dst (a ++ b) = GoMap.assignAll (GoMap.assignAll dst a) b := by
  simp [GoMap.assignAll, List.foldl_append]

/-- What `parseMapInterface` returns, in terms of the leaves of the document:
no leaf is a native boolean and the records are those of the leaves, each
finalized with the global tags and scoped tags of all leaves. -/
theorem parseMapInterface_returned (TagKeys : List String) (data : Value) (callerTags : Tags)
    (vars : List Variable) (recs : List MetricsTable)
    (h : parseMapInterface TagKeys data callerTags vars = Outcome.returned (Except.ok recs)) :
    (∀ s ∈ sitesOf data, s.leaf.isBool = false) ∧
    recs = (recordsOf { TagKeys := TagKeys, vars := vars } (sitesOf data)).map
      (finalize callerTags
        (GoMap.assignAll [] (globalsOf { TagKeys := TagKeys, vars := vars } (sitesOf data)))
        (scopedOf { TagKeys := TagKeys, vars := vars } (sitesOf data))) := by
  have hw := parse_eq_runSites { TagKeys := TagKeys, vars := vars } data "" "" [] true []
    ParserState.fresh
  have hat := sites_atoms data "" "" [] true []
  unfold parseMapInterface at h
  cases hp : parse { TagKeys := TagKeys, vars := vars } data "" "" [] ParserState.fresh with
  | panicked st1 => simp [hp] at h
  | returned r =>
    obtain ⟨e, st1⟩ := r
    rw [hp] at h hw
    cases e with
    | some err => simp at h
    | none =>
      simp only [Outcome.returned.injEq, Except.ok.injEq] at h
      simp only [Outcome.dropError] at hw
      have hnb := no_bool_of_runSites_returned _ _ hat _ _ hw.symm
      have hst := runSites_returned { TagKeys := TagKeys, vars := vars } _ hat hnb
        ParserState.fresh
      rw [← hw] at hst
      simp only [Outcome.returned.injEq] at hst
      refine ⟨hnb, ?_⟩
      rw [← h, hst]
      simp [ParserState.fresh, sitesOf]

/-! ## Global tags -/

theorem effect_listed_string_global (cfg : Config) (s : Site) (v : String)
    (hleaf : s.leaf = Value.str v) (hv : v ≠ "") (hctx : s.indexes = [])
    (hlisted : s.path ∈ cfg.TagKeys) (hdecl : findVariable cfg.vars s.path = none) :
    (s.effect cfg).customTags = [(s.path, v)] ∧ (s.effect cfg).indexTags = [] := by
  have hl2 : nodePath s.node (trimName s.name) ∈ cfg.TagKeys := hlisted
  unfold Site.effect
  rw [hleaf, parse_undeclared_string cfg v s.node s.name s.indexes _ hv hdecl,
    gatherTag_listed cfg _ _ _ _ _ hl2, hctx]
  simp [Outcome.finalState, ParserState.fresh, GoMap.set, Site.path]

theorem not_mem_keys_globalsOf (cfg : Config) (l : List Site)
    (ha : ∀ s ∈ l, s.leaf.isAtom = true) (p : String) (h : ∀ s ∈ l, s.path ≠ p) :
    p ∉ GoMap.keys (globalsOf cfg l) := by
  intro hk
  obtain ⟨s, hs, hp, _⟩ := mem_globalsOf cfg l ha p hk
  exact h s hs hp

/-- The value every record carries under the path of the only leaf with that
path, when that leaf is a listed, undeclared, non-empty string visited
outside every sequence. -/
theorem finalize_global_tag (cfg : Config) (l : List Site) (ha : ∀ s ∈ l, s.leaf.isAtom = true)
    (callerTags : Tags) (s1 : Site) (v : String) (hs1 : s1 ∈ l)
    (hleaf : s1.leaf = Value.str v) (hv : v ≠ "") (hctx : s1.indexes = [])
    (hlisted : s1.path ∈ cfg.TagKeys) (hdecl : findVariable cfg.vars s1.path = none)
    (honly : (l.filter (fun s => decide (s.path = s1.path))).length = 1)
    (m : MetricsTable) :
    GoMap.get? (finalize callerTags (GoMap.assignAll [] (globalsOf cfg l)) (scopedOf cfg l) m).tags
      s1.path = some v := by
  obtain ⟨pre, post, hl⟩ := List.append_of_mem hs1
  have hf : (pre.filter (fun s => decide (s.path = s1.path))) = [] ∧
      (post.filter (fun s => decide (s.path = s1.path))) = [] := by
    rw [hl, List.filter_append, List.filter_cons] at honly
    simp only [decide_True, if_true, List.length_append, List.length_cons] at honly
    constructor
    · apply List.eq_nil_of_length_eq_zero
      omega
    · apply List.eq_nil_of_length_eq_zero
      omega
  have hpre : ∀ s ∈ pre, s.path ≠ s1.path := by
    intro s hs hp
    have : s ∈ pre.filter (fun s => decide (s.path = s1.path)) :=
      List.mem_filter.mpr ⟨hs, by simpa using hp⟩
    rw [hf.1] at this
    simp at this
  have hpost : ∀ s ∈ post, s.path ≠ s1.path := by
    intro s hs hp
    have : s ∈ post.filter (fun s => decide (s.path = s1.path)) :=
      List.mem_filter.mpr ⟨hs, by simpa using hp⟩
    rw [hf.2] at this
    simp at this
  have hapost : ∀ s ∈ post, s.leaf.isAtom = true := fun s hs =>
    ha s (by rw [hl]; exact List.mem_append_right _ (List.mem_cons_of_mem _ hs))
  have he := effect_listed_string_global cfg s1 v hleaf hv hctx hlisted hdecl
  have hC : GoMap.get? (GoMap.assignAll [] (globalsOf cfg l)) s1.path = some v := by
    have hg : globalsOf cfg l = globalsOf cfg pre ++ ([(s1.path, v)] ++ globalsOf cfg post) := by
      rw [hl, globalsOf_append]
      congr 1
      have : s1 :: post = [s1] ++ post := rfl
      rw [this, globalsOf_append]
      congr 1
      simp [globalsOf, he.1]
    rw [hg, GoMap.assignAll_append, GoMap.assignAll_append,
      GoMap.get?_assignAll_of_not_mem _ _ _ (not_mem_keys_globalsOf cfg post hapost _ hpost)]
    simp only [GoMap.assignAll, List.foldl_cons, List.foldl_nil]
    exact GoMap.get?_set_self _ _ _
  have hI : ∀ it ∈ scopedOf cfg l, s1.path ∉ GoMap.keys it.tag := by
    intro it hit hk
    obtain ⟨s, hs, w, hT, _, hne⟩ := mem_scopedOf cfg l ha it hit
    rw [hT] at hk
    simp only [GoMap.keys, List.map_cons, List.map_nil, List.mem_singleton] at hk
    rw [hl] at hs
    rcases List.mem_append.mp hs with h1 | h1
    · exact hpre s h1 hk.symm
    · rcases List.mem_cons.mp h1 with h2 | h2
      · rw [h2] at hne
        exact hne hctx
      · exact hpost s h2 hk.symm
  simp only [finalize]
  rw [get?_applyIndexTags_of_not_mem _ _ _ hI,
    GoMap.get?_assignAll _ _ _ (GoMap.WF_assignAll _ _ (by simp [GoMap.WF, GoMap.keys])), hC]
  rfl

/-- Claim C14. A string leaf reached through mappings alone (so outside every
sequence), non-empty, undeclared, with its path listed in TagKeys, and the
only leaf of the document with that path, gives its value to every record the
parse returns, under its path as the tag key. -/
theorem global_tag_reaches_every_record (TagKeys : List String) (tree : Value)
    (callerTags : Tags) (vars : List Variable) (ks : List String) (v : String)
    (recs : List MetricsTable)
    (hleaf : tree.atKeys ks = some (Value.str v)) (hv : v ≠ "")
    (hlisted : keysPath ks ∈ TagKeys) (hdecl : findVariable vars (keysPath ks) = none)
    (honly : ((sitesOf tree).filter (fun s => decide (s.path = keysPath ks))).length = 1)
    (hret : parseMapInterface TagKeys tree callerTags vars = Outcome.returned (Except.ok recs)) :
    ∀ r ∈ recs, GoMap.get? r.tags (keysPath ks) = some v := by
  obtain ⟨_, hrecs⟩ := parseMapInterface_returned TagKeys tree callerTags vars recs hret
  obtain ⟨s1, hs1, h1, h2, h3⟩ := site_of_atKeys (Value.str v) rfl ks tree "" "" [] true [] hleaf
  have h3 : s1.path = keysPath ks := h3
  intro r hr
  rw [hrecs] at hr
  obtain ⟨m, _, hm⟩ := List.mem_map.mp hr
  rw [← hm, ← h3]
  exact finalize_global_tag { TagKeys := TagKeys, vars := vars } (sitesOf tree)
    (sites_atoms tree "" "" [] true []) callerTags s1 v hs1 h1 hv h2 (h3 ▸ hlisted)
    (h3 ▸ hdecl) (h3 ▸ honly) m

theorem global_tag_reaches_every_record_witness :
    docGlobalTag.atKeys ["site", "name"] = some (Value.str "north") ∧
    parseMapInterface ["site__name"] docGlobalTag [] [] =
      Outcome.returned (Except.ok recsGlobalTag) ∧
    ∀ r ∈ recsGlobalTag, GoMap.get? r.tags (keysPath ["site", "name"]) = some "north" :=
  ⟨rfl, by decide,
    global_tag_reaches_every_record ["site__name"] docGlobalTag [] [] ["site", "name"] "north"
      recsGlobalTag rfl (by decide) (by decide) (by decide) (by decide) (by decide)⟩

/-! ## The tag `node` -/

theorem rebindFreeElems_mem (K : List String) (name : String) (elems : List Value)
    (h : rebindFreeElems K elems name = true) : ∀ u ∈ elems, rebindFree K u name = true := by
  induction elems with
  | nil => simp
  | cons u rest ih =>
    simp only [rebindFreeElems, Bool.and_eq_true] at h
    intro w hw
    rcases List.mem_cons.mp hw with h1 | h1
    · exact h1 ▸ h.1
    · exact ih h.2 w h1

theorem rebindFreeEntries_mem (K : List String) (entries : List (String × Value))
    (h : rebindFreeEntries K entries = true) : ∀ kv ∈ entries, rebindFree K kv.2 kv.1 = true := by
  induction entries with
  | nil => simp
  | cons e rest ih =>
    obtain ⟨k, v⟩ := e
    simp only [rebindFreeEntries, Bool.and_eq_true] at h
    intro w hw
    rcases List.mem_cons.mp hw with h1 | h1
    · exact h1 ▸ h.1
    · exact ih h.2 w h1

theorem keysNonEmptyElems_mem (elems : List Value)
    (h : keysNonEmptyElems elems = true) : ∀ u ∈ elems, keysNonEmpty u = true := by
  induction elems with
  | nil => simp
  | cons u rest ih =>
    simp only [keysNonEmptyElems, Bool.and_eq_true] at h
    intro w hw
    rcases List.mem_cons.mp hw with h1 | h1
    · exact h1 ▸ h.1
    · exact ih h.2 w h1

theorem keysNonEmptyEntries_mem (entries : List (String × Value))
    (h : keysNonEmptyEntries entries = true) :
    ∀ kv ∈ entries, trimName kv.1 ≠ "" ∧ keysNonEmpty kv.2 = true := by
  induction entries with
  | nil => simp
  | cons e rest ih =>
    obtain ⟨k, v⟩ := e
    simp only [keysNonEmptyEntries, Bool.and_eq_true, decide_eq_true_eq] at h
    intro w hw
    rcases List.mem_cons.mp hw with h1 | h1
    · exact h1 ▸ ⟨h.1.1, h.1.2⟩
    · exact ih h.2 w h1

theorem GoMap.keys_assignAll_subset {β : Type} (src dst : GoMap β) (x : String)
    (h : x ∈ GoMap.keys (GoMap.assignAll dst src)) : x ∈ GoMap.keys dst ∨ x ∈ GoMap.keys src := by
  induction src generalizing dst with
  | nil => exact Or.inl (by simpa [GoMap.assignAll] using h)
  | cons e rest ih =>
    obtain ⟨k, v⟩ := e
    have h2 : x ∈ GoMap.keys (GoMap.assignAll (GoMap.set dst k v) rest) := by
      simpa [GoMap.assignAll] using h
    rcases ih _ h2 with h3 | h3
    · rcases (GoMap.keys_set dst k v x).mp h3 with h4 | h4
      · exact Or.inr (by simp [GoMap.keys, h4])
      · exact Or.inl h4
    · exact Or.inr (by
        simp only [GoMap.keys, List.map_cons, List.mem_cons]
        exact Or.inr h3)

theorem keys_newIndexed_any (ctx : Tags) (name : String) (i : Nat) (x : String)
    (hx : x ∈ GoMap.keys (newIndexed ctx name i)) : x = name ∨ x ∈ GoMap.keys ctx := by
  unfold newIndexed at hx
  rcases (GoMap.keys_set _ name _ x).mp hx with h | h
  · exact Or.inl h
  · rcases GoMap.keys_assignAll_subset ctx [] x h with h1 | h1
    · simp [GoMap.keys] at h1
    · exact Or.inr h1

theorem joinPath_ne_empty (segs : List String) (hne : segs ≠ [])
    (hall : ∀ x ∈ segs, x ≠ "") : joinPath segs ≠ "" := by
  cases segs with
  | nil => exact absurd rfl hne
  | cons a rest =>
    cases rest with
    | nil => simpa [joinPath] using hall a (List.mem_cons_self _ _)
    | cons b rest2 =>
      intro h
      have hl := congrArg String.length h
      simp only [joinPath, String.length_append] at hl
      have : ("__" : String).length = 2 := by decide
      have h0 : ("" : String).length = 0 := by decide
      omega

theorem joinPath_snoc (segs : List String) (nm : String) (hne : segs ≠ []) :
    joinPath (segs ++ [nm]) = joinPath segs ++ "__" ++ nm := by
  induction segs with
  | nil => exact absurd rfl hne
  | cons a rest ih =>
    cases rest with
    | nil => simp [joinPath]
    | cons b rest2 =>
      have := ih (by simp)
      show a ++ "__" ++ joinPath (b :: rest2 ++ [nm]) = a ++ "__" ++ joinPath (b :: rest2) ++ "__" ++ nm
      rw [this]
      simp [String.append_assoc]

theorem nodePath_joinPath (segs : List String) (nm : String) (hall : ∀ x ∈ segs, x ≠ "")
    (hnm : nm ≠ "") : nodePath (joinPath segs) nm = joinPath (segs ++ [nm]) := by
  have hnl : nm.length > 0 := by
    have := (String.length_eq_zero_iff_eq nm).not.mpr hnm
    omega
  by_cases hs : segs = []
  · subst hs
    have h0 : ¬ ("" : String).length > 0 := by decide
    simp [nodePath, joinPath, hnl]
  · have h1 := joinPath_ne_empty segs hs hall
    have h2 : (joinPath segs).length > 0 := by
      have := (String.length_eq_zero_iff_eq (joinPath segs)).not.mpr h1
      omega
    rw [joinPath_snoc segs nm hs]
    simp [nodePath, h2]

/-- The container path of every leaf is made of the sanitized keys of the
mappings entered on the way, and no index key of the leaf is `node`, when no
sequence is stored under the name `node` and no key sanitizes to the empty
string. -/
theorem sites_node (tree : Value) (h3 : rebindFree ["node"] tree "" = true)
    (h4 : keysNonEmpty tree = true) :
    ∀ s ∈ sitesOf tree, s.leaf.isAtom = true ∧ "node" ∉ GoMap.keys s.indexes ∧
      (if s.node = "" then "__" else s.node) = (if s.segs = [] then "__" else joinPath s.segs) := by
  have key := sites_inv
    (fun data node name ctx root segs =>
      rebindFree ["node"] data name = true ∧ "node" ∉ GoMap.keys ctx ∧
      keysNonEmpty data = true ∧
      (root = true → node = "" ∧ segs = [] ∧ trimName name = "") ∧
      (root = false → node = joinPath segs ∧ (∀ x ∈ segs, x ≠ "") ∧ trimName name ≠ ""))
    (by
      intro elems node name ctx root segs ⟨a1, a2, a3, a4, a5⟩ u hu i
      simp only [rebindFree, Bool.and_eq_true, Bool.not_eq_true', List.contains_eq_any_beq,
        List.any_cons, List.any_nil, Bool.or_false, beq_eq_false_iff_ne, ne_eq] at a1
      refine ⟨rebindFreeElems_mem _ _ _ a1.2 u hu, ?_, ?_, ?_, ?_⟩
      · intro hx
        rcases keys_newIndexed_any ctx (trimName name) i "node" hx with h | h
        · exact a1.1 h.symm
        · exact a2 h
      · simp only [keysNonEmpty] at a3
        exact keysNonEmptyElems_mem _ a3 u hu
      · intro hr
        obtain ⟨b1, b2, b3⟩ := a4 hr
        exact ⟨b1, b2, by rw [trimName_idem]; exact b3⟩
      · intro hr
        obtain ⟨b1, b2, b3⟩ := a5 hr
        exact ⟨b1, b2, by rw [trimName_idem]; exact b3⟩)
    (by
      intro entries node name ctx root segs ⟨a1, a2, a3, a4, a5⟩ kv hkv
      simp only [rebindFree] at a1
      simp only [keysNonEmpty] at a3
      have hk := keysNonEmptyEntries_mem _ a3 kv hkv
      refine ⟨rebindFreeEntries_mem _ _ a1 kv hkv, a2, hk.2, fun hr => by simp at hr, ?_⟩
      intro _
      cases root with
      | true =>
        obtain ⟨b1, b2, b3⟩ := a4 rfl
        subst b1 b2
        rw [b3]
        exact ⟨by decide, by simp, hk.1⟩
      | false =>
        obtain ⟨b1, b2, b3⟩ := a5 rfl
        subst b1
        refine ⟨by simpa using nodePath_joinPath segs (trimName name) b2 b3, ?_, hk.1⟩
        intro x hx
        simp only [Bool.false_eq_true, if_false, List.mem_append, List.mem_singleton] at hx
        rcases hx with h | h
        · exact b2 x h
        · exact h ▸ b3)
    tree "" "" [] true []
    ⟨h3, by simp [GoMap.keys], h4, fun _ => ⟨rfl, rfl, by decide⟩, fun h => by simp at h⟩
  intro s hs
  obtain ⟨hat, rt, _, c2, _, c4, c5⟩ := key s hs
  refine ⟨hat, c2, ?_⟩
  cases rt with
  | true =>
    obtain ⟨b1, b2, _⟩ := c4 rfl
    simp [b1, b2]
  | false =>
    obtain ⟨b1, b2, _⟩ := c5 rfl
    by_cases hsg : s.segs = []
    · simp [b1, hsg, joinPath]
    · have := joinPath_ne_empty s.segs hsg b2
      simp [b1, hsg, this]

theorem forall₂_recordsOf (cfg : Config) (Q : MetricsTable → Site → Prop) (l : List Site)
    (ha : ∀ s ∈ l, s.leaf.isAtom = true)
    (hQ : ∀ s ∈ l, ∀ r ∈ (s.effect cfg).metricsTable, Q r s) :
    List.Forall₂ Q (recordsOf cfg l) (l.filter (Site.yields cfg)) := by
  induction l with
  | nil => simp [recordsOf]
  | cons s rest ih =>
    have ih2 := ih (fun s hs => ha s (List.mem_cons_of_mem _ hs))
      (fun s hs => hQ s (List.mem_cons_of_mem _ hs))
    have hr : recordsOf cfg (s :: rest) = (s.effect cfg).metricsTable ++ recordsOf cfg rest := by
      simp [recordsOf]
    rw [hr]
    rcases effect_records cfg s (ha s (List.mem_cons_self _ _)) with h0 | ⟨fv, h1⟩
    · have hy : Site.yields cfg s = false := by simp [Site.yields, h0]
      rw [h0, List.filter_cons, hy]
      simpa using ih2
    · have hy : Site.yields cfg s = true := by simp [Site.yields, h1]
      have hq := hQ s (List.mem_cons_self _ _) _ (by rw [h1]; exact List.mem_cons_self _ _)
      rw [h1, List.filter_cons, hy]
      exact List.Forall₂.cons hq ih2

/-- Claim C12, counterexample. A sequence stored under the key `node` binds the
tag `node` of its records to the position of the element. -/
theorem sequence_named_node_overwrites_node_tag_example :
    parseMapInterface [] docSequenceNamedNode [] [] = Outcome.returned (Except.ok
      [{ fields := [("node", FieldValue.int 1)], tags := [("node", "0")] }]) := by
  decide

/-- Claim C12, amended. When `node` is no tag key, no caller tag and not the
sanitized name of a sequence, and no key sanitizes to the empty string, the
returned records are those of the record-yielding leaves in the order of the
walk, and each has, as its tag `node`, the sanitized keys of the mappings
entered on the way to its leaf joined by `__`, or `__` when there is none, and
the sanitized name of its leaf as its only field. -/
theorem node_tag_is_container_path (TagKeys : List String) (tree : Value) (callerTags : Tags)
    (vars : List Variable) (recs : List MetricsTable)
    (hret : parseMapInterface TagKeys tree callerTags vars = Outcome.returned (Except.ok recs))
    (h1 : "node" ∉ TagKeys) (h2 : "node" ∉ GoMap.keys callerTags)
    (h3 : rebindFree ["node"] tree "" = true) (h4 : keysNonEmpty tree = true) :
    List.Forall₂
      (fun r s => GoMap.get? r.tags "node" = some (if s.segs = [] then "__" else joinPath s.segs) ∧
        GoMap.keys r.fields = [trimName s.name])
      recs ((sitesOf tree).filter (Site.yields { TagKeys := TagKeys, vars := vars })) := by
  obtain ⟨_, hrecs⟩ := parseMapInterface_returned TagKeys tree callerTags vars recs hret
  have hsn := sites_node tree h3 h4
  have hat : ∀ s ∈ sitesOf tree, s.leaf.isAtom = true := fun s hs => (hsn s hs).1
  rw [hrecs, List.forall₂_map_left_iff]
  apply forall₂_recordsOf _ _ _ hat
  intro s hs r hr
  obtain ⟨_, hidx, hnode⟩ := hsn s hs
  rcases effect_records { TagKeys := TagKeys, vars := vars } s (hat s hs) with h0 | ⟨fv, h5⟩
  · rw [h0] at hr
    simp at hr
  · rw [h5, List.mem_singleton] at hr
    subst hr
    refine ⟨?_, by simp [finalize, GoMap.keys]⟩
    have hI : ∀ it ∈ scopedOf { TagKeys := TagKeys, vars := vars } (sitesOf tree),
        "node" ∉ GoMap.keys it.tag := by
      intro it hit hk
      obtain ⟨s2, _, w, hT, hl, _⟩ := mem_scopedOf _ _ hat it hit
      rw [hT] at hk
      simp only [GoMap.keys, List.map_cons, List.map_nil, List.mem_singleton] at hk
      exact h1 (hk ▸ hl)
    have hC : "node" ∉ GoMap.keys
        (GoMap.assignAll [] (globalsOf { TagKeys := TagKeys, vars := vars } (sitesOf tree))) := by
      intro hk
      rcases GoMap.keys_assignAll_subset _ _ _ hk with h | h
      · simp [GoMap.keys] at h
      · obtain ⟨_, _, _, _, hl⟩ := mem_globalsOf _ _ hat "node" h
        exact h1 hl
    simp only [finalize]
    rw [get?_applyIndexTags_of_not_mem _ _ _ hI, GoMap.get?_assignAll_of_not_mem _ _ _ hC,
      GoMap.get?_assignAll_of_not_mem _ _ _ h2, GoMap.get?_assignAll_of_not_mem _ _ _ hidx,
      newRecord_tags, ← hnode]
    simp [GoMap.get?]

theorem node_tag_is_container_path_witness :
    parseMapInterface [] docNodePaths [] [] = Outcome.returned (Except.ok recsNodePaths) ∧
    List.Forall₂
      (fun r s => GoMap.get? r.tags "node" = some (if s.segs = [] then "__" else joinPath s.segs) ∧
        GoMap.keys r.fields = [trimName s.name])
      recsNodePaths ((sitesOf docNodePaths).filter (Site.yields { TagKeys := [], vars := [] })) :=
  ⟨by decide,
    node_tag_is_container_path [] docNodePaths [] [] recsNodePaths (by decide) (by decide) (by decide)
      (by decide) (by decide)⟩

/-! ## Visiting the entries of a mapping in another order -/

theorem sitesEntries_append (a b : List (String × Value)) (nodeName : String) (ctx : Tags)
    (segs : List String) :
    sitesEntries (a ++ b) nodeName ctx segs =
      sitesEntries a nodeName ctx segs ++ sitesEntries b nodeName ctx segs := by
  induction a with
  | nil => simp [sitesEntries]
  | cons e rest ih =>
    obtain ⟨k, v⟩ := e
    show sitesEntries ((k, v) :: (rest ++ b)) nodeName ctx segs = _
    simp only [sitesEntries, ih, List.append_assoc]

theorem sitesElems_append (a b : List Value) (node name : String) (ctx : Tags) (i : Nat)
    (root : Bool) (segs : List String) :
    sitesElems (a ++ b) node name ctx i root segs =
      sitesElems a node name ctx i root segs ++
        sitesElems b node name ctx (i + a.length) root segs := by
  induction a generalizing i with
  | nil => simp [sitesElems]
  | cons u rest ih =>
    show sitesElems (u :: (rest ++ b)) node name ctx i root segs = _
    have : i + 1 + rest.length = i + (rest.length + 1) := by omega
    simp only [sitesElems, ih, List.append_assoc, List.length_cons, this]

/-- Another visiting order of the mappings visits the same leaves, with the
same arguments, in another order. -/
theorem sites_perm_of_reorder (t t2 : Value) (h : Reorder t t2) :
    ∀ (node name : String) (ctx : Tags) (root : Bool) (segs : List String),
      List.Perm (sites t node name ctx root segs) (sites t2 node name ctx root segs) := by
  induction h with
  | same v => exact fun _ _ _ _ _ => List.Perm.refl _
  | chain _ _ ih1 ih2 =>
    exact fun node name ctx root segs =>
      (ih1 node name ctx root segs).trans (ih2 node name ctx root segs)
  | swap pre post e1 e2 =>
    intro node name ctx root segs
    obtain ⟨k1, v1⟩ := e1
    obtain ⟨k2, v2⟩ := e2
    simp only [sites, sitesEntries_append, sitesEntries]
    apply List.Perm.append_left
    rw [← List.append_assoc, ← List.append_assoc]
    exact List.Perm.append_right _ List.perm_append_comm
  | inSeq pre post _ ih =>
    intro node name ctx root segs
    simp only [sites, sitesElems_append, sitesElems]
    exact List.Perm.append_left _ (List.Perm.append_right _ (ih _ _ _ _ _))
  | inMap pre post k _ ih =>
    intro node name ctx root segs
    simp only [sites, sitesEntries_append, sitesEntries]
    exact List.Perm.append_left _ (List.Perm.append_right _ (ih _ _ _ _ _))

theorem reorder_isAtom (t t2 : Value) (h : Reorder t t2) : t.isAtom = t2.isAtom := by
  induction h with
  | same v => rfl
  | chain _ _ ih1 ih2 => exact ih1.trans ih2
  | swap pre post e1 e2 => rfl
  | inSeq pre post _ _ => rfl
  | inMap pre post k _ _ => rfl

theorem reorder_atom (t t2 : Value) (h : Reorder t t2) (ha : t.isAtom = true) : t2 = t := by
  induction h with
  | same v => rfl
  | chain h1 _ ih1 ih2 =>
    have hb := ih1 ha
    rw [hb] at ih2
    exact ih2 ha
  | swap pre post e1 e2 => simp [Value.isAtom] at ha
  | inSeq pre post _ _ => simp [Value.isAtom] at ha
  | inMap pre post k _ _ => simp [Value.isAtom] at ha

theorem flatten_map_perm {α β : Type} (f : α → List β) (l l2 : List α) (h : List.Perm l l2) :
    List.Perm (l.map f).flatten (l2.map f).flatten := by
  induction h with
  | nil => exact List.Perm.refl _
  | cons x _ ih =>
    simp only [List.map_cons, List.flatten_cons]
    exact List.Perm.append_left _ ih
  | swap x y l =>
    simp only [List.map_cons, List.flatten_cons]
    rw [← List.append_assoc, ← List.append_assoc]
    exact List.Perm.append_right _ List.perm_append_comm
  | trans _ _ ih1 ih2 => exact ih1.trans ih2

/-- A mapping or a sequence never makes `parse` return an error. -/
theorem parse_container_error (cfg : Config) (data : Value) (node name : String) (ctx : Tags)
    (st st1 : ParserState) (e : Option ParseError) (ha : data.isAtom = false)
    (h : parse cfg data node name ctx st = Outcome.returned (e, st1)) : e = none := by
  cases data with
  | seq vv =>
    simp only [parse] at h
    split at h
    · simp only [Outcome.returned.injEq, Prod.mk.injEq] at h
      exact h.1.symm
    · cases h
  | map vv =>
    simp only [parse] at h
    split at h
    · simp only [Outcome.returned.injEq, Prod.mk.injEq] at h
      exact h.1.symm
    · cases h
  | null => simp [Value.isAtom] at ha
  | bool b => simp [Value.isAtom] at ha
  | float x => simp [Value.isAtom] at ha
  | int n => simp [Value.isAtom] at ha
  | str x => simp [Value.isAtom] at ha

/-- A document that is a mapping or a sequence without a native boolean makes
`parseMapInterface` return the finalized records of its leaves. -/
theorem parseMapInterface_of_sites (TagKeys : List String) (data : Value) (callerTags : Tags)
    (vars : List Variable) (ha : data.isAtom = false)
    (hb : ∀ s ∈ sitesOf data, s.leaf.isBool = false) :
    parseMapInterface TagKeys data callerTags vars = Outcome.returned (Except.ok
      ((recordsOf { TagKeys := TagKeys, vars := vars } (sitesOf data)).map
        (finalize callerTags
          (GoMap.assignAll [] (globalsOf { TagKeys := TagKeys, vars := vars } (sitesOf data)))
          (scopedOf { TagKeys := TagKeys, vars := vars } (sitesOf data))))) := by
  have hw := parse_eq_runSites { TagKeys := TagKeys, vars := vars } data "" "" [] true []
    ParserState.fresh
  have hat := sites_atoms data "" "" [] true []
  have hst := runSites_returned { TagKeys := TagKeys, vars := vars } _ hat hb ParserState.fresh
  rw [hst] at hw
  unfold parseMapInterface
  cases hp : parse { TagKeys := TagKeys, vars := vars } data "" "" [] ParserState.fresh with
  | panicked st1 =>
    rw [hp] at hw
    simp [Outcome.dropError] at hw
  | returned r =>
    obtain ⟨e, st1⟩ := r
    have he := parse_container_error _ data "" "" [] _ st1 e ha hp
    subst he
    rw [hp] at hw
    simp only [Outcome.dropError, Outcome.returned.injEq] at hw
    subst hw
    simp [ParserState.fresh, sitesOf]

/-! ## Tags that do not depend on the order of discovery -/

theorem GoMap.mem_of_get? {β : Type} (m : GoMap β) (k : String) (v : β)
    (h : GoMap.get? m k = some v) : (k, v) ∈ m := by
  induction m with
  | nil => simp [GoMap.get?] at h
  | cons e rest ih =>
    obtain ⟨k1, v1⟩ := e
    by_cases hk : k1 = k
    · subst hk
      simp only [GoMap.get?, if_true, Option.some.injEq] at h
      subst h
      exact List.mem_cons_self _ _
    · simp only [GoMap.get?, hk, if_false] at h
      exact List.mem_cons_of_mem _ (ih h)

/-- Assignments that give each key one value lead to that value, whatever
their order. -/
theorem GoMap.get?_assignAll_functional {β : Type} (src dst : GoMap β) (k : String) (v : β)
    (hf : ∀ e1 ∈ src, ∀ e2 ∈ src, e1.1 = e2.1 → e1.2 = e2.2) (h : (k, v) ∈ src) :
    GoMap.get? (GoMap.assignAll dst src) k = some v := by
  induction src generalizing dst with
  | nil => simp at h
  | cons e rest ih =>
    obtain ⟨k1, v1⟩ := e
    have hstep : GoMap.assignAll dst ((k1, v1) :: rest) =
        GoMap.assignAll (GoMap.set dst k1 v1) rest := by simp [GoMap.assignAll]
    rw [hstep]
    have hf2 : ∀ e1 ∈ rest, ∀ e2 ∈ rest, e1.1 = e2.1 → e1.2 = e2.2 := fun e1 h1 e2 h2 =>
      hf e1 (List.mem_cons_of_mem _ h1) e2 (List.mem_cons_of_mem _ h2)
    by_cases hk : k ∈ GoMap.keys rest
    · obtain ⟨w, hw⟩ := GoMap.get?_of_mem_keys rest k hk
      have hmem := GoMap.mem_of_get? rest k w hw
      have : w = v := hf (k, w) (List.mem_cons_of_mem _ hmem) (k, v) h rfl
      exact ih _ hf2 (this ▸ hmem)
    · rw [GoMap.get?_assignAll_of_not_mem rest _ k hk]
      rcases List.mem_cons.mp h with h1 | h1
      · cases h1
        exact GoMap.get?_set_self _ _ _
      · exact absurd (List.mem_map_of_mem Prod.fst h1) hk

theorem GoMap.get?_assignAll_perm {β : Type} (src src2 dst : GoMap β) (k : String)
    (hf : ∀ e1 ∈ src, ∀ e2 ∈ src, e1.1 = e2.1 → e1.2 = e2.2) (hp : List.Perm src src2) :
    GoMap.get? (GoMap.assignAll dst src) k = GoMap.get? (GoMap.assignAll dst src2) k := by
  have hf2 : ∀ e1 ∈ src2, ∀ e2 ∈ src2, e1.1 = e2.1 → e1.2 = e2.2 := fun e1 h1 e2 h2 =>
    hf e1 (hp.mem_iff.mpr h1) e2 (hp.mem_iff.mpr h2)
  by_cases hk : k ∈ GoMap.keys src
  · obtain ⟨w, hw⟩ := GoMap.get?_of_mem_keys src k hk
    have hmem := GoMap.mem_of_get? src k w hw
    rw [GoMap.get?_assignAll_functional src dst k w hf hmem,
      GoMap.get?_assignAll_functional src2 dst k w hf2 (hp.mem_iff.mp hmem)]
  · have hk2 : k ∉ GoMap.keys src2 := by
      intro h2
      obtain ⟨w, hw⟩ := GoMap.get?_of_mem_keys src2 k h2
      have hmem := GoMap.mem_of_get? src2 k w hw
      exact hk (List.mem_map_of_mem Prod.fst (hp.mem_iff.mpr hmem))
    rw [GoMap.get?_assignAll_of_not_mem src dst k hk,
      GoMap.get?_assignAll_of_not_mem src2 dst k hk2]

/-- When no key of a scoped index context is the key of a scoped tag, every
scoped tag is matched against the tags the finalize loop starts from. -/
theorem findIndex_applyIndexTags (base : Tags) (pre : List IndexTags) (idx : Tags)
    (h : ∀ it ∈ pre, ∀ x ∈ GoMap.keys idx, x ∉ GoMap.keys it.tag) :
    findIndex (applyIndexTags base pre) idx = findIndex base idx :=
  findIndex_congr _ _ _ (fun x hx =>
    get?_applyIndexTags_of_not_mem pre base x (fun it hit => h it hit x hx))

/-- The finalize loop leaves a key alone that no matching scoped tag holds. -/
theorem get?_applyIndexTags_none (base : Tags) (k : String) (l : List IndexTags)
    (hd : ∀ it ∈ l, ∀ it2 ∈ l, ∀ x ∈ GoMap.keys it.index, x ∉ GoMap.keys it2.tag)
    (hn : ∀ it ∈ l, findIndex base it.index = true → GoMap.get? it.tag k = none) :
    GoMap.get? (applyIndexTags base l) k = GoMap.get? base k := by
  induction l using List.reverseRecOn with
  | nil => simp [applyIndexTags]
  | append_singleton pre it ih =>
    have ih2 := ih
      (fun a ha b hb => hd a (List.mem_append_left _ ha) b (List.mem_append_left _ hb))
      (fun a ha => hn a (List.mem_append_left _ ha))
    have hfi : findIndex (applyIndexTags base pre) it.index = findIndex base it.index :=
      findIndex_applyIndexTags base pre it.index (fun a ha x hx =>
        hd it (List.mem_append_right _ (List.mem_singleton_self _)) a
          (List.mem_append_left _ ha) x hx)
    rw [applyIndexTags_append, applyIndexTags_cons, hfi]
    simp only [applyIndexTags, List.foldl_nil]
    by_cases hm : findIndex base it.index = true
    · have hnone := hn it (List.mem_append_right _ (List.mem_singleton_self _)) hm
      simp only [hm, if_true]
      rw [GoMap.get?_assignAll_of_not_mem _ _ _ ((GoMap.get?_eq_none_iff _ _).mp hnone)]
      exact ih2
    · simp only [hm, if_false]
      exact ih2

/-- The finalize loop gives a key the value of any matching scoped tag that
holds it, when the matching scoped tags that hold it agree. -/
theorem get?_applyIndexTags_some (base : Tags) (k : String) (l : List IndexTags)
    (hwf : ∀ it ∈ l, GoMap.WF it.tag)
    (hd : ∀ it ∈ l, ∀ it2 ∈ l, ∀ x ∈ GoMap.keys it.index, x ∉ GoMap.keys it2.tag)
    (hu : ∀ it ∈ l, ∀ it2 ∈ l, findIndex base it.index = true →
      findIndex base it2.index = true → ∀ v1 v2, GoMap.get? it.tag k = some v1 →
      GoMap.get? it2.tag k = some v2 → v1 = v2)
    (it0 : IndexTags) (h0 : it0 ∈ l) (hm0 : findIndex base it0.index = true) (v : String)
    (hv : GoMap.get? it0.tag k = some v) :
    GoMap.get? (applyIndexTags base l) k = some v := by
  induction l using List.reverseRecOn with
  | nil => simp at h0
  | append_singleton pre it ih =>
    have ih2 := ih
      (fun a ha => hwf a (List.mem_append_left _ ha))
      (fun a ha b hb => hd a (List.mem_append_left _ ha) b (List.mem_append_left _ hb))
      (fun a ha b hb => hu a (List.mem_append_left _ ha) b (List.mem_append_left _ hb))
    have hit : it ∈ pre ++ [it] := List.mem_append_right _ (List.mem_singleton_self _)
    have hfi : findIndex (applyIndexTags base pre) it.index = findIndex base it.index :=
      findIndex_applyIndexTags base pre it.index (fun a ha x hx =>
        hd it hit a (List.mem_append_left _ ha) x hx)
    rw [applyIndexTags_append, applyIndexTags_cons, hfi]
    simp only [applyIndexTags, List.foldl_nil]
    by_cases hm : findIndex base it.index = true
    · simp only [hm, if_true]
      rw [GoMap.get?_assignAll _ _ _ (hwf it hit)]
      cases hg : GoMap.get? it.tag k with
      | some w =>
        have := hu it hit it0 h0 hm hm0 w v hg hv
        simp [this]
      | none =>
        simp only [Option.or]
        rcases List.mem_append.mp h0 with h1 | h1
        · exact ih2 h1
        · rw [List.mem_singleton] at h1
          rw [h1, hg] at hv
          cases hv
    · simp only [hm, if_false]
      rcases List.mem_append.mp h0 with h1 | h1
      · exact ih2 h1
      · rw [List.mem_singleton] at h1
        rw [h1] at hm0
        exact absurd hm0 hm

/-- The finalize loop over two orderings of the same scoped tags, from tags
with the same lookups, gives every key the same value, when no key of a scoped
index context is the key of a scoped tag and the matching scoped tags that
hold one key agree. -/
theorem get?_applyIndexTags_perm (base base2 : Tags) (l l2 : List IndexTags)
    (hb : ∀ x, GoMap.get? base x = GoMap.get? base2 x) (hp : List.Perm l l2)
    (hwf : ∀ it ∈ l, GoMap.WF it.tag)
    (hd : ∀ it ∈ l, ∀ it2 ∈ l, ∀ x ∈ GoMap.keys it.index, x ∉ GoMap.keys it2.tag)
    (hu : ∀ it ∈ l, ∀ it2 ∈ l, findIndex base it.index = true →
      findIndex base it2.index = true → ∀ k v1 v2, GoMap.get? it.tag k = some v1 →
      GoMap.get? it2.tag k = some v2 → v1 = v2) (k : String) :
    GoMap.get? (applyIndexTags base l) k = GoMap.get? (applyIndexTags base2 l2) k := by
  have hfe : ∀ idx, findIndex base idx = findIndex base2 idx := fun idx =>
    findIndex_congr _ _ _ (fun x _ => hb x)
  have hwf2 : ∀ it ∈ l2, GoMap.WF it.tag := fun a ha => hwf a (hp.mem_iff.mpr ha)
  have hd2 : ∀ it ∈ l2, ∀ it2 ∈ l2, ∀ x ∈ GoMap.keys it.index, x ∉ GoMap.keys it2.tag :=
    fun a ha b hb2 => hd a (hp.mem_iff.mpr ha) b (hp.mem_iff.mpr hb2)
  by_cases hex : ∃ it ∈ l, findIndex base it.index = true ∧ (GoMap.get? it.tag k).isSome = true
  · obtain ⟨it0, h0, hm0, hs0⟩ := hex
    obtain ⟨v, hv⟩ := Option.isSome_iff_exists.mp hs0
    rw [get?_applyIndexTags_some base k l hwf hd
        (fun a ha b hb2 m1 m2 v1 v2 => hu a ha b hb2 m1 m2 k v1 v2) it0 h0 hm0 v hv,
      get?_applyIndexTags_some base2 k l2 hwf2 hd2
        (fun a ha b hb2 m1 m2 v1 v2 => hu a (hp.mem_iff.mpr ha) b (hp.mem_iff.mpr hb2)
          ((hfe _).trans m1) ((hfe _).trans m2) k v1 v2)
        it0 (hp.mem_iff.mp h0) ((hfe _).symm.trans hm0) v hv]
  · have hn : ∀ it ∈ l, findIndex base it.index = true → GoMap.get? it.tag k = none := by
      intro a ha hm
      cases hg : GoMap.get? a.tag k with
      | none => rfl
      | some w => exact absurd ⟨a, ha, hm, by simp [hg]⟩ hex
    rw [get?_applyIndexTags_none base k l hd hn,
      get?_applyIndexTags_none base2 k l2 hd2
        (fun a ha hm => hn a (hp.mem_iff.mpr ha) ((hfe _).trans hm)), hb k]


theorem get?_singleton_some (p w k v : String) (h : GoMap.get? [(p, w)] k = some v) :
    p = k ∧ w = v := by
  by_cases hk : p = k
  · simp only [GoMap.get?, hk, if_true, Option.some.injEq] at h
    exact ⟨hk, h⟩
  · simp [GoMap.get?, hk] at h

/-- Two scoped tags whose index contexts disagree on a key are never both
matched by the same tags. -/
theorem not_both_match (base idx1 idx2 : Tags)
    (hdis : ∃ k ∈ GoMap.keys idx1, (GoMap.get? idx2 k).isSome = true ∧
      GoMap.get? idx1 k ≠ GoMap.get? idx2 k)
    (h1 : findIndex base idx1 = true) (h2 : findIndex base idx2 = true) : False := by
  obtain ⟨k, hk, hs, hne⟩ := hdis
  obtain ⟨a, ha⟩ := GoMap.get?_of_mem_keys idx1 k hk
  obtain ⟨b, hb⟩ := Option.isSome_iff_exists.mp hs
  have e1 := (findIndex_eq_true_iff base idx1).mp h1 k a (GoMap.mem_of_get? idx1 k a ha)
  have e2 := (findIndex_eq_true_iff base idx2).mp h2 k b (GoMap.mem_of_get? idx2 k b hb)
  rw [ha, hb] at hne
  rw [e1] at e2
  exact hne e2

/-- The finalized tags of a record do not depend on the order in which the
leaves were visited, under the conditions of `get?_applyIndexTags_perm` on
the tags the leaves produce. -/
theorem finalize_perm (cfg : Config) (callerTags : Tags) (l l2 : List Site)
    (hat : ∀ s ∈ l, s.leaf.isAtom = true) (hp : List.Perm l l2)
    (hG : ∀ e1 ∈ globalsOf cfg l, ∀ e2 ∈ globalsOf cfg l, e1.1 = e2.1 → e1.2 = e2.2)
    (hU : ∀ T1 ∈ scopedOf cfg l, ∀ T2 ∈ scopedOf cfg l,
      GoMap.keys T1.tag = GoMap.keys T2.tag → T1.tag = T2.tag ∨
        ∃ k ∈ GoMap.keys T1.index, (GoMap.get? T2.index k).isSome = true ∧
          GoMap.get? T1.index k ≠ GoMap.get? T2.index k)
    (hN : ∀ T ∈ scopedOf cfg l, ∀ k ∈ GoMap.keys T.index, k ∉ cfg.TagKeys)
    (m : MetricsTable) (k : String) :
    GoMap.get? (finalize callerTags (GoMap.assignAll [] (globalsOf cfg l)) (scopedOf cfg l)
        m).tags k =
      GoMap.get? (finalize callerTags (GoMap.assignAll [] (globalsOf cfg l2)) (scopedOf cfg l2)
        m).tags k := by
  have hnil : GoMap.WF ([] : Tags) := by simp [GoMap.WF, GoMap.keys]
  simp only [finalize]
  apply get?_applyIndexTags_perm
  · intro x
    rw [GoMap.get?_assignAll _ _ _ (GoMap.WF_assignAll _ _ hnil),
      GoMap.get?_assignAll _ _ _ (GoMap.WF_assignAll _ _ hnil),
      GoMap.get?_assignAll_perm (globalsOf cfg l) (globalsOf cfg l2) [] x hG
        (flatten_map_perm _ _ _ hp)]
  · exact flatten_map_perm _ _ _ hp
  · intro T hT
    obtain ⟨s, _, w, hTe, _, _⟩ := mem_scopedOf cfg l hat T hT
    rw [hTe]
    simp [GoMap.WF, GoMap.keys]
  · intro T hT T2 hT2 x hx hx2
    obtain ⟨s, _, w, hTe, hl, _⟩ := mem_scopedOf cfg l hat T2 hT2
    rw [hTe] at hx2
    simp only [GoMap.keys, List.map_cons, List.map_nil, List.mem_singleton] at hx2
    exact hN T hT x hx (hx2 ▸ hl)
  · intro T hT T2 hT2 m1 m2 key v1 v2 g1 g2
    obtain ⟨s, _, w, hTe, _, _⟩ := mem_scopedOf cfg l hat T hT
    obtain ⟨s2, _, w2, hTe2, _, _⟩ := mem_scopedOf cfg l hat T2 hT2
    have q1 : T.tag = [(s.path, w)] := by rw [hTe]
    have q2 : T2.tag = [(s2.path, w2)] := by rw [hTe2]
    rw [q1] at g1
    rw [q2] at g2
    obtain ⟨a1, a2⟩ := get?_singleton_some _ _ _ _ g1
    obtain ⟨b1, b2⟩ := get?_singleton_some _ _ _ _ g2
    rcases hU T hT T2 hT2 (by rw [q1, q2]; simp [GoMap.keys, a1, b1]) with h | h
    · rw [q1, q2] at h
      simp only [List.cons.injEq, Prod.mk.injEq, and_true] at h
      rw [← a2, ← b2]
      exact h.2
    · exact (not_both_match _ _ _ h m1 m2).elim

/-- Claim C20, counterexample. Two keys of one mapping that sanitize to the
same listed path give a global tag whose value is that of the key visited
last: the two visiting orders return records with different tags. -/
theorem colliding_keys_order_changes_tag_example :
    Reorder docCollidingKeys docCollidingKeysSwapped ∧
    parseMapInterface ["ab"] docCollidingKeys [] [] = Outcome.returned (Except.ok
      [{ fields := [("n", FieldValue.int 1)], tags := [("node", "__"), ("ab", "y")] }]) ∧
    parseMapInterface ["ab"] docCollidingKeysSwapped [] [] = Outcome.returned (Except.ok
      [{ fields := [("n", FieldValue.int 1)], tags := [("node", "__"), ("ab", "x")] }]) :=
  ⟨Reorder.swap [] [("n", Value.int 1)] ("a.b", Value.str "x") ("ab", Value.str "y"),
    by decide, by decide⟩

/-- Claim C20, amended. Let a parse return records, and let the tags its
leaves produce be unambiguous: global tags with one key hold one value, two
scoped tags with one key hold one value or were found under index contexts
that disagree on a key, and no key of the index context of a scoped tag is
listed in TagKeys.  Then the parse under any other visiting order of the
entries of the mappings returns too, and its records are, up to their order
in the list, the same: same field, and the same value for every tag key. -/
theorem reordering_keeps_records (TagKeys : List String) (t t2 : Value) (callerTags : Tags)
    (vars : List Variable) (recs : List MetricsTable) (hord : Reorder t t2)
    (hret : parseMapInterface TagKeys t callerTags vars = Outcome.returned (Except.ok recs))
    (hG : ∀ e1 ∈ globalsOf { TagKeys := TagKeys, vars := vars } (sitesOf t),
      ∀ e2 ∈ globalsOf { TagKeys := TagKeys, vars := vars } (sitesOf t),
        e1.1 = e2.1 → e1.2 = e2.2)
    (hU : ∀ T1 ∈ scopedOf { TagKeys := TagKeys, vars := vars } (sitesOf t),
      ∀ T2 ∈ scopedOf { TagKeys := TagKeys, vars := vars } (sitesOf t),
        GoMap.keys T1.tag = GoMap.keys T2.tag → T1.tag = T2.tag ∨
          ∃ k ∈ GoMap.keys T1.index, (GoMap.get? T2.index k).isSome = true ∧
            GoMap.get? T1.index k ≠ GoMap.get? T2.index k)
    (hN : ∀ T ∈ scopedOf { TagKeys := TagKeys, vars := vars } (sitesOf t),
      ∀ k ∈ GoMap.keys T.index, k ∉ TagKeys) :
    ∃ recs2 p, parseMapInterface TagKeys t2 callerTags vars =
        Outcome.returned (Except.ok recs2) ∧ List.Perm p recs2 ∧
      List.Forall₂
        (fun r r2 => r.fields = r2.fields ∧ ∀ k, GoMap.get? r.tags k = GoMap.get? r2.tags k)
        recs p := by
  by_cases ha : t.isAtom = true
  · have := reorder_atom t t2 hord ha
    subst this
    exact ⟨recs, recs, hret, List.Perm.refl _,
      List.forall₂_same.mpr (fun _ _ => ⟨rfl, fun _ => rfl⟩)⟩
  · have ha1 : t.isAtom = false := by simpa using ha
    have ha2 : t2.isAtom = false := (reorder_isAtom t t2 hord) ▸ ha1
    obtain ⟨hnb, hrecs⟩ := parseMapInterface_returned TagKeys t callerTags vars recs hret
    have hperm : List.Perm (sitesOf t) (sitesOf t2) :=
      sites_perm_of_reorder t t2 hord "" "" [] true []
    have hnb2 : ∀ s ∈ sitesOf t2, s.leaf.isBool = false := fun s hs =>
      hnb s (hperm.mem_iff.mpr hs)
    have hat := sites_atoms t "" "" [] true []
    refine ⟨_, (recordsOf { TagKeys := TagKeys, vars := vars } (sitesOf t)).map
      (finalize callerTags
        (GoMap.assignAll [] (globalsOf { TagKeys := TagKeys, vars := vars } (sitesOf t2)))
        (scopedOf { TagKeys := TagKeys, vars := vars } (sitesOf t2))),
      parseMapInterface_of_sites TagKeys t2 callerTags vars ha2 hnb2,
      List.Perm.map _ (flatten_map_perm _ _ _ hperm), ?_⟩
    rw [hrecs, List.forall₂_map_left_iff, List.forall₂_map_right_iff, List.forall₂_same]
    intro m _
    exact ⟨rfl, fun k => finalize_perm { TagKeys := TagKeys, vars := vars } callerTags
      (sitesOf t) (sitesOf t2) hat hperm hG hU hN m k⟩

theorem reordering_keeps_records_witness :
    Reorder docOrders docOrdersSwapped ∧
    parseMapInterface ["host", "disks__name"] docOrders [] [] =
      Outcome.returned (Except.ok recsOrders) ∧
    ∃ recs2 p, parseMapInterface ["host", "disks__name"] docOrdersSwapped [] [] =
        Outcome.returned (Except.ok recs2) ∧ List.Perm p recs2 ∧
      List.Forall₂
        (fun r r2 => r.fields = r2.fields ∧ ∀ k, GoMap.get? r.tags k = GoMap.get? r2.tags k)
        recsOrders p :=
  have hord : Reorder docOrders docOrdersSwapped :=
    Reorder.chain
      (Reorder.swap [] [("disks", Value.seq [
          Value.map [("name", Value.str "sda"), ("used", Value.int 10)],
          Value.map [("used", Value.int 20), ("name", Value.str "sdb")]])]
        ("host", Value.str "h1") ("up", Value.int 1))
      (Reorder.inMap [("up", Value.int 1), ("host", Value.str "h1")] [] "disks"
        (Reorder.inSeq [] [Value.map [("used", Value.int 20), ("name", Value.str "sdb")]]
          (Reorder.swap [] [] ("name", Value.str "sda") ("used", Value.int 10))))
  ⟨hord, by decide,
    reordering_keeps_records ["host", "disks__name"] docOrders docOrdersSwapped [] []
      recsOrders hord (by decide) (by decide) (by decide) (by decide)⟩


/-! ## When the extraction fails and what it returns -/

theorem isValueChar_of_isHexChar (c : Char) (h : isHexChar c = true) : isValueChar c = true := by
  simp [isValueChar, h]

/-- The text of the capture group is not empty and is made of the characters
of the class `[\d.,A-Fa-f]` and, after a leading `0`, the letter `x`. -/
theorem matchGroup_some (cs r : List Char) (h : matchGroup cs = some r) :
    r ≠ [] ∧ ∀ c ∈ r, isValueChar c = true ∨ c = 'x' := by
  have hsec : ∀ l : List Char, (match l.takeWhile isValueChar with
      | [] => none
      | r => some r) = some r → r ≠ [] ∧ ∀ c ∈ r, isValueChar c = true ∨ c = 'x' := by
    intro l h
    cases htw : l.takeWhile isValueChar with
    | nil =>
      rw [htw] at h
      cases h
    | cons a t =>
      rw [htw] at h
      simp only [Option.some.injEq] at h
      subst h
      refine ⟨by simp, fun c hc => ?_⟩
      rw [← htw] at hc
      exact Or.inl (List.mem_takeWhile_imp hc)
  unfold matchGroup at h
  simp only at h
  split at h
  · rename_i rest
    cases htw : rest.takeWhile isHexChar with
    | nil =>
      rw [htw] at h
      simp only at h
      exact hsec ('0' :: 'x' :: rest) h
    | cons a t =>
      rw [htw] at h
      simp only [Option.some.injEq] at h
      subst h
      refine ⟨by simp, fun c hc => ?_⟩
      rcases List.mem_cons.mp hc with h1 | h1
      · exact Or.inl (by rw [h1]; decide)
      · rcases List.mem_cons.mp h1 with h2 | h2
        · exact Or.inr h2
        · rw [← htw] at h2
          exact Or.inl (isValueChar_of_isHexChar c (List.mem_takeWhile_imp h2))
  · exact hsec _ h

theorem matchGroup_nil : matchGroup [] = none := by decide

/-- The capture group matches at a character of the class `[\d.,A-Fa-f]`. -/
theorem matchGroup_isSome (c : Char) (cs : List Char) (h : isValueChar c = true) :
    ∃ r, matchGroup (c :: cs) = some r := by
  have hsecond : (match (c :: cs).takeWhile isValueChar with
      | [] => none
      | r => some r) = some ((c :: cs).takeWhile isValueChar) := by
    simp [List.takeWhile_cons, h]
  unfold matchGroup
  simp only [hsecond]
  split
  · split
    · exact ⟨_, rfl⟩
    · exact ⟨_, rfl⟩
  · exact ⟨_, rfl⟩

/-- The capture group does not match at another character. -/
theorem matchGroup_none (c : Char) (cs : List Char) (h : isValueChar c = false) :
    matchGroup (c :: cs) = none := by
  have hsecond : (match (c :: cs).takeWhile isValueChar with
      | [] => none
      | r => some r) = none := by
    simp [List.takeWhile_cons, h]
  unfold matchGroup
  simp only [hsecond]
  split
  · rename_i rest heq
    have h1 : c = '0' := (List.cons.inj heq).1
    rw [h1] at h
    exact absurd h (by decide)
  · rfl

theorem matchHere_some (cs r : List Char) (h : matchHere cs = some r) :
    ∃ cs2, matchGroup cs2 = some r := by
  induction cs with
  | nil => exact ⟨[], by simpa [matchHere] using h⟩
  | cons c rest ih =>
    simp only [matchHere] at h
    split at h
    · exact ⟨_, h⟩
    · cases hm : matchHere rest with
      | some r2 =>
        rw [hm] at h
        simp only [Option.some.injEq] at h
        exact ih (h ▸ hm)
      | none =>
        rw [hm] at h
        exact ⟨_, h⟩

theorem findSubmatch_some (cs r : List Char) (h : findSubmatch cs = some r) :
    ∃ cs2, matchGroup cs2 = some r := by
  induction cs with
  | nil => exact matchHere_some [] r (by simpa [findSubmatch] using h)
  | cons c rest ih =>
    simp only [findSubmatch] at h
    cases hm : matchHere (c :: rest) with
    | some r2 =>
      rw [hm] at h
      simp only [Option.some.injEq] at h
      exact matchHere_some _ r (h ▸ hm)
    | none =>
      rw [hm] at h
      exact ih h

theorem matchHere_none_iff (cs : List Char) :
    matchHere cs = none ↔ ∀ c ∈ cs, isValueChar c = false := by
  induction cs with
  | nil => simp [matchHere, matchGroup_nil]
  | cons c rest ih =>
    have hsplit : (∀ x ∈ c :: rest, isValueChar x = false) ↔
        isValueChar c = false ∧ ∀ x ∈ rest, isValueChar x = false := by
      simp only [List.mem_cons, forall_eq_or_imp]
    rw [hsplit]
    cases hd : isDigit c with
    | true =>
      have hv := isValueChar_of_isDigit c hd
      obtain ⟨r, hr⟩ := matchGroup_isSome c rest hv
      have e : matchHere (c :: rest) = some r := by simp only [matchHere, hd, if_true, hr]
      rw [e, hv]
      exact ⟨fun h => (by cases h), fun h => by cases h.1⟩
    | false =>
      cases hm : matchHere rest with
      | some r2 =>
        have e : matchHere (c :: rest) = some r2 := by
          simp [matchHere, hd, hm]
        rw [e]
        refine ⟨fun h => (by cases h), fun h => ?_⟩
        rw [ih.mpr h.2] at hm
        cases hm
      | none =>
        have e : matchHere (c :: rest) = matchGroup (c :: rest) := by
          simp [matchHere, hd, hm]
        rw [e]
        have hall := ih.mp hm
        cases hv : isValueChar c with
        | true =>
          obtain ⟨r, hr⟩ := matchGroup_isSome c rest hv
          rw [hr]
          exact ⟨fun h => (by cases h), fun h => by cases h.1⟩
        | false =>
          rw [matchGroup_none c rest hv]
          exact ⟨fun _ => ⟨rfl, hall⟩, fun _ => rfl⟩

theorem findSubmatch_none_iff (cs : List Char) :
    findSubmatch cs = none ↔ ∀ c ∈ cs, isValueChar c = false := by
  induction cs with
  | nil => simp [findSubmatch, matchHere, matchGroup_nil]
  | cons c rest ih =>
    cases hm : matchHere (c :: rest) with
    | some r2 =>
      have e : findSubmatch (c :: rest) = some r2 := by simp only [findSubmatch, hm]
      rw [e]
      refine ⟨fun h => (by cases h), fun h => ?_⟩
      rw [(matchHere_none_iff (c :: rest)).mpr h] at hm
      cases hm
    | none =>
      have e : findSubmatch (c :: rest) = findSubmatch rest := by simp only [findSubmatch, hm]
      have hall := (matchHere_none_iff (c :: rest)).mp hm
      rw [e, ih]
      exact ⟨fun _ => hall, fun _ x hx => hall x (List.mem_cons_of_mem _ hx)⟩

/-- The method `trimString` fails exactly on the strings without a character
of the class `[\d.,A-Fa-f]`, with the error that names the string. -/
theorem trimString_cases (data : String) :
    ((∀ c ∈ data.toList, isValueChar c = false) →
      trimString data = Except.error (ParseError.cannotParse data)) ∧
    ((∃ c ∈ data.toList, isValueChar c = true) →
      ∃ r, trimString data = Except.ok r ∧ r ≠ "" ∧
        ∀ c ∈ r.toList, isValueChar c = true ∨ c = 'x') := by
  constructor
  · intro h
    simp only [trimString, (findSubmatch_none_iff data.toList).mpr h]
  · intro ⟨c, hc, hv⟩
    cases hf : findSubmatch data.toList with
    | none =>
      have := (findSubmatch_none_iff data.toList).mp hf c hc
      rw [this] at hv
      cases hv
    | some r =>
      obtain ⟨cs2, hg⟩ := findSubmatch_some _ r hf
      obtain ⟨h1, h2⟩ := matchGroup_some cs2 r hg
      refine ⟨String.mk r, by simp only [trimString, hf], ?_, h2⟩
      intro he
      exact h1 (by simpa using congrArg String.toList he)


/-- Claim C22. The method `trimString` returns an error exactly when the
string has no character of the set digits, period, comma, A-F, a-f, and it
never returns the empty string. -/
theorem trimString_error_iff (data : String) :
    ((∃ e, trimString data = Except.error e) ↔ ∀ c ∈ data.toList, isValueChar c = false) ∧
    trimString data ≠ Except.ok "" := by
  have haux := trimString_cases data
  by_cases hall : ∀ c ∈ data.toList, isValueChar c = false
  · have he := haux.1 hall
    refine ⟨⟨fun _ => hall, fun _ => ⟨_, he⟩⟩, ?_⟩
    rw [he]
    intro h
    cases h
  · have hex : ∃ c ∈ data.toList, isValueChar c = true := by
      by_contra hn
      apply hall
      intro c hc
      cases hv : isValueChar c with
      | false => rfl
      | true => exact absurd ⟨c, hc, hv⟩ hn
    obtain ⟨r, hr, hne, _⟩ := haux.2 hex
    refine ⟨⟨fun ⟨e, he⟩ => ?_, fun h => absurd h hall⟩, ?_⟩
    · rw [hr] at he
      cases he
    · rw [hr]
      intro h
      simp only [Except.ok.injEq] at h
      exact hne h

/-! ## Declared strings whose kind has no case, and signs -/

/-- The text `trimString` returns holds no sign. -/
theorem trimString_no_sign (data r : String) (h : trimString data = Except.ok r) :
    '-' ∉ r.toList ∧ '+' ∉ r.toList := by
  have hchars : ∀ c ∈ r.toList, isValueChar c = true ∨ c = 'x' := by
    unfold trimString at h
    cases hf : findSubmatch data.toList with
    | none =>
      rw [hf] at h
      cases h
    | some cs =>
      rw [hf] at h
      simp only [Except.ok.injEq] at h
      subst h
      obtain ⟨cs2, hg⟩ := findSubmatch_some _ cs hf
      exact (matchGroup_some cs2 cs hg).2
  constructor
  · intro hm
    rcases hchars _ hm with h1 | h1
    · exact absurd h1 (by decide)
    · exact absurd h1 (by decide)
  · intro hm
    rcases hchars _ hm with h1 | h1
    · exact absurd h1 (by decide)
    · exact absurd h1 (by decide)

/-- The call `strconv.ParseInt` on a text without a minus sign returns no
negative number. -/
theorem parseInt_nonneg (s : String) (base v : Int) (hs : '-' ∉ s.toList)
    (h : parseInt s base = some v) : 0 ≤ v := by
  unfold parseInt at h
  cases hl : s.toList with
  | nil =>
    rw [hl] at h
    cases h
  | cons c cs =>
    rw [hl] at h hs
    have hc : ¬ c = '-' := fun e => hs (e ▸ List.mem_cons_self _ _)
    simp only [hc, false_and, if_false, decide_False] at h
    split at h
    · cases h
    · split at h
      · cases h
      · simp only [Bool.false_eq_true, if_false, Option.some.injEq] at h
        rw [← h]
        exact Int.ofNat_nonneg _

/-- The inner switch on a declaration of kind Int yields a 64-bit integer
read by `strconv.ParseInt` from the extracted text. -/
theorem coerce_int (value : Variable) (vvv : String) (fv : Option FieldValue)
    (hk : value.getType = VariableType.Int) (h : coerce value vvv = Except.ok fv) :
    ∃ (base v : Int), parseInt vvv base = some v ∧ fv = some (FieldValue.int64 v) := by
  unfold coerce at h
  rw [hk] at h
  simp only at h
  split at h
  · cases h
  · rename_i base _
    cases hp : parseInt vvv base with
    | none =>
      rw [hp] at h
      cases h
    | some v =>
      rw [hp] at h
      simp only [Except.ok.injEq] at h
      exact ⟨base, v, hp, h.symm⟩

/-- The inner switch has no case for the kinds Duration and Unknown. -/
theorem coerce_unhandled (value : Variable) (vvv : String)
    (hk : value.getType = VariableType.Duration ∨ value.getType = VariableType.Unknown) :
    coerce value vvv = Except.ok none := by
  unfold coerce
  rcases hk with h | h <;> rw [h]

/-- Claim C21, counterexample. A leaf declared Duration, or with a kind that is
not in the table, whose string holds no character of the extracted class makes
`parse` return the error of `trimString`. -/
theorem unhandled_kind_leaf_error_example :
    parse { TagKeys := [], vars := [{ Name := "uptime", Typ := "duration", Parameter := "" }] }
      (Value.str "hi") "" "uptime" [] ParserState.fresh =
      Outcome.returned (some (ParseError.cannotParse "hi"), ParserState.fresh) ∧
    parse { TagKeys := [], vars := [{ Name := "uptime", Typ := "time", Parameter := "" }] }
      (Value.str "hi") "" "uptime" [] ParserState.fresh =
      Outcome.returned (some (ParseError.cannotParse "hi"), ParserState.fresh) := by
  constructor <;> decide

/-- Claim C21, amended. A non-empty string leaf whose declaration has the kind
Duration or an unrecognised kind adds no record and no tag: `parse` returns
with the parser as it was.  It returns no error when the string holds a
character of the set digits, period, comma, A-F, a-f, and the error of
`trimString` when it holds none. -/
theorem unhandled_kind_leaf_is_ignored (cfg : Config) (vv node name : String) (ctx : Tags)
    (st : ParserState) (value : Variable) (hne : vv ≠ "")
    (hdecl : findVariable cfg.vars (nodePath node (trimName name)) = some value)
    (hkind : value.getType = VariableType.Duration ∨ value.getType = VariableType.Unknown) :
    ((∃ c ∈ vv.toList, isValueChar c = true) →
      parse cfg (Value.str vv) node name ctx st = Outcome.returned (none, st)) ∧
    ((∀ c ∈ vv.toList, isValueChar c = false) →
      parse cfg (Value.str vv) node name ctx st =
        Outcome.returned (some (ParseError.cannotParse vv), st)) := by
  have hlen : ¬ vv.length = 0 := fun h => hne ((String.length_eq_zero_iff_eq vv).mp h)
  have haux := trimString_cases vv
  constructor
  · intro hex
    obtain ⟨r, hr, _, _⟩ := haux.2 hex
    simp only [parse, parseString, hlen, if_false, hdecl, parseDeclared, hr,
      coerce_unhandled value r hkind, emit_newRecord]
  · intro hall
    simp only [parse, parseString, hlen, if_false, hdecl, parseDeclared, haux.1 hall]

theorem unhandled_kind_leaf_is_ignored_witness :
    parse { TagKeys := [], vars := [{ Name := "uptime", Typ := "duration", Parameter := "" }] }
      (Value.str "1h30m") "" "uptime" [] ParserState.fresh =
      Outcome.returned (none, ParserState.fresh) :=
  (unhandled_kind_leaf_is_ignored
    { TagKeys := [], vars := [{ Name := "uptime", Typ := "duration", Parameter := "" }] }
    "1h30m" "" "uptime" [] ParserState.fresh
    { Name := "uptime", Typ := "duration", Parameter := "" } (by decide) (by decide)
    (Or.inl (by decide))).1 ⟨'1', by decide, by decide⟩

/-- Claim C26. The text `trimString` returns holds no sign character, so a
string leaf declared Int adds no record, or one record whose field is a
non-negative integer; the leaf `-3` declared Int yields the field 3. -/
theorem int_leaf_is_never_negative (cfg : Config) (vv node name : String) (ctx : Tags)
    (st : ParserState) (value : Variable)
    (hdecl : findVariable cfg.vars (nodePath node (trimName name)) = some value)
    (hkind : value.getType = VariableType.Int) :
    (∀ r, trimString vv = Except.ok r → '-' ∉ r.toList ∧ '+' ∉ r.toList) ∧
    (∃ e st1, parse cfg (Value.str vv) node name ctx st = Outcome.returned (e, st1) ∧
      (st1.metricsTable = st.metricsTable ∨
        ∃ v : Int, 0 ≤ v ∧ st1.metricsTable = st.metricsTable ++
          [{ fields := [(trimName name, FieldValue.int64 v)],
             tags := GoMap.assignAll (newRecord node).tags ctx }])) ∧
    parseMapInterface [] (Value.map [("t", Value.str "-3")]) []
      [{ Name := "t", Typ := "int", Parameter := "" }] = Outcome.returned (Except.ok
        [{ fields := [("t", FieldValue.int64 3)], tags := [("node", "__")] }]) := by
  refine ⟨fun r hr => trimString_no_sign vv r hr, ?_, by decide⟩
  by_cases hlen : vv.length = 0
  · exact ⟨none, st, by simp only [parse, parseString, hlen, if_true], Or.inl rfl⟩
  · cases ht : trimString vv with
    | error err =>
      exact ⟨some err, st,
        by simp only [parse, parseString, hlen, if_false, hdecl, parseDeclared, ht], Or.inl rfl⟩
    | ok vvv =>
      cases hc : coerce value vvv with
      | error err =>
        exact ⟨some err, st,
          by simp only [parse, parseString, hlen, if_false, hdecl, parseDeclared, ht, hc],
          Or.inl rfl⟩
      | ok fv =>
        obtain ⟨base, v, hp, hfv⟩ := coerce_int value vvv fv hkind hc
        subst hfv
        have hv : 0 ≤ v := parseInt_nonneg vvv base v (trimString_no_sign vv vvv ht).1 hp
        have hparse : parse cfg (Value.str vv) node name ctx st = Outcome.returned (none,
            emit
              (if (gatherTag cfg node (nodePath node (trimName name)) vvv ctx st).1 = true then
                { newRecord node with
                  fields := GoMap.set (newRecord node).fields (trimName name)
                    (FieldValue.int64 v) }
              else newRecord node)
              ctx (gatherTag cfg node (nodePath node (trimName name)) vvv ctx st).2) := by
          simp only [parse, parseString, hlen, if_false, hdecl, parseDeclared, ht, hc]
        refine ⟨none, _, hparse, ?_⟩
        by_cases hl : nodePath node (trimName name) ∈ cfg.TagKeys
        · left
          rw [gatherTag_listed cfg _ _ _ _ _ hl]
          simp only [Bool.false_eq_true, if_false, emit_newRecord]
          split <;> rfl
        · right
          rw [gatherTag_unlisted cfg _ _ _ _ _ hl]
          exact ⟨v, hv, by simp [emit, newRecord, GoMap.set]⟩

theorem int_leaf_is_never_negative_witness :
    trimString "-3" = Except.ok "3" ∧
    ∃ e st1, parse { TagKeys := [], vars := [{ Name := "t", Typ := "int", Parameter := "" }] }
        (Value.str "-3") "" "t" [] ParserState.fresh = Outcome.returned (e, st1) ∧
      (st1.metricsTable = ParserState.fresh.metricsTable ∨
        ∃ v : Int, 0 ≤ v ∧ st1.metricsTable = ParserState.fresh.metricsTable ++
          [{ fields := [(trimName "t", FieldValue.int64 v)],
             tags := GoMap.assignAll (newRecord "").tags [] }]) :=
  ⟨by decide,
    (int_leaf_is_never_negative
      { TagKeys := [], vars := [{ Name := "t", Typ := "int", Parameter := "" }] }
      "-3" "" "t" [] ParserState.fresh { Name := "t", Typ := "int", Parameter := "" }
      (by decide) (by decide)).2.1⟩


/-! ## Index contexts on the way down -/

theorem GoMap.mem_keys_assignAll {β : Type} (src dst : GoMap β) (x : String)
    (h : x ∈ GoMap.keys dst ∨ x ∈ GoMap.keys src) : x ∈ GoMap.keys (GoMap.assignAll dst src) := by
  induction src generalizing dst with
  | nil =>
    rcases h with h | h
    · simpa [GoMap.assignAll] using h
    · simp [GoMap.keys] at h
  | cons e rest ih =>
    obtain ⟨k, v⟩ := e
    have hstep : GoMap.assignAll dst ((k, v) :: rest) =
        GoMap.assignAll (GoMap.set dst k v) rest := by simp [GoMap.assignAll]
    rw [hstep]
    apply ih
    rcases h with h | h
    · exact Or.inl ((GoMap.keys_set dst k v x).mpr (Or.inr h))
    · simp only [GoMap.keys, List.map_cons, List.mem_cons] at h
      rcases h with h | h
      · exact Or.inl ((GoMap.keys_set dst k v x).mpr (Or.inl h))
      · exact Or.inr h

theorem mem_keys_newIndexed (ctx : Tags) (name : String) (i : Nat) (x : String)
    (h : x ∈ GoMap.keys ctx) : x ∈ GoMap.keys (newIndexed ctx name i) := by
  unfold newIndexed
  exact (GoMap.keys_set _ name _ x).mpr (Or.inr (GoMap.mem_keys_assignAll ctx [] x (Or.inr h)))

mutual
/-- The keys of the index context of a node are keys of the index context of
every call below it. -/
theorem calls_keys : ∀ (data : Value) (node name : String) (ctx : Tags),
    ∀ c ∈ calls data node name ctx, ∀ k ∈ GoMap.keys ctx, k ∈ GoMap.keys c.indexes
  | Value.str _, _, _, _, c, hc, _, _ => by simp [calls] at hc
  | Value.float _, _, _, _, c, hc, _, _ => by simp [calls] at hc
  | Value.int _, _, _, _, c, hc, _, _ => by simp [calls] at hc
  | Value.null, _, _, _, c, hc, _, _ => by simp [calls] at hc
  | Value.bool _, _, _, _, c, hc, _, _ => by simp [calls] at hc
  | Value.seq vv, node, name, ctx, c, hc, k, hk => by
    simp only [calls] at hc
    exact callsElems_keys vv node (trimName name) ctx 0 c hc k hk
  | Value.map vv, node, name, ctx, c, hc, k, hk => by
    simp only [calls] at hc
    exact callsEntries_keys vv (nodePath node (trimName name)) ctx c hc k hk
theorem callsElems_keys : ∀ (elems : List Value) (node name : String) (ctx : Tags) (i : Nat),
    ∀ c ∈ callsElems elems node name ctx i, ∀ k ∈ GoMap.keys ctx, k ∈ GoMap.keys c.indexes
  | [], _, _, _, _, c, hc, _, _ => by simp [callsElems] at hc
  | u :: rest, node, name, ctx, i, c, hc, k, hk => by
    simp only [callsElems, List.mem_cons, List.mem_append] at hc
    rcases hc with h | h | h
    · rw [h]
      exact mem_keys_newIndexed ctx name i k hk
    · exact calls_keys u node name (newIndexed ctx name i) c h k
        (mem_keys_newIndexed ctx name i k hk)
    · exact callsElems_keys rest node name ctx (i + 1) c h k hk
theorem callsEntries_keys : ∀ (entries : List (String × Value)) (nodeName : String) (ctx : Tags),
    ∀ c ∈ callsEntries entries nodeName ctx, ∀ k ∈ GoMap.keys ctx, k ∈ GoMap.keys c.indexes
  | [], _, _, c, hc, _, _ => by simp [callsEntries] at hc
  | (key, v) :: rest, nodeName, ctx, c, hc, k, hk => by
    simp only [callsEntries, List.mem_cons, List.mem_append] at hc
    rcases hc with h | h | h
    · rw [h]
      exact hk
    · exact calls_keys v nodeName key ctx c h k hk
    · exact callsEntries_keys rest nodeName ctx c h k hk
end

mutual
/-- The bindings of the keys `K` in the index context of a node are those in
the index context of every call below it, when no sequence below rebinds a key
of `K`. -/
theorem calls_keep (K : List String) : ∀ (data : Value) (node name : String) (ctx : Tags),
    GoMap.WF ctx → rebindFree K data name = true →
    ∀ c ∈ calls data node name ctx, ∀ k ∈ K, GoMap.get? c.indexes k = GoMap.get? ctx k
  | Value.str _, _, _, _, _, _, c, hc, _, _ => by simp [calls] at hc
  | Value.float _, _, _, _, _, _, c, hc, _, _ => by simp [calls] at hc
  | Value.int _, _, _, _, _, _, c, hc, _, _ => by simp [calls] at hc
  | Value.null, _, _, _, _, _, c, hc, _, _ => by simp [calls] at hc
  | Value.bool _, _, _, _, _, _, c, hc, _, _ => by simp [calls] at hc
  | Value.seq vv, node, name, ctx, hwf, hfree, c, hc, k, hk => by
    simp only [rebindFree, Bool.and_eq_true, Bool.not_eq_true', List.contains_eq_any_beq,
      List.any_eq_false, beq_iff_eq] at hfree
    simp only [calls] at hc
    exact callsElems_keep K vv node (trimName name) ctx 0 hwf
      (fun h => hfree.1 _ h rfl) hfree.2 c hc k hk
  | Value.map vv, node, name, ctx, hwf, hfree, c, hc, k, hk => by
    simp only [rebindFree] at hfree
    simp only [calls] at hc
    exact callsEntries_keep K vv (nodePath node (trimName name)) ctx hwf hfree c hc k hk
theorem callsElems_keep (K : List String) :
    ∀ (elems : List Value) (node name : String) (ctx : Tags) (i : Nat),
    GoMap.WF ctx → name ∉ K → rebindFreeElems K elems name = true →
    ∀ c ∈ callsElems elems node name ctx i, ∀ k ∈ K, GoMap.get? c.indexes k = GoMap.get? ctx k
  | [], _, _, _, _, _, _, _, c, hc, _, _ => by simp [callsElems] at hc
  | u :: rest, node, name, ctx, i, hwf, hname, hfree, c, hc, k, hk => by
    simp only [rebindFreeElems, Bool.and_eq_true] at hfree
    simp only [callsElems, List.mem_cons, List.mem_append] at hc
    have hne : name ≠ k := fun e => hname (e ▸ hk)
    rcases hc with h | h | h
    · rw [h]
      exact get?_newIndexed ctx name i k hwf hne
    · rw [calls_keep K u node name (newIndexed ctx name i) (WF_newIndexed ctx name i hwf)
        hfree.1 c h k hk]
      exact get?_newIndexed ctx name i k hwf hne
    · exact callsElems_keep K rest node name ctx (i + 1) hwf hname hfree.2 c h k hk
theorem callsEntries_keep (K : List String) :
    ∀ (entries : List (String × Value)) (nodeName : String) (ctx : Tags),
    GoMap.WF ctx → rebindFreeEntries K entries = true →
    ∀ c ∈ callsEntries entries nodeName ctx, ∀ k ∈ K, GoMap.get? c.indexes k = GoMap.get? ctx k
  | [], _, _, _, _, c, hc, _, _ => by simp [callsEntries] at hc
  | (key, v) :: rest, nodeName, ctx, hwf, hfree, c, hc, k, hk => by
    simp only [rebindFreeEntries, Bool.and_eq_true] at hfree
    simp only [callsEntries, List.mem_cons, List.mem_append] at hc
    rcases hc with h | h | h
    · rw [h]
    · exact calls_keep K v nodeName key ctx hwf hfree.1 c h k hk
    · exact callsEntries_keep K rest nodeName ctx hwf hfree.2 c h k hk
end

mutual
/-- The leaves that `parse` reaches are the calls on a null, a boolean, a
number or a string, in the same order and with the same arguments. -/
theorem sites_eq_atom_calls : ∀ (data : Value) (node name : String) (ctx : Tags) (root : Bool)
    (segs : List String),
    (sites data node name ctx root segs).map (fun s => (s.leaf, s.node, s.name, s.indexes)) =
      ((⟨data, node, name, ctx⟩ :: calls data node name ctx).filter
        (fun c => c.data.isAtom)).map (fun c => (c.data, c.node, c.name, c.indexes))
  | Value.str _, _, _, _, _, _ => by simp [sites, calls, Value.isAtom]
  | Value.float _, _, _, _, _, _ => by simp [sites, calls, Value.isAtom]
  | Value.int _, _, _, _, _, _ => by simp [sites, calls, Value.isAtom]
  | Value.null, _, _, _, _, _ => by simp [sites, calls, Value.isAtom]
  | Value.bool _, _, _, _, _, _ => by simp [sites, calls, Value.isAtom]
  | Value.seq vv, node, name, ctx, root, segs => by
    have ih := sitesElems_eq_atom_calls vv node (trimName name) ctx 0 root segs
    simpa [sites, calls, Value.isAtom] using ih
  | Value.map vv, node, name, ctx, root, segs => by
    have ih := sitesEntries_eq_atom_calls vv (nodePath node (trimName name)) ctx
      (if root then segs else segs ++ [trimName name])
    simpa [sites, calls, Value.isAtom] using ih
theorem sitesElems_eq_atom_calls : ∀ (elems : List Value) (node name : String) (ctx : Tags)
    (i : Nat) (root : Bool) (segs : List String),
    (sitesElems elems node name ctx i root segs).map
        (fun s => (s.leaf, s.node, s.name, s.indexes)) =
      ((callsElems elems node name ctx i).filter
        (fun c => c.data.isAtom)).map (fun c => (c.data, c.node, c.name, c.indexes))
  | [], _, _, _, _, _, _ => by simp [sitesElems, callsElems]
  | u :: rest, node, name, ctx, i, root, segs => by
    have ih1 := sites_eq_atom_calls u node name (newIndexed ctx name i) root segs
    have ih2 := sitesElems_eq_atom_calls rest node name ctx (i + 1) root segs
    simp only [sitesElems, callsElems, List.map_append, ih1, ih2]
    simp only [← List.cons_append, List.filter_append, List.map_append]
theorem sitesEntries_eq_atom_calls : ∀ (entries : List (String × Value)) (nodeName : String)
    (ctx : Tags) (segs : List String),
    (sitesEntries entries nodeName ctx segs).map
        (fun s => (s.leaf, s.node, s.name, s.indexes)) =
      ((callsEntries entries nodeName ctx).filter
        (fun c => c.data.isAtom)).map (fun c => (c.data, c.node, c.name, c.indexes))
  | [], _, _, _ => by simp [sitesEntries, callsEntries]
  | (k, v) :: rest, nodeName, ctx, segs => by
    have ih1 := sites_eq_atom_calls v nodeName k ctx false segs
    have ih2 := sitesEntries_eq_atom_calls rest nodeName ctx segs
    simp only [sitesEntries, callsEntries, List.map_append, ih1, ih2]
    simp only [← List.cons_append, List.filter_append, List.map_append]
end

/-- Claim C23, counterexample. In a sequence of sequences the inner sequence is
visited under the name of the outer one and binds the same key: the call on
the number 6, in element 1 of `list`, gets the index context `list` 0, and the
records of 5 and of 6 carry the same tags. -/
theorem nested_sequence_overwrites_index_example :
    (calls docSeqOfSeq "" "" []).map (fun c => (c.node, c.name, c.indexes)) =
      [("", "list", []), ("", "list", [("list", "0")]), ("", "list", [("list", "0")]),
       ("", "list", [("list", "1")]), ("", "list", [("list", "0")])] ∧
    (calls (Value.seq [Value.int 6]) "" "list" [("list", "1")]).map (fun c => c.indexes) =
      [[("list", "0")]] ∧
    parseMapInterface [] docSeqOfSeq [] [] = Outcome.returned (Except.ok
      [{ fields := [("list", FieldValue.int 5)], tags := [("node", "__"), ("list", "0")] },
       { fields := [("list", FieldValue.int 6)], tags := [("node", "__"), ("list", "0")] }]) := by
  refine ⟨?_, ?_, ?_⟩ <;> decide

/-- Claim C23, amended. Below a node the keys of its index context are never
removed: every call of `parse` on a descendant has them in its index context.
When no sequence below the node (the node included) is visited under a name
that is a key of the node's index context, every such call has every binding
of the node's index context, and the records added below the node carry those
bindings among their tags. -/
theorem index_context_is_kept_on_descent (cfg : Config) (data : Value) (node name : String)
    (ctx : Tags) (hwf : GoMap.WF ctx) :
    (∀ c ∈ calls data node name ctx, ∀ k ∈ GoMap.keys ctx, k ∈ GoMap.keys c.indexes) ∧
    (rebindFree (GoMap.keys ctx) data name = true →
      (∀ c ∈ calls data node name ctx, ∀ k v,
        GoMap.get? ctx k = some v → GoMap.get? c.indexes k = some v) ∧
      ∀ st, Carries (GoMap.keys ctx) ctx st (parse cfg data node name ctx st).finalState) := by
  refine ⟨calls_keys data node name ctx, fun hfree => ⟨?_, fun st =>
    parse_carries cfg (GoMap.keys ctx) data node name ctx st hwf hfree⟩⟩
  intro c hc k v hv
  have hk : k ∈ GoMap.keys ctx := (GoMap.get?_isSome_iff ctx k).mp (by simp [hv])
  rw [calls_keep (GoMap.keys ctx) data node name ctx hwf hfree c hc k hk]
  exact hv

theorem index_context_is_kept_on_descent_witness :
    GoMap.WF ([("disks", "3")] : Tags) ∧
    rebindFree (GoMap.keys ([("disks", "3")] : Tags)) elemDisk "disks" = true ∧
    (calls elemDisk "" "disks" [("disks", "3")]).map (fun c => (c.name, c.indexes)) =
      [("size", [("disks", "3")]), ("parts", [("disks", "3")]),
       ("parts", [("disks", "3"), ("parts", "0")]),
       ("used", [("disks", "3"), ("parts", "0")]),
       ("parts", [("disks", "3"), ("parts", "1")]),
       ("used", [("disks", "3"), ("parts", "1")])] ∧
    (∀ c ∈ calls elemDisk "" "disks" [("disks", "3")], ∀ k v,
      GoMap.get? [("disks", "3")] k = some v → GoMap.get? c.indexes k = some v) :=
  ⟨by decide, by decide, by decide,
    ((index_context_is_kept_on_descent { TagKeys := [], vars := [] } elemDisk "" "disks"
      [("disks", "3")] (by decide)).2 (by decide)).1⟩


/-! ## The field `response_time` -/

/-- Every returned record holds exactly one field. -/
theorem returned_record_single_field (TagKeys : List String) (data : Value) (callerTags : Tags)
    (vars : List Variable) (recs : List MetricsTable)
    (h : parseMapInterface TagKeys data callerTags vars = Outcome.returned (Except.ok recs)) :
    ∀ r ∈ recs, ∃ nm fv, r.fields = [(nm, fv)] := by
  obtain ⟨_, hrecs⟩ := parseMapInterface_returned TagKeys data callerTags vars recs h
  have hat := sites_atoms data "" "" [] true []
  intro r hr
  rw [hrecs] at hr
  obtain ⟨m, hm, rfl⟩ := List.mem_map.mp hr
  simp only [recordsOf, List.mem_flatten, List.mem_map] at hm
  obtain ⟨lst, ⟨s, hs, hls⟩, he⟩ := hm
  rcases effect_records { TagKeys := TagKeys, vars := vars } s (hat s hs) with h0 | ⟨fv, h1⟩
  · rw [← hls, h0] at he
    simp at he
  · rw [← hls, h1] at he
    simp only [List.mem_singleton] at he
    subst he
    exact ⟨_, fv, rfl⟩

theorem nFields_two (emitted : List Emitted) (h : ∀ m ∈ emitted, m.fields.length = 2) :
    nFields emitted = 2 * emitted.length := by
  induction emitted with
  | nil => rfl
  | cons m rest ih =>
    have h1 := h m (List.mem_cons_self _ _)
    have h2 := ih (fun x hx => h x (List.mem_cons_of_mem _ hx))
    simp only [nFields, List.map_cons, List.sum_cons, List.length_cons] at h2 ⊢
    omega

/-- What `gatherServer` hands to the accumulator for the records of a
successful flattening. -/
theorem gatherServer_emitted (Name : String) (TagKeys : List String) (vars : List Variable)
    (serverURL host : String) (responseTime : Float64) (f : Value) (recs : List MetricsTable)
    (hret : parseMapInterface TagKeys f [("url", serverURL), ("server", host)] vars =
      Outcome.returned (Except.ok recs)) :
    ∃ emitted, gatherServer Name TagKeys vars serverURL host responseTime f =
        Outcome.returned (Except.ok emitted) ∧
      List.Forall₂ (fun r m => m.measurement = measurementName Name ∧ m.tags = r.tags ∧
        ∃ nm fv, r.fields = [(nm, fv)] ∧
          m.fields = if nm = "response_time"
            then [("response_time", FieldValue.float responseTime)]
            else [(nm, fv), ("response_time", FieldValue.float responseTime)]) recs emitted ∧
      ((∀ r ∈ recs, "response_time" ∉ GoMap.keys r.fields) →
        (∀ m ∈ emitted, m.fields.length = 2) ∧ nFields emitted = 2 * recs.length) := by
  have hone := returned_record_single_field TagKeys f _ vars recs hret
  have hg : gatherServer Name TagKeys vars serverURL host responseTime f =
      Outcome.returned (Except.ok (recs.map (fun metric : MetricsTable =>
        ({ measurement := measurementName Name,
           fields := GoMap.set metric.fields "response_time" (FieldValue.float responseTime),
           tags := metric.tags } : Emitted)))) := by
    simp only [gatherServer, hret]
  refine ⟨_, hg, ?_, ?_⟩
  · rw [List.forall₂_map_right_iff, List.forall₂_same]
    intro r hr
    obtain ⟨nm, fv, hf⟩ := hone r hr
    refine ⟨rfl, rfl, nm, fv, hf, ?_⟩
    rw [hf]
    by_cases hn : nm = "response_time"
    · simp [GoMap.set, hn]
    · simp [GoMap.set, hn]
  · intro hno
    have hall : ∀ m ∈ recs.map (fun metric : MetricsTable =>
        ({ measurement := measurementName Name,
           fields := GoMap.set metric.fields "response_time" (FieldValue.float responseTime),
           tags := metric.tags } : Emitted)), m.fields.length = 2 := by
      intro m hm
      obtain ⟨r, hr, rfl⟩ := List.mem_map.mp hm
      obtain ⟨nm, fv, hf⟩ := hone r hr
      have hn : ¬ nm = "response_time" := by
        intro e
        apply hno r hr
        rw [hf, e]
        simp [GoMap.keys]
      simp [hf, GoMap.set, hn]
    refine ⟨hall, ?_⟩
    rw [nFields_two _ hall, List.length_map]

/-- Claim C24, counterexample. A leaf named `response_time` is overwritten by
the injected field: its metric is emitted with one field and the value 5 of
the leaf is lost; three fields are emitted for two records. -/
theorem response_time_leaf_is_overwritten_example :
    parseMapInterface [] docResponseTime [("url", "u"), ("server", "h")] [] =
      Outcome.returned (Except.ok
        [{ fields := [("response_time", FieldValue.int 5)],
           tags := [("node", "__"), ("url", "u"), ("server", "h")] },
         { fields := [("load", FieldValue.int 2)],
           tags := [("node", "__"), ("url", "u"), ("server", "h")] }]) ∧
    gatherServer "" [] [] "u" "h" ⟨false, 1, -2⟩ docResponseTime =
      Outcome.returned (Except.ok
        [{ measurement := "webapi",
           fields := [("response_time", FieldValue.float ⟨false, 1, -2⟩)],
           tags := [("node", "__"), ("url", "u"), ("server", "h")] },
         { measurement := "webapi",
           fields := [("load", FieldValue.int 2),
             ("response_time", FieldValue.float ⟨false, 1, -2⟩)],
           tags := [("node", "__"), ("url", "u"), ("server", "h")] }]) := by
  constructor <;> decide

/-- Claim C24, amended. For every successfully flattened response
`gatherServer` emits one metric per record, with the tags of the record and
its fields after the assignment of `response_time`: the field of the record
and `response_time` when the field has another name, `response_time` alone,
holding the response time, when the field of the record is named
`response_time`.  When no record's field is named `response_time` every metric
has exactly two fields and the number of emitted fields is twice the number of
records; it is 10 for the 5 records of `validJSON`. -/
theorem gatherServer_injects_response_time (Name : String) (TagKeys : List String)
    (vars : List Variable) (serverURL host : String) (responseTime : Float64) (f : Value)
    (recs : List MetricsTable)
    (hret : parseMapInterface TagKeys f [("url", serverURL), ("server", host)] vars =
      Outcome.returned (Except.ok recs)) :
    (∃ emitted, gatherServer Name TagKeys vars serverURL host responseTime f =
        Outcome.returned (Except.ok emitted) ∧
      List.Forall₂ (fun r m => m.measurement = measurementName Name ∧ m.tags = r.tags ∧
        ∃ nm fv, r.fields = [(nm, fv)] ∧
          m.fields = if nm = "response_time"
            then [("response_time", FieldValue.float responseTime)]
            else [(nm, fv), ("response_time", FieldValue.float responseTime)]) recs emitted ∧
      ((∀ r ∈ recs, "response_time" ∉ GoMap.keys r.fields) →
        (∀ m ∈ emitted, m.fields.length = 2) ∧ nFields emitted = 2 * recs.length)) ∧
    (parseMapInterface [] docValidJSON tagsServer1 cfgSingle.vars =
      Outcome.returned (Except.ok recsValidJSON) ∧
     ∃ emitted, gatherServer "my_webapp" [] cfgSingle.vars
        "http://server1.example.com/metrics/" "server1.example.com" responseTime docValidJSON =
        Outcome.returned (Except.ok emitted) ∧ emitted.length = 5 ∧ nFields emitted = 10) := by
  refine ⟨gatherServer_emitted Name TagKeys vars serverURL host responseTime f recs hret,
    by decide, ?_⟩
  obtain ⟨emitted, h1, h2, h3⟩ := gatherServer_emitted "my_webapp" [] cfgSingle.vars
    "http://server1.example.com/metrics/" "server1.example.com" responseTime docValidJSON
    recsValidJSON (by decide)
  exact ⟨emitted, h1, h2.length_eq.symm, (h3 (by decide)).2⟩

theorem gatherServer_injects_response_time_witness :
    parseMapInterface [] docValidJSON
      [("url", "http://server1.example.com/metrics/"), ("server", "server1.example.com")]
      cfgSingle.vars = Outcome.returned (Except.ok recsValidJSON) ∧
    ∃ emitted, gatherServer "my_webapp" [] cfgSingle.vars
        "http://server1.example.com/metrics/" "server1.example.com" ⟨false, 1, -2⟩
        docValidJSON = Outcome.returned (Except.ok emitted) ∧
      emitted.length = 5 ∧ nFields emitted = 10 :=
  ⟨by decide,
    (gatherServer_injects_response_time "my_webapp" [] cfgSingle.vars
      "http://server1.example.com/metrics/" "server1.example.com" ⟨false, 1, -2⟩ docValidJSON
      recsValidJSON (by decide)).2.2⟩


/-! ## Errors of leaves -/

/-- A call of `parse` that returns an error leaves the parser as it was, and
returns that error under every index context and on every parser. -/
theorem parse_error_inert (cfg : Config) (data : Value) (node name : String) (ctx : Tags)
    (st st1 : ParserState) (e : ParseError)
    (h : parse cfg data node name ctx st = Outcome.returned (some e, st1)) :
    st1 = st ∧ ∀ ctx2 st2, parse cfg data node name ctx2 st2 = Outcome.returned (some e, st2) := by
  cases data with
  | seq vv =>
    have := parse_container_error cfg (Value.seq vv) node name ctx st st1 (some e) rfl h
    cases this
  | map vv =>
    have := parse_container_error cfg (Value.map vv) node name ctx st st1 (some e) rfl h
    cases this
  | null => simp [parse] at h
  | bool b => simp [parse] at h
  | float x => simp [parse] at h
  | int n => simp [parse] at h
  | str vv =>
    simp only [parse, parseString] at h ⊢
    by_cases hlen : vv.length = 0
    · simp [hlen] at h
    · simp only [hlen, if_false] at h ⊢
      cases hd : findVariable cfg.vars (nodePath node (trimName name)) with
      | none =>
        rw [hd] at h
        simp at h
      | some value =>
        rw [hd] at h
        simp only [parseDeclared] at h ⊢
        cases ht : trimString vv with
        | error err =>
          rw [ht] at h
          simp only [Outcome.returned.injEq, Prod.mk.injEq, Option.some.injEq] at h
          exact ⟨h.2.symm, fun _ _ => by rw [h.1]⟩
        | ok vvv =>
          rw [ht] at h
          simp only at h ⊢
          cases hc : coerce value vvv with
          | error err =>
            rw [hc] at h
            simp only [Outcome.returned.injEq, Prod.mk.injEq, Option.some.injEq] at h
            exact ⟨h.2.symm, fun _ _ => by rw [h.1]⟩
          | ok o =>
            rw [hc] at h
            cases o with
            | none => simp at h
            | some fv => simp at h

theorem offends_iff (cfg : Config) (data : Value) (node name : String) :
    offends cfg data node name = true ↔
      ∃ e, ∀ ctx st, parse cfg data node name ctx st = Outcome.returned (some e, st) := by
  constructor
  · intro h
    unfold offends at h
    cases hp : parse cfg data node name [] ParserState.fresh with
    | panicked s =>
      rw [hp] at h
      cases h
    | returned r =>
      obtain ⟨e, s⟩ := r
      rw [hp] at h
      cases e with
      | none => cases h
      | some err => exact ⟨err, (parse_error_inert cfg data node name _ _ _ err hp).2⟩
  · intro ⟨e, he⟩
    simp only [offends, he]

theorem offends_false (cfg : Config) (data : Value) (node name : String) (ctx : Tags)
    (st : ParserState) (h : offends cfg data node name = false) :
    (∃ st1, parse cfg data node name ctx st = Outcome.returned (none, st1)) ∨
      ∃ st1, parse cfg data node name ctx st = Outcome.panicked st1 := by
  cases hp : parse cfg data node name ctx st with
  | panicked s => exact Or.inr ⟨s, rfl⟩
  | returned r =>
    obtain ⟨e, s⟩ := r
    cases e with
    | none => exact Or.inl ⟨s, rfl⟩
    | some err =>
      have := (offends_iff cfg data node name).mpr
        ⟨err, (parse_error_inert cfg data node name ctx st s err hp).2⟩
      rw [this] at h
      cases h

mutual
/-- The walk over the tree with `null` in the place of the offending leaves
leaves the parser the walk over the tree leaves. -/
theorem parse_withoutOffending (cfg : Config) :
    ∀ (data : Value) (node name : String) (ctx : Tags) (st : ParserState),
      (parse cfg (withoutOffending cfg data node name) node name ctx st).dropError =
        (parse cfg data node name ctx st).dropError
  | Value.null, _, _, _, _ => by simp only [withoutOffending]
  | Value.bool _, _, _, _, _ => by simp only [withoutOffending]
  | Value.float _, _, _, _, _ => by simp only [withoutOffending]
  | Value.int _, _, _, _, _ => by simp only [withoutOffending]
  | Value.str vv, node, name, ctx, st => by
    simp only [withoutOffending]
    cases ho : offends cfg (Value.str vv) node name with
    | false => simp
    | true =>
      obtain ⟨e, he⟩ := (offends_iff cfg _ node name).mp ho
      rw [if_pos rfl, he ctx st]
      simp only [Outcome.dropError, parse]
  | Value.seq vv, node, name, ctx, st => by
    simp only [withoutOffending, parse,
      parseElems_withoutOffending cfg vv node (trimName name) ctx 0 st]
  | Value.map vv, node, name, ctx, st => by
    simp only [withoutOffending, parse,
      parseEntries_withoutOffending cfg vv (nodePath node (trimName name)) ctx st]
theorem parseElems_withoutOffending (cfg : Config) :
    ∀ (elems : List Value) (node name : String) (ctx : Tags) (i : Nat) (st : ParserState),
      parseElems cfg (withoutOffendingElems cfg elems node name) node name ctx i st =
        parseElems cfg elems node name ctx i st
  | [], _, _, _, _, _ => by simp only [withoutOffendingElems]
  | u :: rest, node, name, ctx, i, st => by
    have ih := parse_withoutOffending cfg u node name (newIndexed ctx name i) st
    simp only [withoutOffendingElems, parseElems]
    cases h1 : parse cfg (withoutOffending cfg u node name) node name (newIndexed ctx name i) st
      with
    | returned r1 =>
      cases h2 : parse cfg u node name (newIndexed ctx name i) st with
      | returned r2 =>
        rw [h1, h2] at ih
        simp only [Outcome.dropError, Outcome.returned.injEq] at ih
        simp only [ih]
        exact parseElems_withoutOffending cfg rest node name ctx (i + 1) r2.2
      | panicked s2 =>
        rw [h1, h2] at ih
        simp [Outcome.dropError] at ih
    | panicked s1 =>
      cases h2 : parse cfg u node name (newIndexed ctx name i) st with
      | returned r2 =>
        rw [h1, h2] at ih
        simp [Outcome.dropError] at ih
      | panicked s2 =>
        rw [h1, h2] at ih
        simp only [Outcome.dropError, Outcome.panicked.injEq] at ih
        simp only [ih]
theorem parseEntries_withoutOffending (cfg : Config) :
    ∀ (entries : List (String × Value)) (nodeName : String) (ctx : Tags) (st : ParserState),
      parseEntries cfg (withoutOffendingEntries cfg entries nodeName) nodeName ctx st =
        parseEntries cfg entries nodeName ctx st
  | [], _, _, _ => by simp only [withoutOffendingEntries]
  | (k, v) :: rest, nodeName, ctx, st => by
    have ih := parse_withoutOffending cfg v nodeName k ctx st
    simp only [withoutOffendingEntries, parseEntries]
    cases h1 : parse cfg (withoutOffending cfg v nodeName k) nodeName k ctx st with
    | returned r1 =>
      cases h2 : parse cfg v nodeName k ctx st with
      | returned r2 =>
        rw [h1, h2] at ih
        simp only [Outcome.dropError, Outcome.returned.injEq] at ih
        simp only [ih]
        exact parseEntries_withoutOffending cfg rest nodeName ctx r2.2
      | panicked s2 =>
        rw [h1, h2] at ih
        simp [Outcome.dropError] at ih
    | panicked s1 =>
      cases h2 : parse cfg v nodeName k ctx st with
      | returned r2 =>
        rw [h1, h2] at ih
        simp [Outcome.dropError] at ih
      | panicked s2 =>
        rw [h1, h2] at ih
        simp only [Outcome.dropError, Outcome.panicked.injEq] at ih
        simp only [ih]
end

theorem withoutOffending_isAtom (cfg : Config) (data : Value) (node name : String) :
    (withoutOffending cfg data node name).isAtom = data.isAtom := by
  cases data with
  | str vv =>
    simp only [withoutOffending]
    split <;> rfl
  | seq vv => simp [withoutOffending, Value.isAtom]
  | map vv => simp [withoutOffending, Value.isAtom]
  | null => simp [withoutOffending]
  | bool b => simp [withoutOffending]
  | float x => simp [withoutOffending]
  | int n => simp [withoutOffending]

/-- What `parseMapInterface` returns for a mapping or a sequence is fixed by
the parser the walk leaves. -/
theorem parseMapInterface_congr (TagKeys : List String) (a b : Value) (callerTags : Tags)
    (vars : List Variable) (ha : a.isAtom = false) (hb : b.isAtom = false)
    (h : (parse { TagKeys := TagKeys, vars := vars } a "" "" [] ParserState.fresh).dropError =
      (parse { TagKeys := TagKeys, vars := vars } b "" "" [] ParserState.fresh).dropError) :
    parseMapInterface TagKeys a callerTags vars = parseMapInterface TagKeys b callerTags vars := by
  unfold parseMapInterface
  cases h1 : parse { TagKeys := TagKeys, vars := vars } a "" "" [] ParserState.fresh with
  | returned r1 =>
    obtain ⟨e1, s1⟩ := r1
    have he1 := parse_container_error _ a "" "" [] _ s1 e1 ha h1
    subst he1
    cases h2 : parse { TagKeys := TagKeys, vars := vars } b "" "" [] ParserState.fresh with
    | returned r2 =>
      obtain ⟨e2, s2⟩ := r2
      have he2 := parse_container_error _ b "" "" [] _ s2 e2 hb h2
      subst he2
      rw [h1, h2] at h
      simp only [Outcome.dropError, Outcome.returned.injEq] at h
      simp only [h]
    | panicked s2 =>
      rw [h1, h2] at h
      simp [Outcome.dropError] at h
  | panicked s1 =>
    cases h2 : parse { TagKeys := TagKeys, vars := vars } b "" "" [] ParserState.fresh with
    | returned r2 =>
      rw [h1, h2] at h
      simp [Outcome.dropError] at h
    | panicked s2 =>
      rw [h1, h2] at h
      simp only [Outcome.dropError, Outcome.panicked.injEq] at h
      simp only [h]

theorem sites_noBool (data : Value) (h : noBool data = true) :
    ∀ s ∈ sitesOf data, s.leaf.isBool = false := by
  have key := sites_inv (fun data _ _ _ _ _ => noBool data = true)
    (by
      intro elems node name ctx root segs hi u hu i
      simp only [noBool] at hi
      clear i
      induction elems with
      | nil => simp at hu
      | cons w rest ih =>
        simp only [noBoolElems, Bool.and_eq_true] at hi
        rcases List.mem_cons.mp hu with h1 | h1
        · exact h1 ▸ hi.1
        · exact ih hi.2 h1)
    (by
      intro entries node name ctx root segs hi kv hkv
      simp only [noBool] at hi
      induction entries with
      | nil => simp at hkv
      | cons w rest ih =>
        obtain ⟨k, v⟩ := w
        simp only [noBoolEntries, Bool.and_eq_true] at hi
        rcases List.mem_cons.mp hkv with h1 | h1
        · exact h1 ▸ hi.1
        · exact ih hi.2 h1)
    data "" "" [] true [] h
  intro s hs
  obtain ⟨_, _, hn⟩ := key s hs
  cases hl : s.leaf with
  | bool b =>
    rw [hl] at hn
    simp [noBool] at hn
  | null => rfl
  | float x => rfl
  | int n => rfl
  | str v => rfl
  | seq vv => rfl
  | map vv => rfl

/-- Claim C25, counterexample. The string `x` in the sequence `list`, declared
Int, makes its call return an error; the number after it is flattened with the
index 1, whereas without the string its index is 0. -/
theorem offending_element_keeps_position_example :
    parse { TagKeys := [], vars := varsOffending } (Value.str "x") "" "list" [("list", "0")]
      ParserState.fresh =
      Outcome.returned (some (ParseError.cannotParse "x"), ParserState.fresh) ∧
    parseMapInterface [] docOffendingElement [] varsOffending = Outcome.returned (Except.ok
      [{ fields := [("list", FieldValue.int 1)], tags := [("node", "__"), ("list", "1")] }]) ∧
    parseMapInterface [] (Value.map [("list", Value.seq [Value.int 1]), ("t", Value.str "n/a")])
      [] varsOffending = Outcome.returned (Except.ok
      [{ fields := [("list", FieldValue.int 1)], tags := [("node", "__"), ("list", "0")] }]) := by
  refine ⟨?_, ?_, ?_⟩ <;> decide

/-- Claim C25, amended. When the root of the tree is a mapping or a sequence
and the tree holds no native boolean, `parseMapInterface` returns records and
no error.  A call of `parse` that returns an error leaves the parser as it
was, so the leaf adds no record and no tag, and the result is the one for the
tree with `null` in the place of every offending leaf, and for that tree
without the entries of mappings that hold `null` or the empty string: an
offending element of a sequence keeps its position. -/
theorem child_errors_are_discarded (TagKeys : List String) (data : Value) (callerTags : Tags)
    (vars : List Variable) (hroot : data.isAtom = false) (hnb : noBool data = true) :
    (∃ recs, parseMapInterface TagKeys data callerTags vars =
      Outcome.returned (Except.ok recs)) ∧
    (∀ leaf node name ctx st e st1,
      parse { TagKeys := TagKeys, vars := vars } leaf node name ctx st =
        Outcome.returned (some e, st1) → st1 = st) ∧
    parseMapInterface TagKeys
        (withoutOffending { TagKeys := TagKeys, vars := vars } data "" "") callerTags vars =
      parseMapInterface TagKeys data callerTags vars ∧
    parseMapInterface TagKeys
        (stripEmpty (withoutOffending { TagKeys := TagKeys, vars := vars } data "" ""))
        callerTags vars =
      parseMapInterface TagKeys data callerTags vars := by
  have hwo : parseMapInterface TagKeys
      (withoutOffending { TagKeys := TagKeys, vars := vars } data "" "") callerTags vars =
      parseMapInterface TagKeys data callerTags vars :=
    parseMapInterface_congr TagKeys _ data callerTags vars
      ((withoutOffending_isAtom _ data "" "").trans hroot) hroot
      (parse_withoutOffending _ data "" "" [] ParserState.fresh)
  refine ⟨⟨_, parseMapInterface_of_sites TagKeys data callerTags vars hroot
    (sites_noBool data hnb)⟩, ?_, hwo, ?_⟩
  · intro leaf node name ctx st e st1 h
    exact (parse_error_inert _ leaf node name ctx st st1 e h).1
  · rw [← hwo]
    simp only [parseMapInterface, parse_stripEmpty]

theorem child_errors_are_discarded_witness :
    withoutOffending { TagKeys := [], vars := varsOffending } docOffendingElement "" "" =
      Value.map [("list", Value.seq [Value.null, Value.int 1]), ("t", Value.null)] ∧
    stripEmpty (withoutOffending { TagKeys := [], vars := varsOffending }
      docOffendingElement "" "") = Value.map [("list", Value.seq [Value.null, Value.int 1])] ∧
    parseMapInterface [] docOffendingElement [] varsOffending = Outcome.returned (Except.ok
      [{ fields := [("list", FieldValue.int 1)], tags := [("node", "__"), ("list", "1")] }]) ∧
    parseMapInterface []
        (stripEmpty (withoutOffending { TagKeys := [], vars := varsOffending }
          docOffendingElement "" "")) [] varsOffending =
      parseMapInterface [] docOffendingElement [] varsOffending :=
  ⟨rfl, rfl, by decide,
    (child_errors_are_discarded [] docOffendingElement [] varsOffending (by decide)
      (by decide)).2.2.2⟩


/-! ## Sequences of numbers in the returned records -/

mutual
/-- The leaves below a call of `parse` are visited one after the other: they
form a block of the leaves below every node above it. -/
theorem sites_of_call : ∀ (data : Value) (node name : String) (ctx : Tags) (root : Bool)
    (segs : List String), ∀ c ∈ calls data node name ctx,
    ∃ (L1 L2 : List Site) (rt : Bool) (sg : List String),
      sites data node name ctx root segs =
        L1 ++ sites c.data c.node c.name c.indexes rt sg ++ L2
  | Value.str _, _, _, _, _, _, c, hc => by simp [calls] at hc
  | Value.float _, _, _, _, _, _, c, hc => by simp [calls] at hc
  | Value.int _, _, _, _, _, _, c, hc => by simp [calls] at hc
  | Value.null, _, _, _, _, _, c, hc => by simp [calls] at hc
  | Value.bool _, _, _, _, _, _, c, hc => by simp [calls] at hc
  | Value.seq vv, node, name, ctx, root, segs, c, hc => by
    simp only [calls] at hc
    simp only [sites]
    exact sitesElems_of_call vv node (trimName name) ctx 0 root segs c hc
  | Value.map vv, node, name, ctx, root, segs, c, hc => by
    simp only [calls] at hc
    simp only [sites]
    exact sitesEntries_of_call vv (nodePath node (trimName name)) ctx _ c hc
theorem sitesElems_of_call : ∀ (elems : List Value) (node name : String) (ctx : Tags) (i : Nat)
    (root : Bool) (segs : List String), ∀ c ∈ callsElems elems node name ctx i,
    ∃ (L1 L2 : List Site) (rt : Bool) (sg : List String),
      sitesElems elems node name ctx i root segs =
        L1 ++ sites c.data c.node c.name c.indexes rt sg ++ L2
  | [], _, _, _, _, _, _, c, hc => by simp [callsElems] at hc
  | u :: rest, node, name, ctx, i, root, segs, c, hc => by
    simp only [callsElems, List.mem_cons, List.mem_append] at hc
    rcases hc with h | h | h
    · subst h
      exact ⟨[], sitesElems rest node name ctx (i + 1) root segs, root, segs,
        by simp only [sitesElems, List.nil_append]⟩
    · obtain ⟨L1, L2, rt, sg, e⟩ :=
        sites_of_call u node name (newIndexed ctx name i) root segs c h
      exact ⟨L1, L2 ++ sitesElems rest node name ctx (i + 1) root segs, rt, sg,
        by simp only [sitesElems, e, List.append_assoc]⟩
    · obtain ⟨L1, L2, rt, sg, e⟩ :=
        sitesElems_of_call rest node name ctx (i + 1) root segs c h
      exact ⟨sites u node name (newIndexed ctx name i) root segs ++ L1, L2, rt, sg,
        by simp only [sitesElems, e, List.append_assoc]⟩
theorem sitesEntries_of_call : ∀ (entries : List (String × Value)) (nodeName : String)
    (ctx : Tags) (segs : List String), ∀ c ∈ callsEntries entries nodeName ctx,
    ∃ (L1 L2 : List Site) (rt : Bool) (sg : List String),
      sitesEntries entries nodeName ctx segs =
        L1 ++ sites c.data c.node c.name c.indexes rt sg ++ L2
  | [], _, _, _, c, hc => by simp [callsEntries] at hc
  | (k, v) :: rest, nodeName, ctx, segs, c, hc => by
    simp only [callsEntries, List.mem_cons, List.mem_append] at hc
    rcases hc with h | h | h
    · subst h
      exact ⟨[], sitesEntries rest nodeName ctx segs, false, segs,
        by simp only [sitesEntries, List.nil_append]⟩
    · obtain ⟨L1, L2, rt, sg, e⟩ := sites_of_call v nodeName k ctx false segs c h
      exact ⟨L1, L2 ++ sitesEntries rest nodeName ctx segs, rt, sg,
        by simp only [sitesEntries, e, List.append_assoc]⟩
    · obtain ⟨L1, L2, rt, sg, e⟩ := sitesEntries_of_call rest nodeName ctx segs c h
      exact ⟨sites v nodeName k ctx false segs ++ L1, L2, rt, sg,
        by simp only [sitesEntries, e, List.append_assoc]⟩
end

theorem recordsOf_append (cfg : Config) (l1 l2 : List Site) :
    recordsOf cfg (l1 ++ l2) = recordsOf cfg l1 ++ recordsOf cfg l2 := by
  simp [recordsOf]

/-- The leaves give one record each when they give one. -/
theorem recordsOf_length (cfg : Config) (l : List Site) (ha : ∀ s ∈ l, s.leaf.isAtom = true) :
    (recordsOf cfg l).length = (l.filter (Site.yields cfg)).length :=
  (forall₂_recordsOf cfg (fun _ _ => True) l ha (fun _ _ _ _ => trivial)).length_eq

/-- The records of the leaves of a sequence of numbers whose path is not
listed. -/
theorem recordsOf_numbers (cfg : Config) (node name : String) (ctx : Tags) (xs : List Number)
    (rt : Bool) (sg : List String) (h : nodePath node (trimName name) ∉ cfg.TagKeys) :
    recordsOf cfg (sites (Value.seq (xs.map Number.toValue)) node name ctx rt sg) =
      numberRecords node (trimName name) ctx xs 0 := by
  have hp := (parse_sequence_of_numbers cfg node name ctx ParserState.fresh xs h).1
  have hw := parse_eq_runSites cfg (Value.seq (xs.map Number.toValue)) node name ctx rt sg
    ParserState.fresh
  have hat := sites_atoms (Value.seq (xs.map Number.toValue)) node name ctx rt sg
  rw [hp] at hw
  simp only [Outcome.dropError] at hw
  have hnb := no_bool_of_runSites_returned cfg _ hat _ _ hw.symm
  rw [runSites_returned cfg _ hat hnb ParserState.fresh] at hw
  simp only [Outcome.returned.injEq, ParserState.mk.injEq] at hw
  simpa [ParserState.fresh] using hw.1.symm

/-- Claim C13, counterexample. The field and the index tag of the records of a
sequence are named by the key after sanitization, `ab` for the key `a-b`, and
a caller tag keyed like the sequence, such as the tag `server` that
`gatherServer` passes, replaces the index in the returned records. -/
theorem sequence_key_is_sanitized_and_overwritten_example :
    parseMapInterface [] docHyphenKey [] [] = Outcome.returned (Except.ok
      [{ fields := [("ab", FieldValue.float (Float64.ofNat 7))],
         tags := [("node", "__"), ("ab", "0")] }]) ∧
    parseMapInterface [] docSequenceNamedServer [("url", "u"), ("server", "h")] [] =
      Outcome.returned (Except.ok
        [{ fields := [("server", FieldValue.float (Float64.ofNat 7))],
           tags := [("node", "__"), ("server", "h"), ("url", "u")] },
         { fields := [("server", FieldValue.float (Float64.ofNat 8))],
           tags := [("node", "__"), ("server", "h"), ("url", "u")] }]) := by
  constructor <;> decide

/-- Claim C13, amended. Let `parse` be called, during a flattening that returns
records, on a sequence of N numbers under the name `name` (for a mapping entry
the key), its path not in `TagKeys`, and let the sanitized name be neither
listed in `TagKeys` nor the key of a caller tag.  Then the returned list holds,
after the records of the leaves visited before the sequence and before those of
the leaves visited after it, exactly N records for the sequence: the i-th
(from 0) holds the one field named by the sanitized name with the i-th number
and carries the tag of that name with the decimal text of i.  The sequence
node adds no record of its own, an empty sequence none at all. -/
theorem sequence_of_numbers_yields_indexed_records (TagKeys : List String) (tree : Value)
    (callerTags : Tags) (vars : List Variable) (recs : List MetricsTable)
    (node name : String) (ctx : Tags) (xs : List Number)
    (hret : parseMapInterface TagKeys tree callerTags vars = Outcome.returned (Except.ok recs))
    (hcall : (⟨Value.seq (xs.map Number.toValue), node, name, ctx⟩ : Call) ∈
      calls tree "" "" [])
    (hpath : nodePath node (trimName name) ∉ TagKeys)
    (hkey : trimName name ∉ TagKeys)
    (hcaller : trimName name ∉ GoMap.keys callerTags) :
    ∃ (L1 L2 : List Site) (rt : Bool) (sg : List String),
      sitesOf tree =
        L1 ++ sites (Value.seq (xs.map Number.toValue)) node name ctx rt sg ++ L2 ∧
      ∃ before mid after, recs = before ++ mid ++ after ∧
        before.length = (L1.filter (Site.yields { TagKeys := TagKeys, vars := vars })).length ∧
        after.length = (L2.filter (Site.yields { TagKeys := TagKeys, vars := vars })).length ∧
        mid.length = xs.length ∧
        ∀ (i : Nat) (x : Number), xs[i]? = some x →
          ∃ r, mid[i]? = some r ∧ r.fields = [(trimName name, x.toField)] ∧
            GoMap.get? r.tags (trimName name) = some (toString i) := by
  obtain ⟨_, hrecs⟩ := parseMapInterface_returned TagKeys tree callerTags vars recs hret
  obtain ⟨L1, L2, rt, sg, hs⟩ := sites_of_call tree "" "" [] true [] _ hcall
  have hs2 : sitesOf tree =
      L1 ++ sites (Value.seq (xs.map Number.toValue)) node name ctx rt sg ++ L2 := hs
  have hat : ∀ s ∈ sitesOf tree, s.leaf.isAtom = true := sites_atoms tree "" "" [] true []
  have hat1 : ∀ s ∈ L1, s.leaf.isAtom = true := fun s h1 =>
    hat s (by rw [hs2]; exact List.mem_append_left _ (List.mem_append_left _ h1))
  have hat2 : ∀ s ∈ L2, s.leaf.isAtom = true := fun s h2 =>
    hat s (by rw [hs2]; exact List.mem_append_right _ h2)
  have hrec : recordsOf { TagKeys := TagKeys, vars := vars } (sitesOf tree) =
      recordsOf { TagKeys := TagKeys, vars := vars } L1 ++
        numberRecords node (trimName name) ctx xs 0 ++
        recordsOf { TagKeys := TagKeys, vars := vars } L2 := by
    rw [hs2, recordsOf_append, recordsOf_append,
      recordsOf_numbers { TagKeys := TagKeys, vars := vars } node name ctx xs rt sg hpath]
  have hI : ∀ it ∈ scopedOf { TagKeys := TagKeys, vars := vars } (sitesOf tree),
      trimName name ∉ GoMap.keys it.tag := by
    intro it hit hk
    obtain ⟨s2, _, w, hT, hl, _⟩ := mem_scopedOf _ _ hat it hit
    rw [hT] at hk
    simp only [GoMap.keys, List.map_cons, List.map_nil, List.mem_singleton] at hk
    exact hkey (hk ▸ hl)
  have hC : trimName name ∉ GoMap.keys
      (GoMap.assignAll [] (globalsOf { TagKeys := TagKeys, vars := vars } (sitesOf tree))) := by
    intro hk
    rcases GoMap.keys_assignAll_subset _ _ _ hk with h | h
    · simp [GoMap.keys] at h
    · obtain ⟨_, _, _, _, hl⟩ := mem_globalsOf _ _ hat (trimName name) h
      exact hkey hl
  refine ⟨L1, L2, rt, sg, hs2,
    (recordsOf { TagKeys := TagKeys, vars := vars } L1).map
      (finalize callerTags
        (GoMap.assignAll [] (globalsOf { TagKeys := TagKeys, vars := vars } (sitesOf tree)))
        (scopedOf { TagKeys := TagKeys, vars := vars } (sitesOf tree))),
    (numberRecords node (trimName name) ctx xs 0).map
      (finalize callerTags
        (GoMap.assignAll [] (globalsOf { TagKeys := TagKeys, vars := vars } (sitesOf tree)))
        (scopedOf { TagKeys := TagKeys, vars := vars } (sitesOf tree))),
    (recordsOf { TagKeys := TagKeys, vars := vars } L2).map
      (finalize callerTags
        (GoMap.assignAll [] (globalsOf { TagKeys := TagKeys, vars := vars } (sitesOf tree)))
        (scopedOf { TagKeys := TagKeys, vars := vars } (sitesOf tree))),
    ?_, ?_, ?_, ?_, ?_⟩
  · rw [hrecs, hrec, List.map_append, List.map_append]
  · rw [List.length_map]
    exact recordsOf_length _ L1 hat1
  · rw [List.length_map]
    exact recordsOf_length _ L2 hat2
  · rw [List.length_map]
    exact numberRecords_length node (trimName name) ctx xs 0
  · intro i x hx
    have hget := numberRecords_getElem? node (trimName name) ctx xs 0 i x hx
    refine ⟨_, by rw [List.getElem?_map, hget]; rfl, rfl, ?_⟩
    simp only [finalize]
    rw [get?_applyIndexTags_of_not_mem _ _ _ hI, GoMap.get?_assignAll_of_not_mem _ _ _ hC,
      GoMap.get?_assignAll_of_not_mem _ _ _ hcaller]
    simp only [Nat.zero_add]
    exact get?_tags_newIndexed _ ctx (trimName name) i

theorem sequence_of_numbers_yields_indexed_records_witness :
    parseMapInterface [] docValidJSON tagsServer1 cfgSingle.vars =
      Outcome.returned (Except.ok recsValidJSON) ∧
    ∃ (L1 L2 : List Site) (rt : Bool) (sg : List String),
      sitesOf docValidJSON =
        L1 ++ sites (Value.seq (numbersList.map Number.toValue)) "" "list" [] rt sg ++ L2 ∧
      ∃ before mid after, recsValidJSON = before ++ mid ++ after ∧
        before.length =
          (L1.filter (Site.yields { TagKeys := [], vars := cfgSingle.vars })).length ∧
        after.length =
          (L2.filter (Site.yields { TagKeys := [], vars := cfgSingle.vars })).length ∧
        mid.length = numbersList.length ∧
        ∀ (i : Nat) (x : Number), numbersList[i]? = some x →
          ∃ r, mid[i]? = some r ∧ r.fields = [(trimName "list", x.toField)] ∧
            GoMap.get? r.tags (trimName "list") = some (toString i) :=
  ⟨by decide,
    sequence_of_numbers_yields_indexed_records [] docValidJSON tagsServer1 cfgSingle.vars
      recsValidJSON "" "list" [] numbersList (by decide)
      (List.mem_iff_getElem?.mpr ⟨5, rfl⟩)
      (by decide) (by decide) (by decide)⟩

end WebApi
